import Mathlib

/-!
# Buffered I/O and RESP codec of `mosn/pkg/protocol`

A shallow embedding of `pkg/protocol/util.go` (`BufReader`, `BufWriter`,
`sliceAlloc`) and of `pkg/protocol/resp/encoder.go` (`Encoder`,
`EncodeToBytes`), followed by the properties established about them.  The RESP
decoder and the declaration of the type `Resp` are not among the sources at
hand; what is needed of them is modelled from the specification and marked so.

Conventions of the embedding.

* A Go `byte` is a natural number (values below 256); a `[]byte` or `string`
  is a `List Byte`.  A slice that may be `nil` is an `Option (List Byte)`.
* A Go `error` is an `Option Error`; `none` is `nil`.
* An `io.Writer` / `io.Reader` is a transition function on an abstract state.
* A loop whose number of iterations depends on the behaviour of the sink or
  of the source takes a `fuel` argument and returns `none` when it runs out;
  a loop with a bound that holds for every sink or source carries that bound.
-/

namespace protocol

/-- A Go `byte`. -/
abbrev Byte := Nat

/-- The `error` values that occur in the two packages. -/
inductive Error where
  | EOF
  | ErrUnexpectedEOF
  | ErrNoProgress
  | ErrShortWrite
  | ErrBufferFull
  | ErrShortBuffer
  | ErrFailedEncoder
  | badRespType (t : Byte)
  | ioBufferShortWrite (expected actual : Nat)
  | other (code : Nat)
  deriving DecidableEq, Repr

/-- An `io.Writer`: `Write s p` is the new state of the sink, the reported count
`n` and the reported error.  A sink is taken to report `n ≤ len(p)`: with a
larger count the expression `p[n:]` of `BufWriter.Write` panics in Go, where the
model goes on with the empty slice. -/
structure Writer (σ : Type) where
  Write : σ → List Byte → σ × Nat × Option Error

/-- An `io.Reader`: `Read s k` is what a call `Read(p)` with `len(p) = k` does in
state `s`: the new state, the bytes stored at the front of `p` (their number is
the reported count `n`) and the reported error.  Nothing forces the count to be
at most `k` here; the properties that need it assume it (`Streams`). -/
structure Reader (ρ : Type) where
  Read : ρ → Nat → ρ × List Byte × Option Error

/-- The builtin `copy(buf[off:], src)`: the updated `buf` and the number of
bytes copied. -/
def copyAt (buf : List Byte) (off : Nat) (src : List Byte) : List Byte × Nat :=
  let n := min (buf.length - off) src.length
  (buf.take off ++ src.take n ++ buf.drop (off + n), n)

/-- The type `BufWriter` of `util.go`. -/
structure BufWriter (σ : Type) where
  err : Option Error
  buf : List Byte
  wr : σ
  wpos : Nat

/-- The function `NewBufWriterSize` with `DefaultBufferSize = 1024`. -/
def NewBufWriterSize {σ : Type} (wr : σ) (size : Int) : BufWriter σ :=
  let size := if size ≤ 0 then 1024 else size
  { err := none, buf := List.replicate size.toNat 0, wr := wr, wpos := 0 }

/-- The method `BufWriter.flush`. -/
def BufWriter.flush {σ : Type} (W : Writer σ) (b : BufWriter σ) :
    Option Error × BufWriter σ :=
  match b.err with
  | some e => (some e, b)
  | none =>
    if b.wpos = 0 then (none, b)
    else
      match W.Write b.wr (b.buf.take b.wpos) with
      | (s, _, some e) => (some e, { b with wr := s, err := some e })
      | (s, n, none) =>
        if n < b.wpos then
          (some Error.ErrShortWrite, { b with wr := s, err := some Error.ErrShortWrite })
        else (none, { b with wr := s, wpos := 0 })

/-- The method `BufWriter.Flush`. -/
def BufWriter.Flush {σ : Type} (W : Writer σ) (b : BufWriter σ) :
    Option Error × BufWriter σ :=
  b.flush W

/-- The method `BufWriter.available`; `wpos` never exceeds `len(buf)`, so the
difference is taken in the natural numbers. -/
def BufWriter.available {σ : Type} (b : BufWriter σ) : Nat :=
  b.buf.length - b.wpos

/-- The statements `n := copy(b.buf[b.wpos:], p); b.wpos += n`. -/
def BufWriter.put {σ : Type} (b : BufWriter σ) (p : List Byte) : BufWriter σ :=
  { b with buf := (copyAt b.buf b.wpos p).1, wpos := b.wpos + (copyAt b.buf b.wpos p).2 }

/-- The `for` loop of `BufWriter.Write`; the state of the loop is the writer,
`nn` and the rest of `p`. -/
def BufWriter.writeLoop {σ : Type} (W : Writer σ) :
    Nat → BufWriter σ → Nat → List Byte → Option (BufWriter σ × Nat × List Byte)
  | 0, _, _, _ => none
  | fuel + 1, b, nn, p =>
    if b.err = none ∧ p.length > b.available then
      if b.wpos = 0 then
        match W.Write b.wr p with
        | (s, n, e) =>
          BufWriter.writeLoop W fuel { b with wr := s, err := e } (nn + n) (p.drop n)
      else
        let n := (copyAt b.buf b.wpos p).2
        BufWriter.writeLoop W fuel (BufWriter.flush W (b.put p)).2 (nn + n) (p.drop n)
    else some (b, nn, p)

/-- The method `BufWriter.Write`. -/
def BufWriter.Write {σ : Type} (W : Writer σ) (fuel : Nat) (b : BufWriter σ)
    (p : List Byte) : Option ((Nat × Option Error) × BufWriter σ) :=
  match BufWriter.writeLoop W fuel b 0 p with
  | none => none
  | some (b1, nn, p1) =>
    if b1.err ≠ none ∨ p1.length = 0 then some ((nn, b1.err), b1)
    else
      some ((nn + (copyAt b1.buf b1.wpos p1).2, none), b1.put p1)

/-- The method `BufWriter.WriteByte`. -/
def BufWriter.WriteByte {σ : Type} (W : Writer σ) (b : BufWriter σ) (c : Byte) :
    Option Error × BufWriter σ :=
  match b.err with
  | some e => (some e, b)
  | none =>
    if b.available = 0 then
      match b.flush W with
      | (some _, b1) => (b1.err, b1)
      | (none, b1) => (none, { b1 with buf := b1.buf.set b1.wpos c, wpos := b1.wpos + 1 })
    else (none, { b with buf := b.buf.set b.wpos c, wpos := b.wpos + 1 })

/-- The `for` loop of `BufWriter.WriteString`. -/
def BufWriter.writeStringLoop {σ : Type} (W : Writer σ) :
    Nat → BufWriter σ → Nat → List Byte → Option (BufWriter σ × Nat × List Byte)
  | 0, _, _, _ => none
  | fuel + 1, b, nn, s =>
    if b.err = none ∧ s.length > b.available then
      let n := (copyAt b.buf b.wpos s).2
      BufWriter.writeStringLoop W fuel (BufWriter.flush W (b.put s)).2 (nn + n) (s.drop n)
    else some (b, nn, s)

/-- The method `BufWriter.WriteString`.  Every iteration of its loop but
possibly the first moves at least one byte of `s` into a non-empty buffer, so
the loop is entered at most `len(s) + 1` times whatever the sink does; with an
empty buffer (`len(buf) = 0`) the Go loop does not terminate and the result is
`none`. -/
def BufWriter.WriteString {σ : Type} (W : Writer σ) (b : BufWriter σ)
    (s : List Byte) : Option ((Nat × Option Error) × BufWriter σ) :=
  match BufWriter.writeStringLoop W (s.length + 2) b 0 s with
  | none => none
  | some (b1, nn, s1) =>
    if b1.err ≠ none ∨ s1.length = 0 then some ((nn, b1.err), b1)
    else
      some ((nn + (copyAt b1.buf b1.wpos s1).2, none), b1.put s1)

/-- A `bytes.Buffer` used as a sink: it appends all of `p` and reports no error. -/
def bytesBuffer : Writer (List Byte) where
  Write := fun s p => (s ++ p, p.length, none)

/-- A sink that accepts every write in full and reports no error; `recv` reads
off the state of the sink the bytes it has received so far. -/
def AcceptsAll {σ : Type} (W : Writer σ) (recv : σ → List Byte) : Prop :=
  ∀ s p, (W.Write s p).2 = (p.length, none) ∧ recv (W.Write s p).1 = recv s ++ p

/-- The state of a usable `BufWriter`: no recorded error, a buffer of capacity
at least one, and `wpos` within the buffer. -/
def BufWriter.Ok {σ : Type} (b : BufWriter σ) : Prop :=
  b.err = none ∧ b.wpos ≤ b.buf.length ∧ 0 < b.buf.length

/-- The bytes a writer has taken charge of: those the sink has received,
followed by those pending in the buffer. -/
def BufWriter.output {σ : Type} (recv : σ → List Byte) (b : BufWriter σ) : List Byte :=
  recv b.wr ++ b.buf.take b.wpos

/-- One call of `Write`, `WriteByte` or `WriteString`, with its argument. -/
inductive WriteCall where
  | Write (p : List Byte)
  | WriteByte (c : Byte)
  | WriteString (s : List Byte)

/-- The bytes a call is asked to write. -/
def WriteCall.arg : WriteCall → List Byte
  | .Write p => p
  | .WriteByte c => [c]
  | .WriteString s => s

/-- The concatenation of the arguments of a sequence of calls, in call order. -/
def WriteCall.args : List WriteCall → List Byte
  | [] => []
  | c :: cs => c.arg ++ WriteCall.args cs

/-- One call on a `BufWriter`: the error it returns and the new state. -/
def BufWriter.call {σ : Type} (W : Writer σ) (fuel : Nat) (b : BufWriter σ) :
    WriteCall → Option (Option Error × BufWriter σ)
  | .Write p => (b.Write W fuel p).map fun r => (r.1.2, r.2)
  | .WriteByte c => some (b.WriteByte W c)
  | .WriteString s => (b.WriteString W s).map fun r => (r.1.2, r.2)

/-- A sequence of calls on a `BufWriter`: the errors returned, in call order,
and the final state. -/
def BufWriter.calls {σ : Type} (W : Writer σ) (fuel : Nat) :
    BufWriter σ → List WriteCall → Option (List (Option Error) × BufWriter σ)
  | b, [] => some ([], b)
  | b, c :: cs =>
    match b.call W fuel c with
    | none => none
    | some (e, b1) =>
      match BufWriter.calls W fuel b1 cs with
      | none => none
      | some (es, b2) => some (e :: es, b2)

/-- The slice expression `l[i:j]`, for `i ≤ j ≤ len(l)`. -/
def subslice (l : List Byte) (i j : Nat) : List Byte :=
  (l.take j).drop i

/-- The type `sliceAlloc` of `util.go`: `buf` is what is left of the current
chunk. -/
structure sliceAlloc where
  buf : List Byte

/-- The method `sliceAlloc.Make`: the slice handed out and the new state. -/
def sliceAlloc.Make (d : sliceAlloc) (n : Nat) : List Byte × sliceAlloc :=
  if n = 0 then ([], d)
  else if n ≥ 512 then (List.replicate n 0, d)
  else
    let chunk := if d.buf.length < n then List.replicate 8192 0 else d.buf
    (chunk.take n, { buf := chunk.drop n })

/-- The type `BufReader` of `util.go`. -/
structure BufReader (ρ : Type) where
  err : Option Error
  buf : List Byte
  rd : ρ
  rpos : Nat
  wpos : Nat
  slice : sliceAlloc

/-- The function `NewBufReaderSize` with `DefaultBufferSize = 1024`. -/
def NewBufReaderSize {ρ : Type} (rd : ρ) (size : Int) : BufReader ρ :=
  let size := if size ≤ 0 then 1024 else size
  { err := none, buf := List.replicate size.toNat 0, rd := rd, rpos := 0, wpos := 0,
    slice := { buf := [] } }

/-- The function `NewBufReader`. -/
def NewBufReader {ρ : Type} (rd : ρ) : BufReader ρ :=
  NewBufReaderSize rd 1024

/-- The function `NewBufReaderBuffer`. -/
def NewBufReaderBuffer {ρ : Type} (rd : ρ) (buf : List Byte) : BufReader ρ :=
  { err := none, buf := if buf.length = 0 then List.replicate 1024 0 else buf, rd := rd,
    rpos := 0, wpos := 0, slice := { buf := [] } }

/-- The compaction at the head of `BufReader.fill`:
`if b.rpos > 0 { n := copy(b.buf, b.buf[b.rpos:b.wpos]); b.rpos = 0; b.wpos = n }`. -/
def BufReader.compact {ρ : Type} (b : BufReader ρ) : BufReader ρ :=
  if b.rpos > 0 then
    { b with buf := (copyAt b.buf 0 (subslice b.buf b.rpos b.wpos)).1, rpos := 0,
             wpos := (copyAt b.buf 0 (subslice b.buf b.rpos b.wpos)).2 }
  else b

/-- The method `BufReader.fill`.  The source stores its bytes in `b.buf[b.wpos:]`
whatever it reports. -/
def BufReader.fill {ρ : Type} (R : Reader ρ) (b : BufReader ρ) : Option Error × BufReader ρ :=
  match b.err with
  | some e => (some e, b)
  | none =>
    let b1 := b.compact
    match R.Read b1.rd (b1.buf.length - b1.wpos) with
    | (s, data, some e) =>
      (some e, { b1 with rd := s, buf := (copyAt b1.buf b1.wpos data).1, err := some e })
    | (s, data, none) =>
      if data.length = 0 then
        (some Error.ErrNoProgress,
          { b1 with rd := s, buf := (copyAt b1.buf b1.wpos data).1,
                    err := some Error.ErrNoProgress })
      else
        (none, { b1 with rd := s, buf := (copyAt b1.buf b1.wpos data).1,
                         wpos := b1.wpos + data.length })

/-- The method `BufReader.buffered`; `rpos` never exceeds `wpos`, so the
difference is taken in the natural numbers. -/
def BufReader.buffered {ρ : Type} (b : BufReader ρ) : Nat :=
  b.wpos - b.rpos

/-- The method `BufReader.Read`, called with a region `p` of length `k`: the
bytes stored at the front of `p` (their number is the returned count), the
returned error and the new state. -/
def BufReader.Read {ρ : Type} (R : Reader ρ) (b : BufReader ρ) (k : Nat) :
    (List Byte × Option Error) × BufReader ρ :=
  if b.err ≠ none ∨ k = 0 then (([], b.err), b)
  else if b.buffered = 0 then
    if k ≥ b.buf.length then
      match R.Read b.rd k with
      | (s, data, some e) => ((data, some e), { b with rd := s, err := some e })
      | (s, data, none) => ((data, none), { b with rd := s })
    else
      match b.fill R with
      | (some _, b1) => (([], b1.err), b1)
      | (none, b1) =>
        (((subslice b1.buf b1.rpos b1.wpos).take k, none),
          { b1 with rpos := b1.rpos + min k (subslice b1.buf b1.rpos b1.wpos).length })
  else
    (((subslice b.buf b.rpos b.wpos).take k, none),
      { b with rpos := b.rpos + min k (subslice b.buf b.rpos b.wpos).length })

/-- The method `BufReader.ReadByte`.  The index of `b.buf[b.rpos]` is in range
where it is evaluated, since then `rpos < wpos ≤ len(buf)`. -/
def BufReader.ReadByte {ρ : Type} (R : Reader ρ) (b : BufReader ρ) :
    (Byte × Option Error) × BufReader ρ :=
  match b.err with
  | some e => ((0, some e), b)
  | none =>
    if b.buffered = 0 then
      match b.fill R with
      | (some _, b1) => ((0, b1.err), b1)
      | (none, b1) => ((b1.buf.getD b1.rpos 0, none), { b1 with rpos := b1.rpos + 1 })
    else ((b.buf.getD b.rpos 0, none), { b with rpos := b.rpos + 1 })

/-- The method `BufReader.PeekByte`. -/
def BufReader.PeekByte {ρ : Type} (R : Reader ρ) (b : BufReader ρ) :
    (Byte × Option Error) × BufReader ρ :=
  match b.err with
  | some e => ((0, some e), b)
  | none =>
    if b.buffered = 0 then
      match b.fill R with
      | (some _, b1) => ((0, b1.err), b1)
      | (none, b1) => ((b1.buf.getD b1.rpos 0, none), b1)
    else ((b.buf.getD b.rpos 0, none), b)

/-- The function `bytes.IndexByte`: the index of the first `c` in `l`, if any. -/
def IndexByte : List Byte → Byte → Option Nat
  | [], _ => none
  | x :: xs, c => if x = c then some 0 else (IndexByte xs c).map (· + 1)

/-- The `for` loop of `BufReader.ReadSlice`.  The result is the slice returned
(`none` is `nil`), the error and the new state. -/
def BufReader.readSliceLoop {ρ : Type} (R : Reader ρ) (delim : Byte) :
    Nat → BufReader ρ → Option ((Option (List Byte) × Option Error) × BufReader ρ)
  | 0, _ => none
  | fuel + 1, b =>
    match IndexByte (subslice b.buf b.rpos b.wpos) delim with
    | some index =>
      some ((some (subslice b.buf b.rpos (b.rpos + index + 1)), none),
        { b with rpos := b.rpos + index + 1 })
    | none =>
      if b.buffered = b.buf.length then
        some ((some b.buf, some Error.ErrBufferFull), { b with rpos := b.wpos })
      else
        match b.fill R with
        | (some _, b1) => some ((none, b1.err), b1)
        | (none, b1) => BufReader.readSliceLoop R delim fuel b1

/-- The method `BufReader.ReadSlice`.  Every turn of its loop that does not
return has added at least one byte to the unread part of the buffer, which
holds at most `len(b.buf)` bytes, so the loop is entered at most
`len(b.buf) + 1` times when the source reports no more bytes than it was given
room for. -/
def BufReader.ReadSlice {ρ : Type} (R : Reader ρ) (b : BufReader ρ) (delim : Byte) :
    Option ((Option (List Byte) × Option Error) × BufReader ρ) :=
  match b.err with
  | some e => some ((none, some e), b)
  | none => BufReader.readSliceLoop R delim (b.buf.length + 1) b

/-- The tail of `BufReader.ReadBytes`: the fragments and the last piece are
copied one after the other into a slice of `size` bytes. -/
def gather (buf : List Byte) : Nat → List (List Byte) → List Byte → List Byte
  | n, [], last => (copyAt buf n last).1
  | n, frag :: full, last => gather (copyAt buf n frag).1 (n + (copyAt buf n frag).2) full last

/-- The method `BufReader.ReadBytes`; `full` and `size` are the variables of the
same names, and a turn of the loop uses one unit of `fuel`. -/
def BufReader.readBytesLoop {ρ : Type} (R : Reader ρ) (delim : Byte) :
    Nat → BufReader ρ → List (List Byte) → Nat →
      Option ((Option (List Byte) × Option Error) × BufReader ρ)
  | 0, _, _, _ => none
  | fuel + 1, b, full, size =>
    match b.ReadSlice R delim with
    | none => none
    | some ((f, some e), b1) =>
      if e ≠ Error.ErrBufferFull then some ((none, b1.err), b1)
      else
        BufReader.readBytesLoop R delim fuel
          { b1 with slice := (b1.slice.Make (f.getD []).length).2 }
          (full ++ [(copyAt (b1.slice.Make (f.getD []).length).1 0 (f.getD [])).1])
          (size + (f.getD []).length)
    | some ((none, none), b1) => BufReader.readBytesLoop R delim fuel b1 full size
    | some ((some last, none), b1) =>
      some ((some (gather (b1.slice.Make (size + last.length)).1 0 full last), none),
        { b1 with slice := (b1.slice.Make (size + last.length)).2 })

/-- The method `BufReader.ReadBytes`. -/
def BufReader.ReadBytes {ρ : Type} (R : Reader ρ) (fuel : Nat) (b : BufReader ρ)
    (delim : Byte) : Option ((Option (List Byte) × Option Error) × BufReader ρ) :=
  BufReader.readBytesLoop R delim fuel b [] 0

/-- The loop `for n < min && err == nil` of `io.ReadAtLeast` of the Go standard
library, reading from a `BufReader` into `buf`, with `min = len(buf)`. -/
def readAtLeastLoop {ρ : Type} (R : Reader ρ) :
    Nat → BufReader ρ → List Byte → Nat → Option Error →
      Option ((List Byte × Nat × Option Error) × BufReader ρ)
  | 0, _, _, _, _ => none
  | fuel + 1, b, buf, n, err =>
    if n < buf.length ∧ err = none then
      match b.Read R (buf.length - n) with
      | ((data, e), b1) =>
        readAtLeastLoop R fuel b1 (copyAt buf n data).1 (n + data.length) e
    else some ((buf, n, err), b)

/-- The function `io.ReadFull` of the Go standard library, reading from a
`BufReader`: the contents of `buf`, the count and the error. -/
def ioReadFull {ρ : Type} (R : Reader ρ) (fuel : Nat) (b : BufReader ρ) (buf : List Byte) :
    Option ((List Byte × Nat × Option Error) × BufReader ρ) :=
  match readAtLeastLoop R fuel b buf 0 none with
  | none => none
  | some ((buf1, n, err), b1) =>
    if n ≥ buf.length then some ((buf1, n, none), b1)
    else if n > 0 ∧ err = some Error.EOF then some ((buf1, n, some Error.ErrUnexpectedEOF), b1)
    else some ((buf1, n, err), b1)

/-- The method `BufReader.ReadFull`. -/
def BufReader.ReadFull {ρ : Type} (R : Reader ρ) (fuel : Nat) (b : BufReader ρ) (n : Nat) :
    Option ((Option (List Byte) × Option Error) × BufReader ρ) :=
  if b.err ≠ none ∨ n = 0 then some ((none, b.err), b)
  else
    match ioReadFull R fuel { b with slice := (b.slice.Make n).2 } (b.slice.Make n).1 with
    | none => none
    | some ((_, _, some e), b1) => some ((none, some e), b1)
    | some ((buf1, _, none), b1) => some ((some buf1, none), b1)

/-- A `strings.Reader` used as a source: its state is what is left of the
string. -/
def stringsReader : Reader (List Byte) where
  Read := fun s k => if s.length = 0 then (s, [], some Error.EOF) else (s.drop k, s.take k, none)

/-- A source that holds a string and hands out at most `m` bytes of it at each
read. -/
def fragmentReader (m : Nat) : Reader (List Byte) where
  Read := fun s k =>
    if s.length = 0 then (s, [], some Error.EOF)
    else (s.drop (min m k), s.take (min m k), none)

/-- The source delivers the byte stream `rem s`: a read stores no more bytes
than the region has room for, and what it stores is the front of the stream. -/
def Streams {ρ : Type} (R : Reader ρ) (rem : ρ → List Byte) : Prop :=
  ∀ s k, (R.Read s k).2.1.length ≤ k ∧ rem s = (R.Read s k).2.1 ++ rem (R.Read s k).1

/-- The source makes progress: while its stream is not exhausted, a read into a
non-empty region delivers at least one byte and reports no error. -/
def Progresses {ρ : Type} (R : Reader ρ) (rem : ρ → List Byte) : Prop :=
  ∀ s k, 0 < k → rem s ≠ [] → (R.Read s k).2.2 = none ∧ (R.Read s k).2.1 ≠ []

/-- The source never stalls: a read into a non-empty region that delivers no
byte reports an error. -/
def NeverStalls {ρ : Type} (R : Reader ρ) : Prop :=
  ∀ s k, 0 < k → (R.Read s k).2.1 = [] → (R.Read s k).2.2 ≠ none

/-- The state of a usable `BufReader`: a buffer of capacity at least one and
`rpos ≤ wpos ≤ len(buf)`. -/
def BufReader.Ok {ρ : Type} (b : BufReader ρ) : Prop :=
  b.rpos ≤ b.wpos ∧ b.wpos ≤ b.buf.length ∧ 0 < b.buf.length

/-- The unread byte stream of a reader: the unread bytes of the buffer followed
by what the source still holds. -/
def BufReader.unread {ρ : Type} (rem : ρ → List Byte) (b : BufReader ρ) : List Byte :=
  subslice b.buf b.rpos b.wpos ++ rem b.rd

/-- The results of `n` successive calls of `ReadByte`, and the final state. -/
def BufReader.readByteTimes {ρ : Type} (R : Reader ρ) :
    Nat → BufReader ρ → List (Byte × Option Error) × BufReader ρ
  | 0, b => ([], b)
  | n + 1, b =>
    ((b.ReadByte R).1 :: (BufReader.readByteTimes R n (b.ReadByte R).2).1,
      (BufReader.readByteTimes R n (b.ReadByte R).2).2)

/-- What `ReadSlice(delim)` returns on the usable reader `b` with no recorded
error, `out` being the slice, the error and the new state: a slice that ends
with its only `delim`; the whole buffer, free of `delim`, with `ErrBufferFull`;
or `nil` with the error that a refill has just recorded. -/
def SliceResult {ρ : Type} (R : Reader ρ) (rem : ρ → List Byte) (delim : Byte)
    (b : BufReader ρ) (out : (Option (List Byte) × Option Error) × BufReader ρ) : Prop :=
  out.2.buf.length = b.buf.length ∧
  ((∃ sl, out.1 = (some sl, none) ∧ IndexByte sl delim = some (sl.length - 1) ∧
      BufReader.unread rem b = sl ++ BufReader.unread rem out.2 ∧ out.2.Ok ∧
      out.2.err = none ∧ sl.length ≤ out.2.rpos ∧
      sl = subslice out.2.buf (out.2.rpos - sl.length) out.2.rpos) ∨
   (∃ sl, out.1 = (some sl, some Error.ErrBufferFull) ∧ sl.length = b.buf.length ∧
      IndexByte sl delim = none ∧
      BufReader.unread rem b = sl ++ BufReader.unread rem out.2 ∧ out.2.Ok ∧
      out.2.err = none ∧ out.2.rpos = out.2.wpos) ∨
   (∃ e, out.1 = (none, some e) ∧ out.2.err = some e ∧
      (e = Error.ErrNoProgress ∨ ∃ s k, (R.Read s k).2.2 = some e)))

/-- The slices returned by `n` successive calls of `ReadBytes(delim)` that all
succeed, and the final state. -/
def BufReader.readBytesTimes {ρ : Type} (R : Reader ρ) (fuel : Nat) (delim : Byte) :
    Nat → BufReader ρ → Option (List (List Byte) × BufReader ρ)
  | 0, b => some ([], b)
  | n + 1, b =>
    match b.ReadBytes R fuel delim with
    | some ((some record, none), b1) =>
      (BufReader.readBytesTimes R fuel delim n b1).map fun r => (record :: r.1, r.2)
    | _ => none

/-- The state of the loop of `io.ReadAtLeast` when it has stored the first `n`
bytes of the stream `u` in a slice `buf` of `N` bytes: unless an error has
been returned, the reader is usable and is to deliver the rest of `u`; an error
that has been returned is `ErrNoProgress` or one that the source reports. -/
def ReadAtLeastInv {ρ : Type} (R : Reader ρ) (rem : ρ → List Byte) (u : List Byte) (N : Nat)
    (b : BufReader ρ) (buf : List Byte) (n : Nat) (err : Option Error) : Prop :=
  buf.length = N ∧ n ≤ N ∧ buf.take n = u.take n ∧ n ≤ u.length ∧
  (err = none → b.Ok ∧ b.err = none ∧ BufReader.unread rem b = u.drop n) ∧
  (∀ x, err = some x → x = Error.ErrNoProgress ∨ ∃ s j, (R.Read s j).2.2 = some x)

end protocol

namespace resp

open protocol

/-- Modelled from the spec: the type `Resp` and the tag constants are declared in
a file of the package that is not part of the sources at hand.  A value has a
one-byte type tag, a byte sequence `Value` (`none` is the `nil` slice) and a
sequence of children `Array` (`none` is the `nil` slice). -/
inductive Resp where
  | mk (Typ : Byte) (Value : Option (List Byte)) (Array : Option (List Resp)) : Resp

/-- The field `Type` of a `Resp`. -/
def Resp.Typ : Resp → Byte
  | .mk t _ _ => t

/-- The field `Value` of a `Resp`. -/
def Resp.Value : Resp → Option (List Byte)
  | .mk _ v _ => v

/-- The field `Array` of a `Resp`. -/
def Resp.Array : Resp → Option (List Resp)
  | .mk _ _ a => a

/-- Modelled from the spec: tag `+` of a simple string. -/
def TypeString : Byte := 43
/-- Modelled from the spec: tag `-` of an error. -/
def TypeError : Byte := 45
/-- Modelled from the spec: tag `:` of an integer. -/
def TypeInt : Byte := 58
/-- Modelled from the spec: tag `$` of a bulk string. -/
def TypeBulkBytes : Byte := 36
/-- Modelled from the spec: tag `*` of an array. -/
def TypeArray : Byte := 42

/-- Modelled from the spec: the constructor `NewString` used by the tests. -/
def NewString (b : Option (List Byte)) : Resp := .mk TypeString b none
/-- Modelled from the spec: the constructor `NewError` used by the tests. -/
def NewError (b : Option (List Byte)) : Resp := .mk TypeError b none
/-- Modelled from the spec: the constructor `NewInt` used by the tests. -/
def NewInt (b : Option (List Byte)) : Resp := .mk TypeInt b none
/-- Modelled from the spec: the constructor `NewBulkBytes` used by the tests. -/
def NewBulkBytes (b : Option (List Byte)) : Resp := .mk TypeBulkBytes b none
/-- Modelled from the spec: the constructor `NewArray` used by the tests. -/
def NewArray (a : Option (List Resp)) : Resp := .mk TypeArray none a

/-- The bytes `"\r\n"`. -/
def CRLF : List Byte := [13, 10]

/-- The decimal digits of `n`, most significant first, in front of `acc`; `fuel`
bounds the number of digits. -/
def digitsAux : Nat → Nat → List Byte → List Byte
  | 0, _, acc => acc
  | fuel + 1, n, acc =>
    if n / 10 = 0 then (48 + n % 10) :: acc
    else digitsAux fuel (n / 10) ((48 + n % 10) :: acc)

/-- The function `strconv.FormatUint(n, 10)`. -/
def FormatUint (n : Nat) : List Byte := digitsAux (n + 1) n []

/-- The function `strconv.FormatInt(v, 10)`. -/
def FormatInt (v : Int) : List Byte :=
  if v < 0 then 45 :: FormatUint v.natAbs else FormatUint v.natAbs

/-- The type `Encoder` of `encoder.go`. -/
structure Encoder (σ : Type) where
  bw : BufWriter σ
  Err : Option Error

/-- A step of an encoder method: it does not return (`none`), or it returns an
error value and the new state of the buffered writer. -/
abbrev Step (σ : Type) := Option (Option Error × BufWriter σ)

/-- Sequencing of `if err := first; err != nil { return err }; next`. -/
def Step.andThen {σ : Type} (first : Step σ) (next : BufWriter σ → Step σ) : Step σ :=
  match first with
  | none => none
  | some (some e, bw) => some (some e, bw)
  | some (none, bw) => next bw

/-- The method `Encoder.encodeTextBytes`. -/
def encodeTextBytes {σ : Type} (W : Writer σ) (fuel : Nat) (bw : BufWriter σ)
    (b : Option (List Byte)) : Step σ :=
  Step.andThen ((bw.Write W fuel (b.getD [])).map fun r => (r.1.2, r.2)) fun bw1 =>
  Step.andThen ((bw1.WriteString W CRLF).map fun r => (r.1.2, r.2)) fun bw2 =>
  some (none, bw2)

/-- The method `Encoder.encodeTextString`. -/
def encodeTextString {σ : Type} (W : Writer σ) (bw : BufWriter σ) (s : List Byte) : Step σ :=
  Step.andThen ((bw.WriteString W s).map fun r => (r.1.2, r.2)) fun bw1 =>
  Step.andThen ((bw1.WriteString W CRLF).map fun r => (r.1.2, r.2)) fun bw2 =>
  some (none, bw2)

/-- The method `Encoder.encodeInt`. -/
def encodeInt {σ : Type} (W : Writer σ) (bw : BufWriter σ) (v : Int) : Step σ :=
  encodeTextString W bw (FormatInt v)

/-- The method `Encoder.encodeBulkBytes`. -/
def encodeBulkBytes {σ : Type} (W : Writer σ) (fuel : Nat) (bw : BufWriter σ)
    (b : Option (List Byte)) : Step σ :=
  match b with
  | none => encodeInt W bw (-1)
  | some v =>
    Step.andThen (encodeInt W bw (v.length : Int)) fun bw1 =>
    encodeTextBytes W fuel bw1 (some v)

mutual
/-- The method `Encoder.encodeResp`. -/
def encodeResp {σ : Type} (W : Writer σ) (fuel : Nat) (bw : BufWriter σ) : Resp → Step σ
  | .mk t v a =>
    Step.andThen (some (bw.WriteByte W t)) fun bw1 =>
    if t = TypeString ∨ t = TypeError ∨ t = TypeInt then encodeTextBytes W fuel bw1 v
    else if t = TypeBulkBytes then encodeBulkBytes W fuel bw1 v
    else if t = TypeArray then
      match a with
      | none => encodeInt W bw1 (-1)
      | some l =>
        Step.andThen (encodeInt W bw1 (l.length : Int)) fun bw2 =>
        encodeRange W fuel bw2 l
    else some (some (Error.badRespType t), bw1)
/-- The loop `for _, r := range array` of `Encoder.encodeArray`. -/
def encodeRange {σ : Type} (W : Writer σ) (fuel : Nat) (bw : BufWriter σ) : List Resp → Step σ
  | [] => some (none, bw)
  | r :: rs =>
    Step.andThen (encodeResp W fuel bw r) fun bw1 =>
    encodeRange W fuel bw1 rs
end

/-- The method `Encoder.encodeArray`. -/
def encodeArray {σ : Type} (W : Writer σ) (fuel : Nat) (bw : BufWriter σ)
    (array : Option (List Resp)) : Step σ :=
  match array with
  | none => encodeInt W bw (-1)
  | some l =>
    Step.andThen (encodeInt W bw (l.length : Int)) fun bw1 =>
    encodeRange W fuel bw1 l

/-- The method `Encoder.encodeMultiBulk`. -/
def encodeMultiBulk {σ : Type} (W : Writer σ) (fuel : Nat) (bw : BufWriter σ)
    (multi : Option (List Resp)) : Step σ :=
  Step.andThen (some (bw.WriteByte W TypeArray)) fun bw1 =>
  encodeArray W fuel bw1 multi

/-- The function `NewEncoderBuffer`. -/
def NewEncoderBuffer {σ : Type} (bw : BufWriter σ) : Encoder σ :=
  { bw := bw, Err := none }

/-- The function `NewEncoder`. -/
def NewEncoder {σ : Type} (w : σ) : Encoder σ :=
  NewEncoderBuffer (NewBufWriterSize w 8192)

/-- The function `NewEncoderSize`. -/
def NewEncoderSize {σ : Type} (w : σ) (size : Int) : Encoder σ :=
  NewEncoderBuffer (NewBufWriterSize w size)

/-- The common tail of `Encoder.Encode` and `Encoder.EncodeMultiBulk`: record the
error of the encoding step, or flush when asked to, and return `e.Err`. -/
def Encoder.finish {σ : Type} (W : Writer σ) (flush : Bool) : Step σ →
    Option (Option Error × Encoder σ)
  | none => none
  | some (some err, bw) => some (some err, { bw := bw, Err := some err })
  | some (none, bw) =>
    if flush then
      match bw.Flush W with
      | (e, bw1) => some (e, { bw := bw1, Err := e })
    else some (none, { bw := bw, Err := none })

/-- The method `Encoder.Encode`. -/
def Encoder.Encode {σ : Type} (W : Writer σ) (fuel : Nat) (e : Encoder σ) (r : Resp)
    (flush : Bool) : Option (Option Error × Encoder σ) :=
  match e.Err with
  | some _ => some (some Error.ErrFailedEncoder, e)
  | none => Encoder.finish W flush (encodeResp W fuel e.bw r)

/-- The method `Encoder.EncodeMultiBulk`. -/
def Encoder.EncodeMultiBulk {σ : Type} (W : Writer σ) (fuel : Nat) (e : Encoder σ)
    (multi : Option (List Resp)) (flush : Bool) : Option (Option Error × Encoder σ) :=
  match e.Err with
  | some _ => some (some Error.ErrFailedEncoder, e)
  | none => Encoder.finish W flush (encodeMultiBulk W fuel e.bw multi)

/-- The method `Encoder.Flush`. -/
def Encoder.Flush {σ : Type} (W : Writer σ) (e : Encoder σ) : Option Error × Encoder σ :=
  match e.Err with
  | some _ => (some Error.ErrFailedEncoder, e)
  | none =>
    match e.bw.Flush W with
    | (some err, bw1) => (some err, { bw := bw1, Err := some err })
    | (none, bw1) => (none, { bw := bw1, Err := none })

/-- The function `Encode`. -/
def Encode {σ : Type} (W : Writer σ) (fuel : Nat) (w : σ) (r : Resp) :
    Option (Option Error × Encoder σ) :=
  (NewEncoder w).Encode W fuel r true

/-- The function `EncodeToBytes`, writing into an empty `bytes.Buffer`. -/
def EncodeToBytes (fuel : Nat) (r : Resp) : Option (Except Error (List Byte)) :=
  match Encode bytesBuffer fuel [] r with
  | none => none
  | some (some err, _) => some (Except.error err)
  | some (none, e) => some (Except.ok e.bw.wr)

mutual
/-- The RESP wire form of a value, as a function of the value alone: the text
that the encoder is to produce, or the error of the first node whose tag is
none of the five kinds. -/
def wireFormat : Resp → Except Error (List Byte)
  | .mk t v a =>
    if t = TypeString ∨ t = TypeError ∨ t = TypeInt then
      Except.ok (t :: (v.getD [] ++ CRLF))
    else if t = TypeBulkBytes then
      match v with
      | none => Except.ok (t :: (FormatInt (-1) ++ CRLF))
      | some b => Except.ok (t :: (FormatInt (b.length : Int) ++ CRLF ++ (b ++ CRLF)))
    else if t = TypeArray then
      match a with
      | none => Except.ok (t :: (FormatInt (-1) ++ CRLF))
      | some l =>
        match wireFormats l with
        | Except.ok bs => Except.ok (t :: (FormatInt (l.length : Int) ++ CRLF ++ bs))
        | Except.error e => Except.error e
    else Except.error (Error.badRespType t)
/-- The concatenated wire forms of a list of values. -/
def wireFormats : List Resp → Except Error (List Byte)
  | [] => Except.ok []
  | r :: rs =>
    match wireFormat r with
    | Except.error e => Except.error e
    | Except.ok b =>
      match wireFormats rs with
      | Except.error e => Except.error e
      | Except.ok bs => Except.ok (b ++ bs)
end

/-- What a step of the encoder has to do on a usable writer over a sink that
accepts everything, given the wire form `w` of what it encodes. -/
def StepMeets {σ : Type} (recv : σ → List Byte) (bw : BufWriter σ) (st : Step σ)
    (w : Except Error (List Byte)) : Prop :=
  ∃ bw1, bw1.Ok ∧
    match w with
    | Except.ok bs => st = some (none, bw1) ∧
        BufWriter.output recv bw1 = BufWriter.output recv bw ++ bs
    | Except.error e => st = some (some e, bw1)

/-- Modelled from the spec: the ways in which decoding fails (the file of the
decoder is not part of the sources at hand). -/
inductive DecodeError where
  | invalidType
  | badNumber
  | negativeLength
  | lengthExceedsData
  | missingCRLF
  | prematureEnd
  | emptyCommand
  deriving DecidableEq, Repr

/-- Modelled from the spec: the bytes up to a CRLF terminator, taken verbatim, and
what follows the terminator.  The line ends at the first line feed, which has to
come right after a carriage return; a lone line feed, or the end of the input
before a terminator, is an error. -/
def decodeText (bs : List Byte) : Except DecodeError (List Byte × List Byte) :=
  match IndexByte bs 10 with
  | none => Except.error DecodeError.prematureEnd
  | some i =>
    if 1 ≤ i ∧ bs.getD (i - 1) 0 = 13 then Except.ok (bs.take (i - 1), bs.drop (i + 1))
    else Except.error DecodeError.missingCRLF

/-- The number that a sequence of decimal digits denotes. -/
def digitsValue (ds : List Byte) : Nat :=
  ds.foldl (fun a d => a * 10 + (d - 48)) 0

/-- Modelled from the spec: the number written by a non-empty sequence of decimal
digits; anything else is malformed. -/
def parseNat (ds : List Byte) : Option Nat :=
  if ds ≠ [] ∧ ds.all (fun d => decide (48 ≤ d ∧ d ≤ 57)) = true then some (digitsValue ds)
  else none

/-- Modelled from the spec: the decimal text of a length or of a count, with an
optional minus sign. -/
def parseInt (ds : List Byte) : Option Int :=
  match ds with
  | 45 :: tl => (parseNat tl).map fun n => - (n : Int)
  | _ => (parseNat ds).map fun n => (n : Int)

/-- Modelled from the spec: the length line of a bulk string or the count line of
an array: `none` for `-1`, the number for a non-negative one, and what follows
the line. -/
def decodeLength (bs : List Byte) : Except DecodeError (Option Nat × List Byte) :=
  match decodeText bs with
  | Except.error e => Except.error e
  | Except.ok (text, rest) =>
    match parseInt text with
    | none => Except.error DecodeError.badNumber
    | some v =>
      if v = -1 then Except.ok (none, rest)
      else if v < 0 then Except.error DecodeError.negativeLength
      else Except.ok (some v.toNat, rest)

/-- Modelled from the spec: a bulk string: a length line, then exactly that many
bytes and a CRLF; the length `-1` is the null bulk string. -/
def decodeBulkBytes (bs : List Byte) : Except DecodeError (Option (List Byte) × List Byte) :=
  match decodeLength bs with
  | Except.error e => Except.error e
  | Except.ok (none, rest) => Except.ok (none, rest)
  | Except.ok (some n, rest) =>
    if rest.length < n + 2 then Except.error DecodeError.lengthExceedsData
    else if (rest.drop n).take 2 = CRLF then Except.ok (some (rest.take n), rest.drop (n + 2))
    else Except.error DecodeError.missingCRLF

/-- Modelled from the spec: `n` values decoded one after the other by `dec`. -/
def decodeItems (dec : List Byte → Except DecodeError (Resp × List Byte)) :
    Nat → List Byte → Except DecodeError (List Resp × List Byte)
  | 0, bs => Except.ok ([], bs)
  | n + 1, bs =>
    match dec bs with
    | Except.error e => Except.error e
    | Except.ok (r, rest) =>
      match decodeItems dec n rest with
      | Except.error e => Except.error e
      | Except.ok (rs, rest1) => Except.ok (r :: rs, rest1)

/-- Modelled from the spec: one tagged value at the front of `bs`, and what
follows it.  The leading tag byte determines the kind; the children of an array
are full tagged values.  `fuel` bounds the depth of nesting. -/
def decodeResp : Nat → List Byte → Except DecodeError (Resp × List Byte)
  | 0, _ => Except.error DecodeError.prematureEnd
  | _ + 1, [] => Except.error DecodeError.prematureEnd
  | fuel + 1, t :: bs =>
    if t = TypeString ∨ t = TypeError ∨ t = TypeInt then
      match decodeText bs with
      | Except.error e => Except.error e
      | Except.ok (text, rest) => Except.ok (Resp.mk t (some text) none, rest)
    else if t = TypeBulkBytes then
      match decodeBulkBytes bs with
      | Except.error e => Except.error e
      | Except.ok (v, rest) => Except.ok (Resp.mk t v none, rest)
    else if t = TypeArray then
      match decodeLength bs with
      | Except.error e => Except.error e
      | Except.ok (none, rest) => Except.ok (Resp.mk t none none, rest)
      | Except.ok (some n, rest) =>
        match decodeItems (decodeResp fuel) n rest with
        | Except.error e => Except.error e
        | Except.ok (rs, rest1) => Except.ok (Resp.mk t none (some rs), rest1)
    else Except.error DecodeError.invalidType

/-- Modelled from the spec: the tokens of an inline command: the runs of bytes
between spaces and tabs; `cur` is the token being read, reversed. -/
def inlineTokens : List Byte → List Byte → List (List Byte)
  | [], cur => if cur = [] then [] else [cur.reverse]
  | c :: cs, cur =>
    if c = 32 ∨ c = 9 then
      if cur = [] then inlineTokens cs [] else cur.reverse :: inlineTokens cs []
    else inlineTokens cs (c :: cur)

/-- Modelled from the spec: the inline form, an array of bulk strings made of the
tokens of a line; a line without a token is an error. -/
def decodeInline (bs : List Byte) : Except DecodeError Resp :=
  match decodeText bs with
  | Except.error e => Except.error e
  | Except.ok (text, _) =>
    if inlineTokens text [] = [] then Except.error DecodeError.emptyCommand
    else Except.ok (NewArray (some ((inlineTokens text []).map fun tok => NewBulkBytes (some tok))))

/-- Modelled from the spec: the one-shot decoding of a complete byte sequence
(`DecodeFromBytes`, whose file is not part of the sources at hand).  An input
that starts with none of the five tag bytes is an inline command.  Every level
of nesting consumes a byte, so that the depth never exceeds the fuel given. -/
def DecodeFromBytes (bs : List Byte) : Except DecodeError Resp :=
  match bs with
  | [] => Except.error DecodeError.prematureEnd
  | t :: _ =>
    if t = TypeString ∨ t = TypeError ∨ t = TypeInt ∨ t = TypeBulkBytes ∨ t = TypeArray then
      match decodeResp (bs.length + 1) bs with
      | Except.error e => Except.error e
      | Except.ok (r, _) => Except.ok r
    else decodeInline bs

/-- The text of an integer: an optional minus sign and at least one decimal
digit. -/
def isDecimal (ds : List Byte) : Bool :=
  match ds with
  | 45 :: tl => (parseNat tl).isSome
  | _ => (parseNat ds).isSome

mutual
/-- The invariant of the data model: the tag is one of the five kinds; a simple
string, an error and an integer have a value and no children, and the value of
an integer is a decimal text; a bulk string has no children, its value may be
`nil`; an array has no value, its children may be `nil` and are well formed. -/
def wellFormed : Resp → Bool
  | .mk t v a =>
    if t = TypeString ∨ t = TypeError then v.isSome && a.isNone
    else if t = TypeInt then
      (match v with
        | some ds => isDecimal ds
        | none => false) && a.isNone
    else if t = TypeBulkBytes then a.isNone
    else if t = TypeArray then
      v.isNone &&
        (match a with
          | none => true
          | some l => wellFormedAll l)
    else false
/-- Every value of the list is well formed. -/
def wellFormedAll : List Resp → Bool
  | [] => true
  | r :: rs => wellFormed r && wellFormedAll rs
end

mutual
/-- No simple string, error or integer of the value holds a line feed in its
text. -/
def lineSafe : Resp → Bool
  | .mk t v a =>
    (if t = TypeString ∨ t = TypeError ∨ t = TypeInt then
      (IndexByte (v.getD []) 10).isNone else true) &&
    (match a with
      | none => true
      | some l => lineSafeAll l)
/-- Every value of the list is free of line feeds in its texts. -/
def lineSafeAll : List Resp → Bool
  | [] => true
  | r :: rs => lineSafe r && lineSafeAll rs
end

end resp


namespace resp

open protocol

/-- One call of a method of an `Encoder`, with its arguments. -/
inductive EncoderCall where
  | Encode (r : Resp) (flush : Bool)
  | EncodeMultiBulk (multi : Option (List Resp)) (flush : Bool)
  | Flush

/-- One call on an `Encoder`: the error it returns and the new state. -/
def Encoder.call {σ : Type} (W : Writer σ) (fuel : Nat) (e : Encoder σ) :
    EncoderCall → Option (Option Error × Encoder σ)
  | .Encode r flush => e.Encode W fuel r flush
  | .EncodeMultiBulk multi flush => e.EncodeMultiBulk W fuel multi flush
  | .Flush => some (e.Flush W)

/-- A sequence of calls on an `Encoder`: the errors returned, in call order, and
the final state. -/
def Encoder.calls {σ : Type} (W : Writer σ) (fuel : Nat) :
    Encoder σ → List EncoderCall → Option (List (Option Error) × Encoder σ)
  | e, [] => some ([], e)
  | e, c :: cs =>
    match e.call W fuel c with
    | none => none
    | some (err, e1) =>
      match Encoder.calls W fuel e1 cs with
      | none => none
      | some (errs, e2) => some (err :: errs, e2)

end resp

namespace protocol

/-- A sink with room for `quota` bytes: it takes what still fits of `p` and
reports `Error.other 1` when it could not take all of it.  Its state is what it
has received. -/
def quotaWriter (quota : Nat) : Writer (List Byte) where
  Write := fun s p =>
    if s.length + p.length ≤ quota then (s ++ p, p.length, none)
    else (s ++ p.take (quota - s.length), min (quota - s.length) p.length, some (Error.other 1))

/-- A source that holds a string, hands it out at most `m` bytes at a time and,
once it is exhausted, reports `err` on every read. -/
def failingReader (m : Nat) (err : Error) : Reader (List Byte) where
  Read := fun s k =>
    if s.length = 0 then (s, [], some err)
    else (s.drop (min m k), s.take (min m k), none)

/-- A source that never delivers a byte and never reports an error. -/
def stalledReader : Reader Unit where
  Read := fun s _ => (s, [], none)

/-- The source never reports more bytes than the region it was given has room
for. -/
def Bounded {ρ : Type} (R : Reader ρ) : Prop :=
  ∀ s k, (R.Read s k).2.1.length ≤ k

/-- The single read on the source that `BufReader.fill` issues on a reader with
no recorded error: `b.rd.Read(b.buf[b.wpos:])`, after the compaction. -/
def BufReader.refillRead {ρ : Type} (R : Reader ρ) (b : BufReader ρ) :
    ρ × List Byte × Option Error :=
  R.Read b.compact.rd (b.compact.buf.length - b.compact.wpos)

/-- One call of a method of a `BufReader`, with its arguments (`Read` is given
the length of its region). -/
inductive ReaderCall where
  | fill
  | Read (k : Nat)
  | ReadByte
  | PeekByte
  | ReadSlice (delim : Byte)
  | ReadBytes (delim : Byte)
  | ReadFull (n : Nat)

/-- The state in which a call on a `BufReader` leaves it, when the call
returns. -/
def BufReader.call {ρ : Type} (R : Reader ρ) (fuel : Nat) (b : BufReader ρ) :
    ReaderCall → Option (BufReader ρ)
  | .fill => some (b.fill R).2
  | .Read k => some (b.Read R k).2
  | .ReadByte => some (b.ReadByte R).2
  | .PeekByte => some (b.PeekByte R).2
  | .ReadSlice delim => (b.ReadSlice R delim).map fun out => out.2
  | .ReadBytes delim => (b.ReadBytes R fuel delim).map fun out => out.2
  | .ReadFull n => (b.ReadFull R fuel n).map fun out => out.2

/-- The state in which a sequence of calls on a `BufReader` leaves it, when they
all return. -/
def BufReader.calls {ρ : Type} (R : Reader ρ) (fuel : Nat) :
    BufReader ρ → List ReaderCall → Option (BufReader ρ)
  | b, [] => some b
  | b, c :: cs =>
    match b.call R fuel c with
    | none => none
    | some b1 => BufReader.calls R fuel b1 cs

end protocol

namespace resp

open protocol

/-- The outcome of a Go call that may panic instead of returning. -/
inductive Outcome (α : Type) where
  | returns (a : α)
  | panics

/-- The dynamic value of the parameter `model interface{}` of `RespCodec.Encode`:
a `*Resp`, or a value of another type (told apart by `typeId`). -/
inductive Model where
  | resp (r : Resp)
  | other (typeId : Nat)

/-- The function `EncodeToIoBuffer`.  The `IoBuffer` of the library
`mosn.io/pkg/buffer` is taken as a parameter: `newBuf n` is `GetIoBuffer(n)` and
`B` is its method `Write`. -/
def EncodeToIoBuffer {β : Type} (B : Writer β) (newBuf : Nat → β) (fuel : Nat) (r : Resp) :
    Option (Except Error β) :=
  match EncodeToBytes fuel r with
  | none => none
  | some (Except.error err) => some (Except.error err)
  | some (Except.ok b) =>
    match B.Write (newBuf b.length) b with
    | (_, _, some err) => some (Except.error err)
    | (buf, n, none) =>
      if n ≠ b.length then some (Except.error (Error.ioBufferShortWrite b.length n))
      else some (Except.ok buf)

/-- The method `RespCodec.Encode`.  The type assertion `model.(*Resp)` has no
second result, so it panics when the dynamic type of `model` is not `*Resp`. -/
def RespCodec.Encode {β : Type} (B : Writer β) (newBuf : Nat → β) (fuel : Nat) :
    Model → Option (Outcome (Except Error β))
  | .other _ => some Outcome.panics
  | .resp r => (EncodeToIoBuffer B newBuf fuel r).map Outcome.returns

end resp

namespace dubbo

open protocol

/-- Modelled from the spec: the length of the fixed header, 16 bytes (the
constant `HeaderLen` is declared in a file that is not among the sources at
hand). -/
def HeaderLen : Nat := 16

/-- The dynamic value of the parameter `model interface{}` of
`dubboProtocol.Encode`: a `*Frame` that points to a frame, the nil pointer of
type `*Frame`, or a value of another type (the nil interface included). -/
inductive Model (F : Type) where
  | frame (f : F)
  | nilFrame
  | other

/-- The error built by `fmt.Errorf` in `dubboProtocol.Decode` around the error of
`decodeFrame`. -/
inductive DecodeError (ε : Type) where
  | wrapped (err : ε)

/-- The method `dubboProtocol.Encode`.  The type `Frame` with its field
`Direction`, the constants `EventRequest` and `EventResponse`, the functions
`encodeRequest` and `encodeResponse` and the error `xprotocol.ErrUnknownType` are
declared elsewhere and are parameters here; what the two functions do, a panic
included, is what `Encode` does when it calls them.  The checked assertion
`frame, ok := model.(*Frame)` gives `ok = true` for the nil pointer of type
`*Frame` too, and `frame.Direction` then dereferences nil, which panics. -/
def Encode {F β ε : Type} (Direction : F → Int) (EventRequest EventResponse : Int)
    (encodeRequest encodeResponse : F → resp.Outcome (Option β × Option ε))
    (ErrUnknownType : ε) : Model F → resp.Outcome (Option β × Option ε)
  | .frame frame =>
    if Direction frame = EventRequest then encodeRequest frame
    else if Direction frame = EventResponse then encodeResponse frame
    else resp.Outcome.returns (none, some ErrUnknownType)
  | .nilFrame => resp.Outcome.panics
  | .other => resp.Outcome.returns (none, some ErrUnknownType)

/-- The method `dubboProtocol.Decode`.  The function `decodeFrame` is declared
elsewhere and is a parameter: it returns a frame and an error, and the new
contents of the buffer `data`. -/
def Decode {F ε : Type} (decodeFrame : List Byte → (Option F × Option ε) × List Byte)
    (data : List Byte) : (Option F × Option (DecodeError ε)) × List Byte :=
  if data.length ≥ HeaderLen then
    match decodeFrame data with
    | ((_, some err), data1) => ((none, some (DecodeError.wrapped err)), data1)
    | ((frame, none), data1) => ((frame, none), data1)
  else ((none, none), data)

end dubbo

namespace protocol

/-- A source that holds a string and reports `io.EOF` together with the last
bytes it hands out, as a source may: a read that takes all that is left
returns these bytes and `io.EOF` at once. -/
def eagerEOFReader : Reader (List Byte) where
  Read := fun s k =>
    if s.length ≤ k then ([], s, some Error.EOF) else (s.drop k, s.take k, none)

namespace storage

/-- A slice as a region of storage: the allocation it lies in (allocations are
numbered in the order in which `make` creates them), the offset of its first
byte in that allocation, its length and its capacity. -/
structure Slice where
  alloc : Nat
  off : Nat
  len : Nat
  cap : Nat

/-- The type `sliceAlloc` of `util.go` with its storage made explicit: `buf` is
the region that is left of the current chunk, and `made` counts the allocations
made so far, so that the next `make` creates the allocation of number `made`. -/
structure sliceAlloc where
  buf : Slice
  made : Nat

/-- The method `sliceAlloc.Make` on regions of storage: `[]byte{}` is an empty
slice that takes no storage, `make([]byte, n)` is the whole of a new
allocation, `d.buf[:n:n]` is the front of the chunk with its capacity cut down
to `n`, and `d.buf[n:]` is the rest of the chunk. -/
def sliceAlloc.Make (d : sliceAlloc) (n : Nat) : Slice × sliceAlloc :=
  if n = 0 then ({ alloc := 0, off := 0, len := 0, cap := 0 }, d)
  else if n ≥ 512 then
    ({ alloc := d.made, off := 0, len := n, cap := n }, { d with made := d.made + 1 })
  else
    let d1 : sliceAlloc :=
      if d.buf.len < n then
        { buf := { alloc := d.made, off := 0, len := 8192, cap := 8192 }, made := d.made + 1 }
      else d
    ({ alloc := d1.buf.alloc, off := d1.buf.off, len := n, cap := n },
     { d1 with buf := { alloc := d1.buf.alloc, off := d1.buf.off + n, len := d1.buf.len - n,
                        cap := d1.buf.cap - n } })

/-- The slices handed out by a sequence of calls of `Make`, and the final
state. -/
def sliceAlloc.Makes : sliceAlloc → List Nat → List Slice × sliceAlloc
  | d, [] => ([], d)
  | d, n :: ns =>
    ((d.Make n).1 :: (sliceAlloc.Makes (d.Make n).2 ns).1, (sliceAlloc.Makes (d.Make n).2 ns).2)

/-- Two slices share no byte of storage, whatever is done within their
capacities: they lie in different allocations, or one ends where the other has
not yet begun. -/
def Slice.Disjoint (s t : Slice) : Prop :=
  s.alloc ≠ t.alloc ∨ s.off + s.cap ≤ t.off ∨ t.off + t.cap ≤ s.off

/-- The state of a `sliceAlloc` in use: the chunk, unless it is empty, lies in
an allocation that has been made, and its capacity is its length. -/
def sliceAlloc.Ok (d : sliceAlloc) : Prop :=
  (d.buf.len = 0 ∨ d.buf.alloc < d.made) ∧ d.buf.cap = d.buf.len

/-- The slice `s` lies in storage that `d` has not handed out yet: in an
allocation still to be made, or within what is left of the chunk. -/
def sliceAlloc.Avail (d : sliceAlloc) (s : Slice) : Prop :=
  d.made ≤ s.alloc ∨
    (s.alloc = d.buf.alloc ∧ d.buf.off ≤ s.off ∧ s.off + s.cap ≤ d.buf.off + d.buf.len)

end storage

end protocol

namespace resp

open protocol

/-- The tag is one of the five kinds of RESP values. -/
def knownType (t : Byte) : Prop :=
  t = TypeString ∨ t = TypeError ∨ t = TypeInt ∨ t = TypeBulkBytes ∨ t = TypeArray

mutual
/-- The nodes of a value that the encoder is to visit: the root and,
recursively, the children of every node of kind Array whose list of children is
not null. -/
def visited : Resp → List Resp
  | .mk t v a =>
    .mk t v a ::
      (if t = TypeArray then
        match a with
        | none => []
        | some l => visitedAll l
      else [])
/-- The nodes to visit of a list of values. -/
def visitedAll : List Resp → List Resp
  | [] => []
  | r :: rs => visited r ++ visitedAll rs
end

end resp

namespace protocol

/-- The states of the source that are reached from the state `s` by reads that
have reported no error: `s` itself, and the state in which such a read leaves
the source when it is issued in a state already reached. -/
inductive Reaches {ρ : Type} (R : Reader ρ) : ρ → ρ → Prop where
  | refl (s : ρ) : Reaches R s s
  | step (s s1 : ρ) (k : Nat) :
    Reaches R s s1 → (R.Read s1 k).2.2 = none → Reaches R s (R.Read s1 k).1

/-- The reader `b1` has failed with the error `x` in the course of reads that
began with the source in the state `s0`: `x` is recorded in `b1`, and the last
read on the source, issued in a state reached from `s0` by reads that reported
no error, has left the source as it is in `b1` and has either reported `x`
itself, or has delivered no byte and no error, `x` being `io.ErrNoProgress`. -/
def FailedBy {ρ : Type} (R : Reader ρ) (s0 : ρ) (b1 : BufReader ρ) (x : Error) : Prop :=
  b1.err = some x ∧
    ∃ s k, Reaches R s0 s ∧ b1.rd = (R.Read s k).1 ∧
      ((R.Read s k).2.2 = some x ∨
        ((R.Read s k).2 = ([], none) ∧ x = Error.ErrNoProgress))

end protocol

/-! ## Properties of the buffered writer -/
namespace protocol

theorem copyAt_snd (buf : List Byte) (off : Nat) (src : List Byte) :
    (copyAt buf off src).2 = min (buf.length - off) src.length := rfl

theorem copyAt_length (buf : List Byte) (off : Nat) (src : List Byte) (h : off ≤ buf.length) :
    (copyAt buf off src).1.length = buf.length := by
  simp only [copyAt, List.length_append, List.length_take, List.length_drop]
  omega

theorem copyAt_take (buf : List Byte) (off : Nat) (src : List Byte) (h : off ≤ buf.length) :
    (copyAt buf off src).1.take (off + (copyAt buf off src).2)
      = buf.take off ++ src.take (copyAt buf off src).2 := by
  simp only [copyAt]
  rw [List.take_append_of_le_length]
  · rw [List.take_of_length_le]
    simp only [List.length_append, List.length_take]
    omega
  · simp only [List.length_append, List.length_take]
    omega

theorem flush_ok {σ : Type} {W : Writer σ} {recv : σ → List Byte} (hW : AcceptsAll W recv)
    (b : BufWriter σ) (hb : b.Ok) :
    (b.flush W).1 = none ∧ (b.flush W).2.err = none ∧ (b.flush W).2.wpos = 0 ∧
      (b.flush W).2.buf = b.buf ∧ recv (b.flush W).2.wr = recv b.wr ++ b.buf.take b.wpos := by
  obtain ⟨he, hw, hc⟩ := hb
  unfold BufWriter.flush
  rw [he]
  by_cases h0 : b.wpos = 0
  · simp [h0, he]
  · have h1 := (hW b.wr (b.buf.take b.wpos)).1
    have h2 := (hW b.wr (b.buf.take b.wpos)).2
    rcases hwr : W.Write b.wr (b.buf.take b.wpos) with ⟨s, n, e⟩
    rw [hwr] at h1 h2
    simp only [Prod.mk.injEq, List.length_take] at h1
    obtain ⟨hn, hE⟩ := h1
    subst hE
    have : ¬ n < b.wpos := by omega
    simp [h0, this, h2]


theorem take_set_succ (l : List Byte) (i : Nat) (c : Byte) (h : i < l.length) :
    (l.set i c).take (i + 1) = l.take i ++ [c] := by
  induction l generalizing i with
  | nil => simp at h
  | cons x xs ih =>
    cases i with
    | zero => simp
    | succ j =>
      simp only [List.length_cons, Nat.add_lt_add_iff_right] at h
      simp [ih j h]

theorem WriteByte_ok {σ : Type} {W : Writer σ} {recv : σ → List Byte} (hW : AcceptsAll W recv)
    (b : BufWriter σ) (hb : b.Ok) (c : Byte) :
    (b.WriteByte W c).1 = none ∧ (b.WriteByte W c).2.Ok ∧
      (b.WriteByte W c).2.buf.length = b.buf.length ∧
      BufWriter.output recv (b.WriteByte W c).2 = BufWriter.output recv b ++ [c] := by
  have hf := flush_ok hW b hb
  obtain ⟨he, hw, hc⟩ := hb
  unfold BufWriter.WriteByte
  rw [he]
  by_cases ha : b.available = 0
  · rcases hfl : b.flush W with ⟨e1, b1⟩
    rw [hfl] at hf
    obtain ⟨h1, h2, h3, h4, h5⟩ := hf
    simp only at h1 h2 h3 h4 h5
    subst h1
    have hlt : 0 < b1.buf.length := by rw [h4]; exact hc
    simp only [ha, if_true, BufWriter.Ok, BufWriter.output, List.length_set, h3, h5,
      take_set_succ _ _ _ hlt, true_and, Nat.zero_add, List.take_zero, List.nil_append]
    rw [h4]
    exact ⟨⟨h2, by omega, hc⟩, rfl, trivial⟩
  · unfold BufWriter.available at ha
    have hlt : b.wpos < b.buf.length := by omega
    simp only [BufWriter.available, ha, if_false, BufWriter.Ok, BufWriter.output,
      List.length_set, take_set_succ _ _ _ hlt, true_and, List.append_assoc, and_true]
    exact ⟨by omega, hc⟩


theorem spill_ok {σ : Type} {W : Writer σ} {recv : σ → List Byte} (hW : AcceptsAll W recv)
    (b : BufWriter σ) (hb : b.Ok) (p : List Byte) (hp : b.available < p.length) :
    (copyAt b.buf b.wpos p).2 = b.available ∧
    (BufWriter.flush W (b.put p)).2.Ok ∧
    (BufWriter.flush W (b.put p)).2.wpos = 0 ∧
    (BufWriter.flush W (b.put p)).2.buf.length
      = b.buf.length ∧
    recv (BufWriter.flush W (b.put p)).2.wr
      = BufWriter.output recv b ++ p.take b.available := by
  obtain ⟨he, hw, hc⟩ := hb
  have hn : (copyAt b.buf b.wpos p).2 = b.available := by
    rw [copyAt_snd]; unfold BufWriter.available at hp ⊢; omega
  have hlen := copyAt_length b.buf b.wpos p hw
  have htake := copyAt_take b.buf b.wpos p hw
  have hb1 : BufWriter.Ok (b.put p) := by
    refine ⟨he, ?_, ?_⟩
    · simp only [BufWriter.put, hlen, hn, BufWriter.available]; omega
    · simp only [BufWriter.put, hlen]; exact hc
  have hf := flush_ok hW _ hb1
  obtain ⟨_, h2, h3, h4, h5⟩ := hf
  refine ⟨hn, ⟨h2, ?_, ?_⟩, h3, ?_, ?_⟩
  · rw [h3]; exact Nat.zero_le _
  · rw [h4]; simp only [BufWriter.put, hlen]; exact hc
  · rw [h4]; simp only [BufWriter.put, hlen]
  · rw [h5]; rw [hn] at htake
    simp only [BufWriter.put, htake, BufWriter.output, List.append_assoc, hn]

theorem fits_ok {σ : Type} (recv : σ → List Byte)
    (b : BufWriter σ) (hb : b.Ok) (p : List Byte) (hp : p.length ≤ b.available) :
    (copyAt b.buf b.wpos p).2 = p.length ∧
    BufWriter.Ok (b.put p) ∧
    (copyAt b.buf b.wpos p).1.length = b.buf.length ∧
    BufWriter.output recv (b.put p)
      = BufWriter.output recv b ++ p := by
  obtain ⟨he, hw, hc⟩ := hb
  have hn : (copyAt b.buf b.wpos p).2 = p.length := by
    rw [copyAt_snd]; unfold BufWriter.available at hp; omega
  have hlen := copyAt_length b.buf b.wpos p hw
  have htake := copyAt_take b.buf b.wpos p hw
  refine ⟨hn, ⟨he, ?_, ?_⟩, hlen, ?_⟩
  · simp only [BufWriter.put, hlen, hn]; unfold BufWriter.available at hp; omega
  · simp only [BufWriter.put, hlen]; exact hc
  · simp only [BufWriter.put, BufWriter.output, htake, List.append_assoc]
    rw [hn, List.take_length]


theorem writeLoop_ok {σ : Type} {W : Writer σ} {recv : σ → List Byte} (hW : AcceptsAll W recv)
    (fuel : Nat) : ∀ (b : BufWriter σ) (nn : Nat) (p : List Byte), b.Ok →
    (3 ≤ fuel ∨ (2 ≤ fuel ∧ b.wpos = 0) ∨ (1 ≤ fuel ∧ p.length ≤ b.available)) →
    ∃ b1 q p1, p = q ++ p1 ∧
      BufWriter.writeLoop W fuel b nn p = some (b1, nn + q.length, p1) ∧
      b1.Ok ∧ p1.length ≤ b1.available ∧ b1.buf.length = b.buf.length ∧
      BufWriter.output recv b1 = BufWriter.output recv b ++ q := by
  induction fuel with
  | zero => intro b nn p _ h; omega
  | succ fuel ih =>
    intro b nn p hb hf
    unfold BufWriter.writeLoop
    by_cases hfit : p.length ≤ b.available
    · have : ¬ (b.err = none ∧ p.length > b.available) := by omega
      rw [if_neg this]
      exact ⟨b, [], p, by simp, by simp, hb, hfit, rfl, by simp⟩
    · have hcond : b.err = none ∧ p.length > b.available := ⟨hb.1, by omega⟩
      rw [if_pos hcond]
      by_cases h0 : b.wpos = 0
      · rw [if_pos h0]
        have h1 := (hW b.wr p).1
        have h2 := (hW b.wr p).2
        rcases hwr : W.Write b.wr p with ⟨s, n, e⟩
        rw [hwr] at h1 h2
        simp only [Prod.mk.injEq] at h1
        obtain ⟨hn, hE⟩ := h1
        subst hn hE
        simp only
        have hb1 : BufWriter.Ok { b with wr := s, err := none } := ⟨rfl, hb.2.1, hb.2.2⟩
        obtain ⟨b1, q, p1, e0, e1, e2, e3, e4, e5⟩ :=
          ih { b with wr := s, err := none } (nn + p.length) (p.drop p.length) hb1
            (Or.inr (Or.inr ⟨by omega, by simp⟩))
        simp only [List.drop_length] at e0 e1
        have hq : q = [] := by
          cases q with
          | nil => rfl
          | cons x xs => simp at e0
        have hp1 : p1 = [] := by
          cases p1 with
          | nil => rfl
          | cons x xs => subst hq; simp at e0
        subst hq hp1
        refine ⟨b1, p, [], by simp, ?_, e2, e3, e4, ?_⟩
        · rw [List.drop_length, e1]; rfl
        · rw [e5]
          simp only [BufWriter.output, h2, h0, List.take_zero, List.append_nil]
      · rw [if_neg h0]
        obtain ⟨s1, s2, s3, s4, s5⟩ := spill_ok hW b hb p (by omega)
        simp only [s1]
        obtain ⟨b1, q, p1, e0, e1, e2, e3, e4, e5⟩ :=
          ih (BufWriter.flush W (b.put p)).2 (nn + b.available) (p.drop b.available) s2
            (Or.inr (Or.inl ⟨by omega, s3⟩))
        refine ⟨b1, p.take b.available ++ q, p1, ?_, ?_, e2, e3, by rw [e4, s4], ?_⟩
        · rw [List.append_assoc, ← e0, List.take_append_drop]
        · rw [e1]
          have : (p.take b.available).length = b.available := by
            rw [List.length_take]; omega
          simp only [List.length_append, this, Nat.add_assoc]
        · rw [e5]
          simp only [BufWriter.output, s3, s5, List.take_zero, List.append_nil,
            List.append_assoc]

theorem Write_ok {σ : Type} {W : Writer σ} {recv : σ → List Byte} (hW : AcceptsAll W recv)
    (fuel : Nat) (b : BufWriter σ) (p : List Byte) (hb : b.Ok) (hf : 3 ≤ fuel) :
    ∃ b1, b.Write W fuel p = some ((p.length, none), b1) ∧ b1.Ok ∧
      b1.buf.length = b.buf.length ∧
      BufWriter.output recv b1 = BufWriter.output recv b ++ p := by
  obtain ⟨b1, q, p1, e0, e1, e2, e3, e4, e5⟩ := writeLoop_ok hW fuel b 0 p hb (Or.inl hf)
  unfold BufWriter.Write
  rw [e1]
  simp only
  by_cases hp1 : p1.length = 0
  · have : p1 = [] := List.eq_nil_of_length_eq_zero hp1
    subst this
    simp only [List.append_nil] at e0
    subst e0
    simp only [List.length_nil, or_true, if_true, Nat.zero_add, e2.1]
    exact ⟨b1, rfl, e2, e4, e5⟩
  · have hne : ¬ (b1.err ≠ none ∨ p1.length = 0) := by
      rw [e2.1]; simp [hp1]
    rw [if_neg hne]
    obtain ⟨f1, f2, f3, f4⟩ := fits_ok recv b1 e2 p1 e3
    refine ⟨b1.put p1, ?_, f2, ?_, ?_⟩
    · rw [f1, e0]; simp
    · simp only [BufWriter.put, f3, e4]
    · rw [f4, e5, e0, List.append_assoc]

theorem writeStringLoop_ok {σ : Type} {W : Writer σ} {recv : σ → List Byte}
    (hW : AcceptsAll W recv) (fuel : Nat) :
    ∀ (b : BufWriter σ) (nn : Nat) (p : List Byte), b.Ok →
    p.length + (if b.wpos = b.buf.length then 1 else 0) + 1 ≤ fuel →
    ∃ b1 q p1, p = q ++ p1 ∧
      BufWriter.writeStringLoop W fuel b nn p = some (b1, nn + q.length, p1) ∧
      b1.Ok ∧ p1.length ≤ b1.available ∧ b1.buf.length = b.buf.length ∧
      BufWriter.output recv b1 = BufWriter.output recv b ++ q := by
  induction fuel with
  | zero => intro b nn p _ h; omega
  | succ fuel ih =>
    intro b nn p hb hf
    unfold BufWriter.writeStringLoop
    by_cases hfit : p.length ≤ b.available
    · have : ¬ (b.err = none ∧ p.length > b.available) := by omega
      rw [if_neg this]
      exact ⟨b, [], p, by simp, by simp, hb, hfit, rfl, by simp⟩
    · have hcond : b.err = none ∧ p.length > b.available := ⟨hb.1, by omega⟩
      rw [if_pos hcond]
      obtain ⟨s1, s2, s3, s4, s5⟩ := spill_ok hW b hb p (by omega)
      simp only [s1]
      have hmeasure : (p.drop b.available).length +
          (if (BufWriter.flush W (b.put p)).2.wpos = (BufWriter.flush W (b.put p)).2.buf.length
            then 1 else 0) + 1 ≤ fuel := by
        have hc := hb.2.2
        have hw := hb.2.1
        rw [s3, s4, List.length_drop]
        have : ¬ (0 = b.buf.length) := by omega
        rw [if_neg this]
        unfold BufWriter.available at hfit ⊢
        split at hf <;> omega
      obtain ⟨b1, q, p1, e0, e1, e2, e3, e4, e5⟩ :=
        ih (BufWriter.flush W (b.put p)).2 (nn + b.available) (p.drop b.available) s2 hmeasure
      refine ⟨b1, p.take b.available ++ q, p1, ?_, ?_, e2, e3, by rw [e4, s4], ?_⟩
      · rw [List.append_assoc, ← e0, List.take_append_drop]
      · rw [e1]
        have : (p.take b.available).length = b.available := by
          rw [List.length_take]; omega
        simp only [List.length_append, this, Nat.add_assoc]
      · rw [e5]
        simp only [BufWriter.output, s3, s5, List.take_zero, List.append_nil,
          List.append_assoc]

theorem WriteString_ok {σ : Type} {W : Writer σ} {recv : σ → List Byte} (hW : AcceptsAll W recv)
    (b : BufWriter σ) (p : List Byte) (hb : b.Ok) :
    ∃ b1, b.WriteString W p = some ((p.length, none), b1) ∧ b1.Ok ∧
      b1.buf.length = b.buf.length ∧
      BufWriter.output recv b1 = BufWriter.output recv b ++ p := by
  obtain ⟨b1, q, p1, e0, e1, e2, e3, e4, e5⟩ :=
    writeStringLoop_ok hW (p.length + 2) b 0 p hb (by split <;> omega)
  unfold BufWriter.WriteString
  rw [e1]
  simp only
  by_cases hp1 : p1.length = 0
  · have : p1 = [] := List.eq_nil_of_length_eq_zero hp1
    subst this
    simp only [List.append_nil] at e0
    subst e0
    simp only [List.length_nil, or_true, if_true, Nat.zero_add, e2.1]
    exact ⟨b1, rfl, e2, e4, e5⟩
  · have hne : ¬ (b1.err ≠ none ∨ p1.length = 0) := by
      rw [e2.1]; simp [hp1]
    rw [if_neg hne]
    obtain ⟨f1, f2, f3, f4⟩ := fits_ok recv b1 e2 p1 e3
    refine ⟨b1.put p1, ?_, f2, ?_, ?_⟩
    · rw [f1, e0]; simp
    · simp only [BufWriter.put, f3, e4]
    · rw [f4, e5, e0, List.append_assoc]

end protocol

namespace protocol

theorem call_ok {σ : Type} {W : Writer σ} {recv : σ → List Byte} (hW : AcceptsAll W recv)
    (fuel : Nat) (hf : 3 ≤ fuel) (b : BufWriter σ) (hb : b.Ok) (c : WriteCall) :
    ∃ b1, b.call W fuel c = some (none, b1) ∧ b1.Ok ∧
      BufWriter.output recv b1 = BufWriter.output recv b ++ c.arg := by
  cases c with
  | Write p =>
    obtain ⟨b1, h1, h2, _, h4⟩ := Write_ok hW fuel b p hb hf
    exact ⟨b1, by simp only [BufWriter.call, h1, Option.map_some'], h2, h4⟩
  | WriteByte c =>
    obtain ⟨h1, h2, _, h4⟩ := WriteByte_ok hW b hb c
    refine ⟨(b.WriteByte W c).2, ?_, h2, h4⟩
    simp only [BufWriter.call, ← h1]
  | WriteString s =>
    obtain ⟨b1, h1, h2, _, h4⟩ := WriteString_ok hW b s hb
    exact ⟨b1, by simp only [BufWriter.call, h1, Option.map_some'], h2, h4⟩

theorem calls_ok {σ : Type} {W : Writer σ} {recv : σ → List Byte} (hW : AcceptsAll W recv)
    (fuel : Nat) (hf : 3 ≤ fuel) (cs : List WriteCall) :
    ∀ (b : BufWriter σ), b.Ok →
    ∃ b1, BufWriter.calls W fuel b cs = some (cs.map (fun _ => none), b1) ∧ b1.Ok ∧
      BufWriter.output recv b1 = BufWriter.output recv b ++ WriteCall.args cs := by
  induction cs with
  | nil => intro b hb; exact ⟨b, rfl, hb, by simp [WriteCall.args]⟩
  | cons c cs ih =>
    intro b hb
    obtain ⟨b1, h1, h2, h3⟩ := call_ok hW fuel hf b hb c
    obtain ⟨b2, g1, g2, g3⟩ := ih b1 h2
    refine ⟨b2, ?_, g2, ?_⟩
    · simp only [BufWriter.calls, h1, g1, List.map_cons]
    · rw [g3, h3, WriteCall.args, List.append_assoc]

theorem bytesBuffer_acceptsAll : AcceptsAll bytesBuffer id := by
  intro s p
  exact ⟨rfl, rfl⟩

/-- C5: on a `BufWriter` of capacity at least one with no recorded error, over a
sink that accepts every write in full without error, every call of a sequence of
`Write`, `WriteByte` and `WriteString` calls returns no error and, after a final
`Flush` (which succeeds as well), the sink has received what it held before, the
bytes that were pending in the buffer, and then the concatenation of the call
arguments in call order, whatever the capacity is. -/
theorem BufWriter_calls_Flush {σ : Type} (W : Writer σ) (recv : σ → List Byte)
    (hW : AcceptsAll W recv) (b : BufWriter σ) (hcap : 1 ≤ b.buf.length)
    (herr : b.err = none) (hpos : b.wpos ≤ b.buf.length) (cs : List WriteCall)
    (fuel : Nat) (hf : 3 ≤ fuel) :
    ∃ b1, BufWriter.calls W fuel b cs = some (cs.map (fun _ => none), b1) ∧
      (b1.Flush W).1 = none ∧
      recv (b1.Flush W).2.wr = recv b.wr ++ b.buf.take b.wpos ++ WriteCall.args cs := by
  obtain ⟨b1, h1, h2, h3⟩ := calls_ok hW fuel hf cs b ⟨herr, hpos, hcap⟩
  obtain ⟨f1, _, _, _, f5⟩ := flush_ok hW b1 h2
  refine ⟨b1, h1, f1, ?_⟩
  unfold BufWriter.Flush
  rw [f5]
  exact h3

/-- C5, at a concrete input: a fresh writer of capacity 3 over an empty
`bytes.Buffer`, written to by `Write`, `WriteByte` and `WriteString`. -/
theorem BufWriter_calls_Flush_witness :
    ∃ b1, BufWriter.calls bytesBuffer 3
        { err := none, buf := [0, 0, 0], wr := [], wpos := 0 }
        [WriteCall.Write [104, 101, 108, 108, 111], WriteCall.WriteByte 32,
          WriteCall.WriteString [119, 111]] = some ([none, none, none], b1) ∧
      (b1.Flush bytesBuffer).1 = none ∧
      (b1.Flush bytesBuffer).2.wr = [104, 101, 108, 108, 111, 32, 119, 111] :=
  BufWriter_calls_Flush bytesBuffer id bytesBuffer_acceptsAll
    { err := none, buf := [0, 0, 0], wr := [], wpos := 0 } (by decide) rfl (by decide)
    [WriteCall.Write [104, 101, 108, 108, 111], WriteCall.WriteByte 32,
      WriteCall.WriteString [119, 111]] 3 (by decide)

end protocol

namespace protocol

theorem writeLoop_recorded_error {σ : Type} (W : Writer σ) (b : BufWriter σ) (e : Error)
    (he : b.err = some e) (fuel nn : Nat) (p : List Byte) :
    BufWriter.writeLoop W (fuel + 1) b nn p = some (b, nn, p) := by
  unfold BufWriter.writeLoop
  have : ¬ (b.err = none ∧ p.length > b.available) := by rw [he]; simp
  rw [if_neg this]

theorem writeStringLoop_recorded_error {σ : Type} (W : Writer σ) (b : BufWriter σ) (e : Error)
    (he : b.err = some e) (fuel nn : Nat) (p : List Byte) :
    BufWriter.writeStringLoop W (fuel + 1) b nn p = some (b, nn, p) := by
  unfold BufWriter.writeStringLoop
  have : ¬ (b.err = none ∧ p.length > b.available) := by rw [he]; simp
  rw [if_neg this]

theorem call_recorded_error {σ : Type} (W : Writer σ) (b : BufWriter σ) (e : Error)
    (he : b.err = some e) (fuel : Nat) (c : WriteCall) :
    b.call W (fuel + 1) c = some (some e, b) := by
  cases c with
  | Write p =>
    simp only [BufWriter.call, BufWriter.Write, writeLoop_recorded_error W b e he, he]
    simp
  | WriteByte c =>
    simp only [BufWriter.call, BufWriter.WriteByte, he]
  | WriteString s =>
    simp only [BufWriter.call, BufWriter.WriteString,
      writeStringLoop_recorded_error W b e he, he]
    simp

/-- C12: on a `BufWriter` that has recorded the error `e`, `Write`, `WriteByte`,
`WriteString` and `Flush` return `e`, `Write` and `WriteString` report zero bytes
written, and the state of the writer (the buffer, `wpos` and the sink) is left as
it was, so that the same holds of every later sequence of calls; and `flush`
records the error of a failed write to the sink, and `io.ErrShortWrite` for a
short one. -/
theorem BufWriter_recorded_error {σ : Type} (W : Writer σ) (b : BufWriter σ) (e : Error)
    (he : b.err = some e) (p : List Byte) (c : Byte) (fuel : Nat) (cs : List WriteCall) :
    b.Write W (fuel + 1) p = some ((0, some e), b) ∧
    b.WriteByte W c = (some e, b) ∧
    b.WriteString W p = some ((0, some e), b) ∧
    b.Flush W = (some e, b) ∧
    BufWriter.calls W (fuel + 1) b cs = some (cs.map (fun _ => some e), b) ∧
    (∀ (b0 : BufWriter σ) (s : σ) (n : Nat) (x : Error), b0.err = none → b0.wpos ≠ 0 →
      W.Write b0.wr (b0.buf.take b0.wpos) = (s, n, some x) →
      b0.flush W = (some x, { b0 with wr := s, err := some x })) ∧
    (∀ (b0 : BufWriter σ) (s : σ) (n : Nat), b0.err = none → b0.wpos ≠ 0 →
      W.Write b0.wr (b0.buf.take b0.wpos) = (s, n, none) → n < b0.wpos →
      b0.flush W = (some Error.ErrShortWrite,
        { b0 with wr := s, err := some Error.ErrShortWrite })) := by
  refine ⟨?_, ?_, ?_, ?_, ?_, ?_, ?_⟩
  · simp only [BufWriter.Write, writeLoop_recorded_error W b e he, he]
    simp
  · simp only [BufWriter.WriteByte, he]
  · simp only [BufWriter.WriteString, writeStringLoop_recorded_error W b e he, he]
    simp
  · simp only [BufWriter.Flush, BufWriter.flush, he]
  · induction cs with
    | nil => rfl
    | cons c cs ih =>
      simp only [BufWriter.calls, call_recorded_error W b e he, ih, List.map_cons]
  · intro b0 s n x h0 hw hwr
    simp only [BufWriter.flush, h0, hw, if_false, hwr]
  · intro b0 s n h0 hw hwr hlt
    simp only [BufWriter.flush, h0, hw, if_false, hwr, hlt, if_true]

/-- C12, at a concrete input: a writer of capacity 2 that has recorded
`io.ErrShortWrite`, over a sink with no room left. -/
theorem BufWriter_recorded_error_witness :
    BufWriter.Write (quotaWriter 0) (0 + 1)
        { err := some Error.ErrShortWrite, buf := [104, 0], wr := [], wpos := 1 }
        [105, 106, 107] = some ((0, some Error.ErrShortWrite),
          { err := some Error.ErrShortWrite, buf := [104, 0], wr := [], wpos := 1 }) ∧
    BufWriter.Flush (quotaWriter 0)
        { err := some Error.ErrShortWrite, buf := [104, 0], wr := [], wpos := 1 }
      = (some Error.ErrShortWrite,
          { err := some Error.ErrShortWrite, buf := [104, 0], wr := [], wpos := 1 }) :=
  ⟨(BufWriter_recorded_error (quotaWriter 0)
      { err := some Error.ErrShortWrite, buf := [104, 0], wr := [], wpos := 1 }
      Error.ErrShortWrite rfl [105, 106, 107] 33 0 []).1,
   (BufWriter_recorded_error (quotaWriter 0)
      { err := some Error.ErrShortWrite, buf := [104, 0], wr := [], wpos := 1 }
      Error.ErrShortWrite rfl [105, 106, 107] 33 0 []).2.2.2.1⟩

/-- C16: `Flush` on a `BufWriter` with no recorded error and no pending bytes
returns no error and leaves the state of the writer, its sink included, as it
was; and after a `Flush` that has returned no error, a second `Flush` returns no
error and changes nothing. -/
theorem Flush_idempotent {σ : Type} (W : Writer σ) (b : BufWriter σ) :
    (b.err = none → b.wpos = 0 → b.Flush W = (none, b)) ∧
    ((b.Flush W).1 = none → (b.Flush W).2.Flush W = (none, (b.Flush W).2)) := by
  have h1 : ∀ (b0 : BufWriter σ), b0.err = none → b0.wpos = 0 → b0.Flush W = (none, b0) := by
    intro b0 h0 hw
    simp only [BufWriter.Flush, BufWriter.flush, h0, hw, if_true]
  refine ⟨h1 b, ?_⟩
  intro hs
  apply h1
  · unfold BufWriter.Flush BufWriter.flush at hs ⊢
    cases he : b.err with
    | some e => rw [he] at hs; simp at hs
    | none =>
      simp only
      by_cases hw : b.wpos = 0
      · simp only [hw, if_true]; exact he
      · simp only [hw, if_false]
        rw [he] at hs
        simp only [hw, if_false] at hs
        rcases hwr : W.Write b.wr (b.buf.take b.wpos) with ⟨s, n, x⟩
        rw [hwr] at hs
        cases x with
        | some x => simp at hs
        | none =>
          simp only at hs ⊢
          by_cases hlt : n < b.wpos
          · rw [if_pos hlt] at hs; simp at hs
          · rw [if_neg hlt]
  · unfold BufWriter.Flush BufWriter.flush at hs ⊢
    cases he : b.err with
    | some e => rw [he] at hs; simp at hs
    | none =>
      simp only
      by_cases hw : b.wpos = 0
      · simp only [hw, if_true]
      · simp only [hw, if_false]
        rw [he] at hs
        simp only [hw, if_false] at hs
        rcases hwr : W.Write b.wr (b.buf.take b.wpos) with ⟨s, n, x⟩
        rw [hwr] at hs
        cases x with
        | some x => simp at hs
        | none =>
          simp only at hs ⊢
          by_cases hlt : n < b.wpos
          · rw [if_pos hlt] at hs; simp at hs
          · rw [if_neg hlt]

/-- C16, at a concrete input: an empty writer, and a writer of capacity 2 with
one pending byte, over a `bytes.Buffer`. -/
theorem Flush_idempotent_witness :
    BufWriter.Flush bytesBuffer { err := none, buf := [0, 0], wr := [104], wpos := 0 }
      = (none, { err := none, buf := [0, 0], wr := [104], wpos := 0 }) ∧
    BufWriter.Flush bytesBuffer
        (BufWriter.Flush bytesBuffer { err := none, buf := [105, 0], wr := [104], wpos := 1 }).2
      = (none,
        (BufWriter.Flush bytesBuffer { err := none, buf := [105, 0], wr := [104], wpos := 1 }).2) :=
  ⟨(Flush_idempotent bytesBuffer { err := none, buf := [0, 0], wr := [104], wpos := 0 }).1
      rfl rfl,
   (Flush_idempotent bytesBuffer { err := none, buf := [105, 0], wr := [104], wpos := 1 }).2
      rfl⟩

end protocol

/-! ## Properties of the RESP encoder -/

namespace resp

open protocol

theorem encodeTextString_ok {σ : Type} {W : Writer σ} {recv : σ → List Byte}
    (hW : AcceptsAll W recv) (bw : BufWriter σ) (hb : bw.Ok) (s : List Byte) :
    ∃ bw1, encodeTextString W bw s = some (none, bw1) ∧ bw1.Ok ∧
      BufWriter.output recv bw1 = BufWriter.output recv bw ++ (s ++ CRLF) := by
  obtain ⟨b1, h1, h2, _, h4⟩ := WriteString_ok hW bw s hb
  obtain ⟨b2, g1, g2, _, g4⟩ := WriteString_ok hW b1 CRLF h2
  refine ⟨b2, ?_, g2, ?_⟩
  · simp only [encodeTextString, h1, g1, Option.map_some', Step.andThen]
  · rw [g4, h4, List.append_assoc]

theorem encodeInt_ok {σ : Type} {W : Writer σ} {recv : σ → List Byte}
    (hW : AcceptsAll W recv) (bw : BufWriter σ) (hb : bw.Ok) (v : Int) :
    ∃ bw1, encodeInt W bw v = some (none, bw1) ∧ bw1.Ok ∧
      BufWriter.output recv bw1 = BufWriter.output recv bw ++ (FormatInt v ++ CRLF) :=
  encodeTextString_ok hW bw hb (FormatInt v)

theorem encodeTextBytes_ok {σ : Type} {W : Writer σ} {recv : σ → List Byte}
    (hW : AcceptsAll W recv) (fuel : Nat) (hf : 3 ≤ fuel) (bw : BufWriter σ) (hb : bw.Ok)
    (v : Option (List Byte)) :
    ∃ bw1, encodeTextBytes W fuel bw v = some (none, bw1) ∧ bw1.Ok ∧
      BufWriter.output recv bw1 = BufWriter.output recv bw ++ (v.getD [] ++ CRLF) := by
  obtain ⟨b1, h1, h2, _, h4⟩ := Write_ok hW fuel bw (v.getD []) hb hf
  obtain ⟨b2, g1, g2, _, g4⟩ := WriteString_ok hW b1 CRLF h2
  refine ⟨b2, ?_, g2, ?_⟩
  · simp only [encodeTextBytes, h1, g1, Option.map_some', Step.andThen]
  · rw [g4, h4, List.append_assoc]

theorem encodeBulkBytes_ok {σ : Type} {W : Writer σ} {recv : σ → List Byte}
    (hW : AcceptsAll W recv) (fuel : Nat) (hf : 3 ≤ fuel) (bw : BufWriter σ) (hb : bw.Ok)
    (v : Option (List Byte)) :
    ∃ bw1, encodeBulkBytes W fuel bw v = some (none, bw1) ∧ bw1.Ok ∧
      BufWriter.output recv bw1 = BufWriter.output recv bw ++
        (match v with
          | none => FormatInt (-1) ++ CRLF
          | some b => FormatInt (b.length : Int) ++ CRLF ++ (b ++ CRLF)) := by
  cases v with
  | none => exact encodeInt_ok hW bw hb (-1)
  | some b =>
    obtain ⟨b1, h1, h2, h4⟩ := encodeInt_ok hW bw hb (b.length : Int)
    obtain ⟨b2, g1, g2, g4⟩ := encodeTextBytes_ok hW fuel hf b1 h2 (some b)
    refine ⟨b2, ?_, g2, ?_⟩
    · simp only [encodeBulkBytes, h1, g1, Step.andThen]
    · rw [g4, h4]; simp only [Option.getD_some, List.append_assoc]

mutual
theorem encodeResp_meets {σ : Type} {W : Writer σ} {recv : σ → List Byte}
    (hW : AcceptsAll W recv) (fuel : Nat) (hf : 3 ≤ fuel) :
    ∀ (r : Resp) (bw : BufWriter σ), bw.Ok →
      StepMeets recv bw (encodeResp W fuel bw r) (wireFormat r)
  | .mk t v a, bw, hb => by
    obtain ⟨h1, h2, _, h4⟩ := WriteByte_ok hW bw hb t
    rcases hwb : bw.WriteByte W t with ⟨e0, bw0⟩
    rw [hwb] at h1 h2 h4
    simp only at h1 h2 h4
    subst h1
    unfold encodeResp wireFormat
    simp only [hwb, Step.andThen]
    by_cases c1 : t = TypeString ∨ t = TypeError ∨ t = TypeInt
    · rw [if_pos c1, if_pos c1]
      obtain ⟨b2, g1, g2, g4⟩ := encodeTextBytes_ok hW fuel hf bw0 h2 v
      exact ⟨b2, g2, g1, by rw [g4, h4]; simp⟩
    · rw [if_neg c1, if_neg c1]
      by_cases c2 : t = TypeBulkBytes
      · rw [if_pos c2, if_pos c2]
        obtain ⟨b2, g1, g2, g4⟩ := encodeBulkBytes_ok hW fuel hf bw0 h2 v
        cases v with
        | none => exact ⟨b2, g2, g1, by rw [g4, h4]; simp⟩
        | some b => exact ⟨b2, g2, g1, by rw [g4, h4]; simp⟩
      · rw [if_neg c2, if_neg c2]
        by_cases c3 : t = TypeArray
        · rw [if_pos c3, if_pos c3]
          cases a with
          | none =>
            obtain ⟨b2, g1, g2, g4⟩ := encodeInt_ok hW bw0 h2 (-1)
            exact ⟨b2, g2, g1, by rw [g4, h4]; simp⟩
          | some l =>
            obtain ⟨b2, g1, g2, g4⟩ := encodeInt_ok hW bw0 h2 (l.length : Int)
            obtain ⟨b3, k1, k2⟩ := encodeRange_meets hW fuel hf l b2 g2
            simp only [g1, Step.andThen]
            cases hw : wireFormats l with
            | error e =>
              rw [hw] at k2
              exact ⟨b3, k1, k2⟩
            | ok bs =>
              rw [hw] at k2
              exact ⟨b3, k1, k2.1, by rw [k2.2, g4, h4]; simp⟩
        · rw [if_neg c3, if_neg c3]
          exact ⟨bw0, h2, rfl⟩
theorem encodeRange_meets {σ : Type} {W : Writer σ} {recv : σ → List Byte}
    (hW : AcceptsAll W recv) (fuel : Nat) (hf : 3 ≤ fuel) :
    ∀ (l : List Resp) (bw : BufWriter σ), bw.Ok →
      StepMeets recv bw (encodeRange W fuel bw l) (wireFormats l)
  | [], bw, hb => by
    unfold encodeRange wireFormats
    exact ⟨bw, hb, rfl, by simp⟩
  | r :: rs, bw, hb => by
    obtain ⟨b1, k1, k2⟩ := encodeResp_meets hW fuel hf r bw hb
    unfold encodeRange wireFormats
    cases hw : wireFormat r with
    | error e =>
      rw [hw] at k2
      simp only at k2
      simp only [k2, Step.andThen]
      exact ⟨b1, k1, rfl⟩
    | ok bs =>
      rw [hw] at k2
      simp only at k2
      obtain ⟨b2, m1, m2⟩ := encodeRange_meets hW fuel hf rs b1 k1
      simp only [k2.1, Step.andThen]
      cases hws : wireFormats rs with
      | error e =>
        rw [hws] at m2
        exact ⟨b2, m1, m2⟩
      | ok bss =>
        rw [hws] at m2
        exact ⟨b2, m1, m2.1, by rw [m2.2, k2.2]; simp⟩
end


theorem encodeResp_array {σ : Type} (W : Writer σ) (fuel : Nat) (bw : BufWriter σ)
    (v : Option (List Byte)) (a : Option (List Resp)) :
    encodeResp W fuel bw (Resp.mk TypeArray v a)
      = Step.andThen (some (bw.WriteByte W TypeArray)) fun bw1 => encodeArray W fuel bw1 a := by
  unfold encodeResp encodeArray
  have c1 : ¬ (TypeArray = TypeString ∨ TypeArray = TypeError ∨ TypeArray = TypeInt) := by
    decide
  have c2 : ¬ (TypeArray = TypeBulkBytes) := by decide
  simp only [if_neg c1, if_neg c2, if_true]

theorem NewBufWriterSize_ok {σ : Type} (w : σ) : (NewBufWriterSize w 8192).Ok := by
  refine ⟨rfl, Nat.zero_le _, ?_⟩
  simp only [NewBufWriterSize, List.length_replicate]
  decide

theorem NewBufWriterSize_output {σ : Type} (recv : σ → List Byte) (w : σ) :
    BufWriter.output recv (NewBufWriterSize w 8192) = recv w := by
  simp only [NewBufWriterSize, BufWriter.output, List.take_zero, List.append_nil]

theorem EncodeToBytes_eq (fuel : Nat) (hf : 3 ≤ fuel) (r : Resp) :
    EncodeToBytes fuel r = some (wireFormat r) := by
  obtain ⟨b1, k1, k2⟩ := encodeResp_meets bytesBuffer_acceptsAll fuel hf r
    (NewBufWriterSize [] 8192) (NewBufWriterSize_ok [])
  unfold EncodeToBytes Encode Encoder.Encode NewEncoder NewEncoderBuffer
  simp only
  cases hw : wireFormat r with
  | error e =>
    rw [hw] at k2
    simp only at k2
    simp only [k2, Encoder.finish]
  | ok bs =>
    rw [hw] at k2
    simp only at k2
    obtain ⟨f1, _, _, _, f5⟩ := flush_ok bytesBuffer_acceptsAll b1 k1
    rcases hfl : b1.flush bytesBuffer with ⟨e2, b2⟩
    rw [hfl] at f1 f5
    simp only at f1 f5
    subst f1
    simp only [k2.1, Encoder.finish, BufWriter.Flush, hfl, if_true]
    have h := k2.2
    rw [NewBufWriterSize_output] at h
    simp only [BufWriter.output, id, List.nil_append] at h f5
    rw [f5, h]

theorem digitsAux_spec (fuel : Nat) :
    ∀ (n : Nat) (acc : List Byte), n < fuel →
      ∃ ds : List Nat, digitsAux fuel n acc = ds ++ acc ∧ ds ≠ [] ∧
        (∀ d : Nat, d ∈ ds → 48 ≤ d ∧ d ≤ 57) ∧ digitsValue ds = n := by
  induction fuel with
  | zero => intro n acc h; omega
  | succ fuel ih =>
    intro n acc h
    unfold digitsAux
    by_cases h0 : n / 10 = 0
    · rw [if_pos h0]
      refine ⟨[48 + n % 10], rfl, by simp, ?_, ?_⟩
      · intro d hd
        simp only [List.mem_singleton] at hd
        omega
      · show 0 * 10 + (48 + n % 10 - 48) = n
        omega
    · rw [if_neg h0]
      obtain ⟨ds, e1, e2, e3, e4⟩ := ih (n / 10) ((48 + n % 10) :: acc) (by omega)
      refine ⟨ds ++ [48 + n % 10], ?_, by simp, ?_, ?_⟩
      · rw [e1]; simp
      · intro d hd
        rcases List.mem_append.mp hd with hd | hd
        · exact e3 d hd
        · simp only [List.mem_singleton] at hd
          omega
      · unfold digitsValue at e4 ⊢
        rw [List.foldl_append, e4]
        show n / 10 * 10 + (48 + n % 10 - 48) = n
        omega

theorem FormatUint_spec (n : Nat) :
    FormatUint n ≠ [] ∧ (∀ d : Nat, d ∈ FormatUint n → 48 ≤ d ∧ d ≤ 57) ∧
      digitsValue (FormatUint n) = n := by
  obtain ⟨ds, e1, e2, e3, e4⟩ := digitsAux_spec (n + 1) n [] (by omega)
  unfold FormatUint
  rw [e1, List.append_nil]
  exact ⟨e2, e3, e4⟩

theorem FormatInt_natCast (n : Nat) : FormatInt (n : Int) = FormatUint n := by
  have hneg : ¬ ((n : Int) < 0) := by omega
  unfold FormatInt
  rw [if_neg hneg]
  simp

/-- C1: `EncodeToBytes` of the bulk string holding the bytes `b` returns `$`, the
decimal text of `len(b)` (decimal digits whose value is `len(b)`), CR LF, the
bytes of `b` unchanged and CR LF; of the null bulk string it returns `$-1\r\n`,
and of the empty one `$0\r\n\r\n`, which is different. -/
theorem EncodeToBytes_bulk (b : List Byte) (fuel : Nat) :
    EncodeToBytes (fuel + 3) (NewBulkBytes (some b))
        = some (Except.ok ([36] ++ FormatInt (b.length : Int) ++ [13, 10] ++ b ++ [13, 10])) ∧
      (∀ d : Nat, d ∈ FormatInt (b.length : Int) → 48 ≤ d ∧ d ≤ 57) ∧
      digitsValue (FormatInt (b.length : Int)) = b.length ∧
      EncodeToBytes (fuel + 3) (NewBulkBytes none) = some (Except.ok [36, 45, 49, 13, 10]) ∧
      EncodeToBytes (fuel + 3) (NewBulkBytes (some []))
        = some (Except.ok [36, 48, 13, 10, 13, 10]) ∧
      EncodeToBytes (fuel + 3) (NewBulkBytes none)
        ≠ EncodeToBytes (fuel + 3) (NewBulkBytes (some [])) := by
  have h1 : EncodeToBytes (fuel + 3) (NewBulkBytes (some b))
      = some (Except.ok ([36] ++ FormatInt (b.length : Int) ++ [13, 10] ++ b ++ [13, 10])) := by
    rw [EncodeToBytes_eq _ (by omega)]
    simp [NewBulkBytes, wireFormat, TypeBulkBytes, TypeString, TypeError, TypeInt, CRLF]
  have h2 : EncodeToBytes (fuel + 3) (NewBulkBytes none)
      = some (Except.ok [36, 45, 49, 13, 10]) := by
    rw [EncodeToBytes_eq _ (by omega)]
    rfl
  have h3 : EncodeToBytes (fuel + 3) (NewBulkBytes (some []))
      = some (Except.ok [36, 48, 13, 10, 13, 10]) := by
    rw [EncodeToBytes_eq _ (by omega)]
    rfl
  refine ⟨h1, ?_, ?_, h2, h3, ?_⟩
  · rw [FormatInt_natCast]; exact (FormatUint_spec b.length).2.1
  · rw [FormatInt_natCast]; exact (FormatUint_spec b.length).2.2
  · rw [h2, h3]
    simp

/-- C2: for every byte sequence `b`, `EncodeToBytes` of the simple string, of the
error and of the integer holding `b` returns the tag byte (`+`, `-`, `:`), then
`b` as it is, then CR LF; the text of an integer is not formatted again. -/
theorem EncodeToBytes_text (b : List Byte) (fuel : Nat) :
    EncodeToBytes (fuel + 3) (NewString (some b)) = some (Except.ok ([43] ++ b ++ [13, 10])) ∧
      EncodeToBytes (fuel + 3) (NewError (some b)) = some (Except.ok ([45] ++ b ++ [13, 10])) ∧
      EncodeToBytes (fuel + 3) (NewInt (some b)) = some (Except.ok ([58] ++ b ++ [13, 10])) := by
  refine ⟨?_, ?_, ?_⟩ <;> rw [EncodeToBytes_eq _ (by omega)] <;>
    simp [NewString, NewError, NewInt, wireFormat, TypeString, TypeError, TypeInt, CRLF]

theorem wireFormats_of_forall₂ (fuel : Nat) (hf : 3 ≤ fuel) :
    ∀ (cs : List Resp) (bs : List (List Byte)),
      List.Forall₂ (fun c w => EncodeToBytes fuel c = some (Except.ok w)) cs bs →
      wireFormats cs = Except.ok bs.flatten
  | [], _, h => by cases h; simp [wireFormats]
  | c :: cs, _, h => by
    cases h with
    | cons h1 h2 =>
      rw [EncodeToBytes_eq fuel hf] at h1
      have h1 := Option.some.inj h1
      have ih := wireFormats_of_forall₂ fuel hf cs _ h2
      simp [wireFormats, h1, ih]

/-- C3: when `EncodeToBytes` of the children `c1..ck` returns `w1..wk`,
`EncodeToBytes` of the array of these children returns `*`, the decimal text of
`k` (decimal digits whose value is `k`), CR LF and then `w1 ++ ... ++ wk`; the
null array is encoded as `*-1\r\n` and the empty array as `*0\r\n`. -/
theorem EncodeToBytes_array (cs : List Resp) (ws : List (List Byte)) (fuel : Nat)
    (h : List.Forall₂ (fun c w => EncodeToBytes (fuel + 3) c = some (Except.ok w)) cs ws) :
    EncodeToBytes (fuel + 3) (NewArray (some cs))
        = some (Except.ok ([42] ++ FormatInt (cs.length : Int) ++ [13, 10] ++ ws.flatten)) ∧
      (∀ d : Nat, d ∈ FormatInt (cs.length : Int) → 48 ≤ d ∧ d ≤ 57) ∧
      digitsValue (FormatInt (cs.length : Int)) = cs.length ∧
      EncodeToBytes (fuel + 3) (NewArray none) = some (Except.ok [42, 45, 49, 13, 10]) ∧
      EncodeToBytes (fuel + 3) (NewArray (some [])) = some (Except.ok [42, 48, 13, 10]) := by
  refine ⟨?_, ?_, ?_, ?_, ?_⟩
  · rw [EncodeToBytes_eq _ (by omega)]
    have hw := wireFormats_of_forall₂ (fuel + 3) (by omega) cs ws h
    simp [NewArray, wireFormat, TypeBulkBytes, TypeArray, TypeString, TypeError, TypeInt,
      CRLF, hw]
  · rw [FormatInt_natCast]; exact (FormatUint_spec cs.length).2.1
  · rw [FormatInt_natCast]; exact (FormatUint_spec cs.length).2.2
  · rw [EncodeToBytes_eq _ (by omega)]
    rfl
  · rw [EncodeToBytes_eq _ (by omega)]
    rfl

/-- C3, at a concrete input: the array of the integer `0`, the null bulk string
and a nested array holding the bulk string `test`. -/
theorem EncodeToBytes_array_witness :
    EncodeToBytes 3 (NewArray (some [NewInt (some [48]), NewBulkBytes none,
        NewArray (some [NewBulkBytes (some [116, 101, 115, 116])])]))
        = some (Except.ok ([42] ++ FormatInt (3 : Nat) ++ [13, 10] ++
            [[58, 48, 13, 10], [36, 45, 49, 13, 10],
              [42, 49, 13, 10, 36, 52, 13, 10, 116, 101, 115, 116, 13, 10]].flatten)) ∧
      (∀ d : Nat, d ∈ FormatInt (3 : Nat) → 48 ≤ d ∧ d ≤ 57) ∧
      digitsValue (FormatInt (3 : Nat)) = 3 ∧
      EncodeToBytes 3 (NewArray none) = some (Except.ok [42, 45, 49, 13, 10]) ∧
      EncodeToBytes 3 (NewArray (some [])) = some (Except.ok [42, 48, 13, 10]) :=
  EncodeToBytes_array
    [NewInt (some [48]), NewBulkBytes none,
      NewArray (some [NewBulkBytes (some [116, 101, 115, 116])])]
    [[58, 48, 13, 10], [36, 45, 49, 13, 10],
      [42, 49, 13, 10, 36, 52, 13, 10, 116, 101, 115, 116, 13, 10]] 0
    (List.Forall₂.cons (by rw [EncodeToBytes_eq _ (by omega)]; rfl)
      (List.Forall₂.cons (by rw [EncodeToBytes_eq _ (by omega)]; rfl)
        (List.Forall₂.cons (by rw [EncodeToBytes_eq _ (by omega)]; rfl)
          List.Forall₂.nil)))

end resp

namespace resp

open protocol

theorem finish_Err {σ : Type} (W : Writer σ) (flush : Bool) (st : Step σ) (x : Option Error)
    (e1 : Encoder σ) (h : Encoder.finish W flush st = some (x, e1)) : e1.Err = x := by
  unfold Encoder.finish at h
  cases st with
  | none => simp at h
  | some p =>
    rcases p with ⟨_ | err, bw⟩
    · simp only at h
      cases flush with
      | true =>
        simp only [if_true] at h
        have h2 := Option.some.inj h
        rw [Prod.mk.injEq] at h2
        rw [← h2.2, ← h2.1]
      | false =>
        simp only [Bool.false_eq_true, if_false] at h
        have h2 := Option.some.inj h
        rw [Prod.mk.injEq] at h2
        rw [← h2.2, ← h2.1]
    · simp only at h
      have h2 := Option.some.inj h
      rw [Prod.mk.injEq] at h2
      rw [← h2.2, ← h2.1]

theorem call_latched {σ : Type} (W : Writer σ) (fuel : Nat) (e : Encoder σ)
    (he : e.Err ≠ none) (c : EncoderCall) :
    e.call W fuel c = some (some Error.ErrFailedEncoder, e) := by
  cases hE : e.Err with
  | none => exact absurd hE he
  | some x =>
    cases c with
    | Encode r flush => simp only [Encoder.call, Encoder.Encode, hE]
    | EncodeMultiBulk multi flush => simp only [Encoder.call, Encoder.EncodeMultiBulk, hE]
    | Flush => simp only [Encoder.call, Encoder.Flush, hE]

theorem calls_latched {σ : Type} (W : Writer σ) (fuel : Nat) (e : Encoder σ)
    (he : e.Err ≠ none) (cs : List EncoderCall) :
    e.calls W fuel cs = some (cs.map (fun _ => some Error.ErrFailedEncoder), e) := by
  induction cs with
  | nil => rfl
  | cons c cs ih =>
    simp only [Encoder.calls, call_latched W fuel e he, ih, List.map_cons]

theorem call_failed_Err {σ : Type} (W : Writer σ) (fuel : Nat) (e : Encoder σ)
    (c : EncoderCall) (err : Error) (e1 : Encoder σ)
    (h : e.call W fuel c = some (some err, e1)) : e1.Err ≠ none := by
  cases hE : e.Err with
  | some x =>
    have he : e.Err ≠ none := by rw [hE]; simp
    rw [call_latched W fuel e he c] at h
    have h2 := Option.some.inj h
    rw [Prod.mk.injEq] at h2
    rw [← h2.2]
    exact he
  | none =>
    cases c with
    | Encode r flush =>
      simp only [Encoder.call, Encoder.Encode, hE] at h
      rw [finish_Err W flush _ _ _ h]; simp
    | EncodeMultiBulk multi flush =>
      simp only [Encoder.call, Encoder.EncodeMultiBulk, hE] at h
      rw [finish_Err W flush _ _ _ h]; simp
    | Flush =>
      simp only [Encoder.call, Encoder.Flush, hE, Option.some.injEq] at h
      rcases hfl : e.bw.Flush W with ⟨x, bw1⟩
      rw [hfl] at h
      cases x with
      | none => simp at h
      | some y =>
        simp only [Prod.mk.injEq] at h
        rw [← h.2]
        simp

/-- C13: when a call of `Encode`, `EncodeMultiBulk` or `Flush` on an `Encoder`
has returned an error, the encoder has recorded an error, and every later
sequence of such calls returns `ErrFailedEncoder` at each call and leaves the
encoder, its buffered writer and the sink as the failed call left them. -/
theorem Encoder_latch {σ : Type} (W : Writer σ) (fuel : Nat) (e : Encoder σ)
    (c : EncoderCall) (err : Error) (e1 : Encoder σ)
    (h : e.call W fuel c = some (some err, e1)) (cs : List EncoderCall) (fuel2 : Nat) :
    e1.Err ≠ none ∧
    e1.calls W fuel2 cs = some (cs.map (fun _ => some Error.ErrFailedEncoder), e1) :=
  ⟨call_failed_Err W fuel e c err e1 h,
   calls_latched W fuel2 e1 (call_failed_Err W fuel e c err e1 h) cs⟩

/-- C13, at a concrete input: an encoder over a `bytes.Buffer` on which `Encode`
of a value with the unknown tag `x` has failed, followed by `Encode` of a
simple string, `EncodeMultiBulk` and `Flush`. -/
theorem Encoder_latch_witness :
    ({ bw := { err := none, buf := [120, 0], wr := [], wpos := 1 },
       Err := some (Error.badRespType 120) } : Encoder (List Byte)).Err ≠ none ∧
    Encoder.calls bytesBuffer 3
        ({ bw := { err := none, buf := [120, 0], wr := [], wpos := 1 },
           Err := some (Error.badRespType 120) } : Encoder (List Byte))
        [EncoderCall.Encode (NewString (some [79, 75])) true,
          EncoderCall.EncodeMultiBulk none true, EncoderCall.Flush]
      = some ([EncoderCall.Encode (NewString (some [79, 75])) true,
          EncoderCall.EncodeMultiBulk none true, EncoderCall.Flush].map
            (fun _ => some Error.ErrFailedEncoder),
          { bw := { err := none, buf := [120, 0], wr := [], wpos := 1 },
            Err := some (Error.badRespType 120) }) :=
  Encoder_latch bytesBuffer 3
    { bw := { err := none, buf := [0, 0], wr := [], wpos := 0 }, Err := none }
    (EncoderCall.Encode (Resp.mk 120 none none) true) (Error.badRespType 120)
    { bw := { err := none, buf := [120, 0], wr := [], wpos := 1 },
      Err := some (Error.badRespType 120) }
    rfl
    [EncoderCall.Encode (NewString (some [79, 75])) true,
      EncoderCall.EncodeMultiBulk none true, EncoderCall.Flush] 3

/-- C14, the claim as stated fails: on an encoder whose writer has a buffer of one
byte, over a sink that has room for three bytes, `Encode` of the bulk string `ab`
with a flush fails with the error of the sink, and the sink has received `$2`
and a carriage return, the first three bytes of the encoding `$2\r\nab\r\n`. -/
theorem Encode_failure_leaves_partial_frame :
    (Encoder.Encode (quotaWriter 3) 3 (NewEncoderSize ([] : List Byte) 1)
        (NewBulkBytes (some [97, 98])) true).map (fun out => (out.1, out.2.bw.wr))
      = some (some (Error.other 1), [36, 50, 13]) ∧
    wireFormat (NewBulkBytes (some [97, 98]))
      = Except.ok [36, 50, 13, 10, 97, 98, 13, 10] := by
  refine ⟨by decide, rfl⟩

/-- C14, amended: when `Encode(r, flush)` fails, the encoder has recorded an
error and no later sequence of calls on that encoder writes anything: each call
returns, and the buffered writer (its buffer and `wpos`) and the sink are left as
the failed call left them, so that what the failed call had passed to the sink
of the partial encoding of `r` is never extended. -/
theorem Encode_failure_latches {σ : Type} (W : Writer σ) (fuel : Nat) (e : Encoder σ)
    (r : Resp) (flush : Bool) (err : Error) (e1 : Encoder σ)
    (h : e.Encode W fuel r flush = some (some err, e1)) (cs : List EncoderCall)
    (fuel2 : Nat) :
    e1.Err ≠ none ∧
    (Encoder.calls W fuel2 e1 cs).map (fun out => (out.2.bw.buf, out.2.bw.wpos, out.2.bw.wr))
      = some (e1.bw.buf, e1.bw.wpos, e1.bw.wr) := by
  have he := call_failed_Err W fuel e (EncoderCall.Encode r flush) err e1 h
  refine ⟨he, ?_⟩
  rw [calls_latched W fuel2 e1 he cs]
  rfl

/-- C14 amended, at a concrete input: the failed `Encode` of the bulk string `ab`
over the sink with room for three bytes, followed by `Encode` of a simple string
and `Flush`. -/
theorem Encode_failure_latches_witness :
    ({ bw := { err := some (Error.other 1), buf := [10], wr := [36, 50, 13], wpos := 1 },
       Err := some (Error.other 1) } : Encoder (List Byte)).Err ≠ none ∧
    (Encoder.calls (quotaWriter 3) 3
        ({ bw := { err := some (Error.other 1), buf := [10], wr := [36, 50, 13], wpos := 1 },
           Err := some (Error.other 1) } : Encoder (List Byte))
        [EncoderCall.Encode (NewString (some [79, 75])) true, EncoderCall.Flush]).map
          (fun out => (out.2.bw.buf, out.2.bw.wpos, out.2.bw.wr))
      = some ([10], 1, [36, 50, 13]) :=
  Encode_failure_latches (quotaWriter 3) 3 (NewEncoderSize ([] : List Byte) 1)
    (NewBulkBytes (some [97, 98])) true (Error.other 1)
    { bw := { err := some (Error.other 1), buf := [10], wr := [36, 50, 13], wpos := 1 },
      Err := some (Error.other 1) }
    rfl
    [EncoderCall.Encode (NewString (some [79, 75])) true, EncoderCall.Flush] 3

end resp

namespace resp

open protocol

theorem encodeMultiBulk_eq {σ : Type} (W : Writer σ) (fuel : Nat) (bw : BufWriter σ)
    (v : Option (List Byte)) (multi : Option (List Resp)) :
    encodeMultiBulk W fuel bw multi = encodeResp W fuel bw (Resp.mk TypeArray v multi) := by
  rw [encodeResp_array]
  rfl

theorem finish_returns {σ : Type} (W : Writer σ) (flush : Bool) (st : Step σ)
    (h : ∃ x, st = some x) : ∃ out, Encoder.finish W flush st = some out := by
  obtain ⟨⟨x, bw⟩, hx⟩ := h
  subst hx
  cases x with
  | some err => exact ⟨_, rfl⟩
  | none =>
    cases flush with
    | true => exact ⟨_, rfl⟩
    | false => exact ⟨_, rfl⟩

/-- C24: `EncodeMultiBulk(multi, flush)` returns the same error and leaves the
encoder, its buffered writer and the sink in the same state as `Encode` applied
to the Array value whose children are `multi`, whatever the encoder, the list
(the nil list included), the flush setting and the value field of the Array
node; and over a sink that accepts everything both calls do return. -/
theorem EncodeMultiBulk_eq_Encode {σ : Type} (W : Writer σ) (fuel : Nat) (e : Encoder σ)
    (multi : Option (List Resp)) (flush : Bool) :
    e.EncodeMultiBulk W fuel multi flush = e.Encode W fuel (NewArray multi) flush ∧
    (∀ v, e.EncodeMultiBulk W fuel multi flush
      = e.Encode W fuel (Resp.mk TypeArray v multi) flush) ∧
    (∀ recv, AcceptsAll W recv → e.bw.Ok → 3 ≤ fuel →
      ∃ out, e.EncodeMultiBulk W fuel multi flush = some out ∧
        e.Encode W fuel (NewArray multi) flush = some out) := by
  have key : ∀ v, e.EncodeMultiBulk W fuel multi flush
      = e.Encode W fuel (Resp.mk TypeArray v multi) flush := by
    intro v
    unfold Encoder.EncodeMultiBulk Encoder.Encode
    rw [encodeMultiBulk_eq W fuel e.bw v multi]
  refine ⟨key none, key, ?_⟩
  intro recv hW hb hf
  rw [key none]
  have hm := encodeResp_meets hW fuel hf (NewArray multi) e.bw hb
  have hst : ∃ x, encodeResp W fuel e.bw (NewArray multi) = some x := by
    obtain ⟨bw1, _, h2⟩ := hm
    cases hw : wireFormat (NewArray multi) with
    | ok bs => rw [hw] at h2; exact ⟨_, h2.1⟩
    | error err => rw [hw] at h2; exact ⟨_, h2⟩
  have hfin := finish_returns W flush _ hst
  unfold Encoder.Encode NewArray at *
  cases he : e.Err with
  | some x => exact ⟨_, rfl, rfl⟩
  | none =>
    obtain ⟨out, ho⟩ := hfin
    exact ⟨out, ho, ho⟩

/-- C24, at a concrete input: an encoder with a buffer of four bytes over a
`bytes.Buffer`, the list that holds the integer `7`, and a flush. -/
theorem EncodeMultiBulk_eq_Encode_witness :
    Encoder.EncodeMultiBulk bytesBuffer 3 (NewEncoderSize ([] : List Byte) 4)
        (some [NewInt (some [55])]) true
      = Encoder.Encode bytesBuffer 3 (NewEncoderSize ([] : List Byte) 4)
        (NewArray (some [NewInt (some [55])])) true ∧
    ∃ out, Encoder.EncodeMultiBulk bytesBuffer 3 (NewEncoderSize ([] : List Byte) 4)
        (some [NewInt (some [55])]) true = some out ∧
      Encoder.Encode bytesBuffer 3 (NewEncoderSize ([] : List Byte) 4)
        (NewArray (some [NewInt (some [55])])) true = some out :=
  ⟨(EncodeMultiBulk_eq_Encode bytesBuffer 3 (NewEncoderSize ([] : List Byte) 4)
      (some [NewInt (some [55])]) true).1,
   (EncodeMultiBulk_eq_Encode bytesBuffer 3 (NewEncoderSize ([] : List Byte) 4)
      (some [NewInt (some [55])]) true).2.2 id bytesBuffer_acceptsAll
      ⟨rfl, by decide, by decide⟩ (by decide)⟩

mutual
theorem wireFormat_error_iff : ∀ (r : Resp),
    (∃ e, wireFormat r = Except.error e) ↔ ∃ n, n ∈ visited r ∧ ¬ knownType n.Typ
  | .mk t v a => by
    unfold wireFormat visited
    by_cases c1 : t = TypeString ∨ t = TypeError ∨ t = TypeInt
    · have hk : knownType t := by
        unfold knownType
        rcases c1 with h | h | h
        · exact Or.inl h
        · exact Or.inr (Or.inl h)
        · exact Or.inr (Or.inr (Or.inl h))
      have hna : t ≠ TypeArray := by
        rcases c1 with h | h | h <;> rw [h] <;> decide
      rw [if_pos c1, if_neg hna]
      constructor
      · rintro ⟨e, he⟩; cases he
      · rintro ⟨n, hn, hbad⟩
        rw [List.mem_singleton] at hn
        subst hn
        exact absurd hk hbad
    · rw [if_neg c1]
      by_cases c2 : t = TypeBulkBytes
      · have hk : knownType t := Or.inr (Or.inr (Or.inr (Or.inl c2)))
        have hna : t ≠ TypeArray := by rw [c2]; decide
        rw [if_pos c2, if_neg hna]
        constructor
        · rintro ⟨e, he⟩
          cases v <;> cases he
        · rintro ⟨n, hn, hbad⟩
          rw [List.mem_singleton] at hn
          subst hn
          exact absurd hk hbad
      · rw [if_neg c2]
        by_cases c3 : t = TypeArray
        · have hk : knownType t := Or.inr (Or.inr (Or.inr (Or.inr c3)))
          rw [if_pos c3, if_pos c3]
          cases a with
          | none =>
            constructor
            · rintro ⟨e, he⟩; cases he
            · rintro ⟨n, hn, hbad⟩
              rw [List.mem_singleton] at hn
              subst hn
              exact absurd hk hbad
          | some l =>
            have ih := wireFormats_error_iff l
            simp only
            constructor
            · rintro ⟨e, he⟩
              cases hw : wireFormats l with
              | ok bs => rw [hw] at he; cases he
              | error e1 =>
                obtain ⟨n, hn, hbad⟩ := ih.mp ⟨e1, hw⟩
                exact ⟨n, List.mem_cons_of_mem _ hn, hbad⟩
            · rintro ⟨n, hn, hbad⟩
              rcases List.mem_cons.mp hn with h | h
              · subst h
                exact absurd hk hbad
              · obtain ⟨e1, he1⟩ := ih.mpr ⟨n, h, hbad⟩
                rw [he1]
                exact ⟨e1, rfl⟩
        · rw [if_neg c3, if_neg c3]
          constructor
          · intro _
            refine ⟨Resp.mk t v a, List.mem_singleton.mpr rfl, ?_⟩
            intro hk
            unfold knownType at hk
            simp only [Resp.Typ] at hk
            rcases hk with h | h | h | h | h
            · exact c1 (Or.inl h)
            · exact c1 (Or.inr (Or.inl h))
            · exact c1 (Or.inr (Or.inr h))
            · exact c2 h
            · exact c3 h
          · intro _
            exact ⟨_, rfl⟩
theorem wireFormats_error_iff : ∀ (l : List Resp),
    (∃ e, wireFormats l = Except.error e) ↔ ∃ n, n ∈ visitedAll l ∧ ¬ knownType n.Typ
  | [] => by
    unfold wireFormats visitedAll
    constructor
    · rintro ⟨e, he⟩; cases he
    · rintro ⟨n, hn, _⟩; cases hn
  | r :: rs => by
    have ih1 := wireFormat_error_iff r
    have ih2 := wireFormats_error_iff rs
    unfold wireFormats visitedAll
    constructor
    · rintro ⟨e, he⟩
      cases hw : wireFormat r with
      | error e1 =>
        obtain ⟨n, hn, hbad⟩ := ih1.mp ⟨e1, hw⟩
        exact ⟨n, List.mem_append_left _ hn, hbad⟩
      | ok b =>
        rw [hw] at he
        simp only at he
        cases hws : wireFormats rs with
        | error e2 =>
          obtain ⟨n, hn, hbad⟩ := ih2.mp ⟨e2, hws⟩
          exact ⟨n, List.mem_append_right _ hn, hbad⟩
        | ok bs => rw [hws] at he; cases he
    · rintro ⟨n, hn, hbad⟩
      rcases List.mem_append.mp hn with h | h
      · obtain ⟨e1, he1⟩ := ih1.mpr ⟨n, h, hbad⟩
        rw [he1]
        exact ⟨e1, rfl⟩
      · obtain ⟨e2, he2⟩ := ih2.mpr ⟨n, h, hbad⟩
        cases hw : wireFormat r with
        | error e1 => exact ⟨e1, rfl⟩
        | ok b =>
          simp only
          rw [he2]
          exact ⟨e2, rfl⟩
end

theorem encodeResp_ignores_array {σ : Type} (W : Writer σ) (fuel : Nat) (bw : BufWriter σ)
    (t : Byte) (v : Option (List Byte)) (a a1 : Option (List Resp)) (ht : t ≠ TypeArray) :
    encodeResp W fuel bw (Resp.mk t v a) = encodeResp W fuel bw (Resp.mk t v a1) := by
  unfold encodeResp
  simp only [if_neg ht]

theorem encodeResp_ignores_value {σ : Type} (W : Writer σ) (fuel : Nat) (bw : BufWriter σ)
    (t : Byte) (v v1 : Option (List Byte)) (a : Option (List Resp))
    (ht : ¬ (t = TypeString ∨ t = TypeError ∨ t = TypeInt ∨ t = TypeBulkBytes)) :
    encodeResp W fuel bw (Resp.mk t v a) = encodeResp W fuel bw (Resp.mk t v1 a) := by
  have c1 : ¬ (t = TypeString ∨ t = TypeError ∨ t = TypeInt) := by
    intro h
    rcases h with h | h | h
    · exact ht (Or.inl h)
    · exact ht (Or.inr (Or.inl h))
    · exact ht (Or.inr (Or.inr (Or.inl h)))
  have c2 : ¬ (t = TypeBulkBytes) := fun h => ht (Or.inr (Or.inr (Or.inr h)))
  unfold encodeResp
  simp only [if_neg c1, if_neg c2]

/-- C25: `EncodeToBytes(r)` returns, and it returns an error (and no bytes)
exactly when some node that the encoder is to visit (the root or, recursively,
a child of a node of kind Array whose list of children is not null) has a tag
that is none of the five kinds; otherwise it returns bytes and no error.  The
children field of a node whose kind is not Array, and the value field of a node
whose kind is Array or is none of the five, have no effect on what is encoded,
at the root and at every node below it. -/
theorem EncodeToBytes_error_iff (r : Resp) (fuel : Nat) :
    ((∃ e, EncodeToBytes (fuel + 3) r = some (Except.error e)) ↔
      ∃ n, n ∈ visited r ∧ ¬ knownType n.Typ) ∧
    ((∃ bs, EncodeToBytes (fuel + 3) r = some (Except.ok bs)) ↔
      ∀ n, n ∈ visited r → knownType n.Typ) ∧
    (∀ (t : Byte) (v : Option (List Byte)) (a a1 : Option (List Resp)), t ≠ TypeArray →
      (∀ bw : BufWriter (List Byte), encodeResp bytesBuffer fuel bw (Resp.mk t v a)
        = encodeResp bytesBuffer fuel bw (Resp.mk t v a1)) ∧
      EncodeToBytes fuel (Resp.mk t v a) = EncodeToBytes fuel (Resp.mk t v a1)) ∧
    (∀ (t : Byte) (v v1 : Option (List Byte)) (a : Option (List Resp)),
      ¬ (t = TypeString ∨ t = TypeError ∨ t = TypeInt ∨ t = TypeBulkBytes) →
      (∀ bw : BufWriter (List Byte), encodeResp bytesBuffer fuel bw (Resp.mk t v a)
        = encodeResp bytesBuffer fuel bw (Resp.mk t v1 a)) ∧
      EncodeToBytes fuel (Resp.mk t v a) = EncodeToBytes fuel (Resp.mk t v1 a)) := by
  have heq := EncodeToBytes_eq (fuel + 3) (by omega) r
  have hiff := wireFormat_error_iff r
  refine ⟨?_, ?_, ?_, ?_⟩
  · rw [heq]
    constructor
    · rintro ⟨e, he⟩
      exact hiff.mp ⟨e, Option.some.inj he⟩
    · intro h
      obtain ⟨e, he⟩ := hiff.mpr h
      exact ⟨e, by rw [he]⟩
  · rw [heq]
    constructor
    · rintro ⟨bs, hbs⟩ n hn
      by_contra hbad
      obtain ⟨e, he⟩ := hiff.mpr ⟨n, hn, hbad⟩
      rw [he] at hbs
      cases hbs
    · intro h
      cases hw : wireFormat r with
      | ok bs => exact ⟨bs, rfl⟩
      | error e =>
        obtain ⟨n, hn, hbad⟩ := hiff.mp ⟨e, hw⟩
        exact absurd (h n hn) hbad
  · intro t v a a1 ht
    refine ⟨fun bw => encodeResp_ignores_array bytesBuffer fuel bw t v a a1 ht, ?_⟩
    unfold EncodeToBytes Encode Encoder.Encode
    simp only [encodeResp_ignores_array bytesBuffer fuel _ t v a a1 ht]
  · intro t v v1 a ht
    refine ⟨fun bw => encodeResp_ignores_value bytesBuffer fuel bw t v v1 a ht, ?_⟩
    unfold EncodeToBytes Encode Encoder.Encode
    simp only [encodeResp_ignores_value bytesBuffer fuel _ t v v1 a ht]

/-- C25, at a concrete input: the array of the simple string `a` and of a node
with the unknown tag `x`, and a simple string that carries children. -/
theorem EncodeToBytes_error_iff_witness :
    (∃ e, EncodeToBytes (0 + 3)
        (NewArray (some [NewString (some [97]), Resp.mk 120 none none]))
      = some (Except.error e)) ∧
    EncodeToBytes 3 (Resp.mk TypeString (some [97]) (some [Resp.mk 120 none none]))
      = EncodeToBytes 3 (Resp.mk TypeString (some [97]) none) :=
  ⟨(EncodeToBytes_error_iff
      (NewArray (some [NewString (some [97]), Resp.mk 120 none none])) 0).1.mpr
      ⟨Resp.mk 120 none none, by simp [NewArray, NewString, visited, visitedAll],
        by simp [knownType, Resp.Typ, TypeString, TypeError, TypeInt, TypeBulkBytes, TypeArray]⟩,
   ((EncodeToBytes_error_iff (NewString none) 3).2.2.1 TypeString (some [97])
      (some [Resp.mk 120 none none]) none (by decide)).2⟩

end resp

/-! ## Properties of the buffered reader -/

namespace protocol

theorem subslice_length (l : List Byte) (i j : Nat) :
    (subslice l i j).length = min j l.length - i := by
  simp [subslice]

theorem subslice_head (l : List Byte) (i j : Nat) (h1 : i < j) (h2 : j ≤ l.length) :
    subslice l i j = l.getD i 0 :: subslice l (i + 1) j := by
  unfold subslice
  have hi : i < (l.take j).length := by rw [List.length_take]; omega
  rw [List.drop_eq_getElem_cons hi]
  congr 1
  rw [List.getElem_take, List.getD_eq_getElem?_getD, List.getElem?_eq_getElem (by omega)]
  rfl

theorem subslice_self (l : List Byte) (i : Nat) : subslice l i i = [] := by
  simp [subslice]

theorem subslice_split (l : List Byte) (i m j : Nat) (h1 : i ≤ m) (h2 : m ≤ j) :
    subslice l i j = subslice l i m ++ subslice l m j := by
  unfold subslice
  have h : l.take m = (l.take j).take m := by rw [List.take_take, Nat.min_eq_left h2]
  rw [h]
  generalize l.take j = t
  have : List.drop m t = List.drop (m - i) (List.drop i t) := by
    rw [List.drop_drop]; congr 1; omega
  rw [this, List.drop_take]
  exact (List.take_append_drop (m - i) (List.drop i t)).symm

theorem IndexByte_some {l : List Byte} {d : Byte} {i : Nat} (h : IndexByte l d = some i) :
    i < l.length ∧ IndexByte (l.take (i + 1)) d = some i ∧ l.getD i 0 = d := by
  induction l generalizing i with
  | nil => simp [IndexByte] at h
  | cons x xs ih =>
    unfold IndexByte at h
    by_cases hx : x = d
    · rw [if_pos hx] at h
      cases h
      simp [IndexByte, hx]
    · rw [if_neg hx] at h
      cases hxs : IndexByte xs d with
      | none => rw [hxs] at h; simp at h
      | some j =>
        rw [hxs] at h
        simp only [Option.map_some', Option.some.injEq] at h
        subst h
        obtain ⟨h1, h2, h3⟩ := ih hxs
        refine ⟨by simp; omega, ?_, ?_⟩
        · simp only [List.take_succ_cons, IndexByte, if_neg hx, h2, Option.map_some']
        · simpa using h3

theorem IndexByte_cons (x : Byte) (xs : List Byte) (c : Byte) :
    IndexByte (x :: xs) c = if x = c then some 0 else (IndexByte xs c).map (· + 1) := rfl

theorem IndexByte_append_some {l : List Byte} {d : Byte} {i : Nat} (m : List Byte)
    (h : IndexByte l d = some i) : IndexByte (l ++ m) d = some i := by
  induction l generalizing i with
  | nil => simp [IndexByte] at h
  | cons x xs ih =>
    rw [IndexByte_cons] at h
    rw [List.cons_append, IndexByte_cons]
    by_cases hx : x = d
    · rw [if_pos hx] at h ⊢; exact h
    · rw [if_neg hx] at h ⊢
      cases hxs : IndexByte xs d with
      | none => rw [hxs] at h; simp at h
      | some j => rw [ih hxs]; rw [hxs] at h; exact h

theorem IndexByte_append_none {l : List Byte} {d : Byte} (m : List Byte)
    (h : IndexByte l d = none) :
    IndexByte (l ++ m) d = (IndexByte m d).map (· + l.length) := by
  induction l with
  | nil => simp
  | cons x xs ih =>
    rw [IndexByte_cons] at h
    by_cases hx : x = d
    · rw [if_pos hx] at h; simp at h
    · rw [if_neg hx] at h
      have hxs : IndexByte xs d = none := by
        cases hxs : IndexByte xs d with
        | none => rfl
        | some j => rw [hxs] at h; simp at h
      rw [List.cons_append, IndexByte_cons, if_neg hx, ih hxs, Option.map_map]
      cases IndexByte m d with
      | none => rfl
      | some j => simp only [Option.map_some', Function.comp, List.length_cons, Nat.add_assoc]

theorem IndexByte_last {l : List Byte} {d : Byte} (h : IndexByte l d = some (l.length - 1)) :
    ∃ pre, l = pre ++ [d] ∧ IndexByte pre d = none := by
  induction l with
  | nil => simp [IndexByte] at h
  | cons x xs ih =>
    rw [IndexByte_cons] at h
    by_cases hx : x = d
    · rw [if_pos hx] at h
      simp only [List.length_cons, Nat.add_sub_cancel, Option.some.injEq] at h
      have : xs = [] := List.eq_nil_of_length_eq_zero h.symm
      subst this
      exact ⟨[], by simp [hx], rfl⟩
    · rw [if_neg hx] at h
      cases hxs : IndexByte xs d with
      | none => rw [hxs] at h; simp at h
      | some j =>
        rw [hxs] at h
        simp only [Option.map_some', List.length_cons, Nat.add_sub_cancel,
          Option.some.injEq] at h
        have hxs2 : IndexByte xs d = some (xs.length - 1) := by
          rw [hxs]; congr 1; omega
        obtain ⟨pre, i2, i3⟩ := ih hxs2
        refine ⟨x :: pre, by rw [i2]; rfl, ?_⟩
        rw [IndexByte_cons, if_neg hx, i3]; rfl

theorem copyAt_subslice (buf : List Byte) (off : Nat) (src : List Byte) (i : Nat)
    (hi : i ≤ off) (h : off ≤ buf.length) :
    subslice (copyAt buf off src).1 i (off + (copyAt buf off src).2)
      = subslice buf i off ++ src.take (copyAt buf off src).2 := by
  unfold subslice
  rw [copyAt_take buf off src h, List.drop_append_of_le_length]
  rw [List.length_take]; omega

theorem copyAt_all (buf : List Byte) (src : List Byte) (h : buf.length = src.length) :
    (copyAt buf 0 src).1 = src := by
  simp [copyAt, h]

theorem compact_spec {ρ : Type} (b : BufReader ρ) (hb : b.Ok) :
    b.compact.Ok ∧ b.compact.buf.length = b.buf.length ∧ b.compact.rpos = 0 ∧
      b.compact.wpos = b.wpos - b.rpos ∧
      subslice b.compact.buf b.compact.rpos b.compact.wpos = subslice b.buf b.rpos b.wpos ∧
      b.compact.rd = b.rd ∧ b.compact.err = b.err ∧ b.compact.slice = b.slice := by
  obtain ⟨h1, h2, h3⟩ := hb
  unfold BufReader.compact
  by_cases hr : b.rpos > 0
  · rw [if_pos hr]
    have hlen : (subslice b.buf b.rpos b.wpos).length = b.wpos - b.rpos := by
      rw [subslice_length]; omega
    have hn : (copyAt b.buf 0 (subslice b.buf b.rpos b.wpos)).2 = b.wpos - b.rpos := by
      rw [copyAt_snd, hlen]; omega
    have hl := copyAt_length b.buf 0 (subslice b.buf b.rpos b.wpos) (Nat.zero_le _)
    have hs := copyAt_subslice b.buf 0 (subslice b.buf b.rpos b.wpos) 0 (Nat.le_refl _)
      (Nat.zero_le _)
    rw [Nat.zero_add, hn, ← hlen, List.take_length, subslice_self, List.nil_append, hlen] at hs
    refine ⟨⟨?_, ?_, ?_⟩, ?_, rfl, ?_, ?_, rfl, rfl, rfl⟩
    · exact Nat.zero_le _
    · simp only [hl, hn]; omega
    · simp only [hl]; exact h3
    · simp only [hl]
    · exact hn
    · simp only [hn]; exact hs
  · rw [if_neg hr]
    have : b.rpos = 0 := by omega
    refine ⟨⟨h1, h2, h3⟩, rfl, this, ?_, rfl, rfl, rfl, rfl⟩
    omega

theorem fill_spec {ρ : Type} {R : Reader ρ} {rem : ρ → List Byte} (hS : Streams R rem)
    (b : BufReader ρ) (hb : b.Ok) (he : b.err = none) :
    (b.fill R).2.buf.length = b.buf.length ∧
    ((b.fill R).1 = none →
      (b.fill R).2.Ok ∧ (b.fill R).2.err = none ∧ (b.fill R).2.rpos = 0 ∧
      b.buffered < (b.fill R).2.buffered ∧
      ∃ data, data ≠ [] ∧
        subslice (b.fill R).2.buf (b.fill R).2.rpos (b.fill R).2.wpos
          = subslice b.buf b.rpos b.wpos ++ data ∧
        rem b.rd = data ++ rem (b.fill R).2.rd) ∧
    (∀ e, (b.fill R).1 = some e → (b.fill R).2.err = some e ∧
      (e = Error.ErrNoProgress ∨ ∃ s k, (R.Read s k).2.2 = some e)) ∧
    (Progresses R rem → rem b.rd ≠ [] → b.buffered < b.buf.length → (b.fill R).1 = none) := by
  obtain ⟨c1, c2, c3, c4, c5, c6, c7, c8⟩ := compact_spec b hb
  have hS1 := (hS b.compact.rd (b.compact.buf.length - b.compact.wpos)).1
  have hS2 := (hS b.compact.rd (b.compact.buf.length - b.compact.wpos)).2
  have hcl := copyAt_length b.compact.buf b.compact.wpos
    (R.Read b.compact.rd (b.compact.buf.length - b.compact.wpos)).2.1 c1.2.1
  have hcn : (copyAt b.compact.buf b.compact.wpos
      (R.Read b.compact.rd (b.compact.buf.length - b.compact.wpos)).2.1).2
      = (R.Read b.compact.rd (b.compact.buf.length - b.compact.wpos)).2.1.length := by
    rw [copyAt_snd]; omega
  have hcs := copyAt_subslice b.compact.buf b.compact.wpos
    (R.Read b.compact.rd (b.compact.buf.length - b.compact.wpos)).2.1 b.compact.rpos
    c1.1 c1.2.1
  rw [hcn, List.take_length, c5] at hcs
  have hprog : Progresses R rem → rem b.rd ≠ [] → b.buffered < b.buf.length →
      (R.Read b.compact.rd (b.compact.buf.length - b.compact.wpos)).2.2 = none ∧
      (R.Read b.compact.rd (b.compact.buf.length - b.compact.wpos)).2.1 ≠ [] := by
    intro hP hne hlt
    apply hP
    · unfold BufReader.buffered at hlt; rw [c2, c4]; omega
    · rw [c6]; exact hne
  unfold BufReader.fill
  rw [he]
  simp only
  rcases hrd : R.Read b.compact.rd (b.compact.buf.length - b.compact.wpos) with ⟨s, data, e⟩
  rw [hrd] at hS1 hS2 hcl hcn hcs hprog
  simp only at hS1 hS2 hcl hcn hcs hprog
  cases e with
  | some x =>
    refine ⟨?_, ?_, ?_, ?_⟩
    · simp only [hcl, c2]
    · intro h; cases h
    · intro e h
      simp only [Option.some.injEq] at h
      subst h
      exact ⟨rfl, Or.inr ⟨_, _, by rw [hrd]⟩⟩
    · intro hP hne hlt
      have := (hprog hP hne hlt).1
      cases this
  | none =>
    simp only
    by_cases hd : data.length = 0
    · rw [if_pos hd]
      refine ⟨?_, ?_, ?_, ?_⟩
      · simp only [hcl, c2]
      · intro h; cases h
      · intro e h
        simp only [Option.some.injEq] at h
        subst h
        exact ⟨rfl, Or.inl rfl⟩
      · intro hP hne hlt
        have := (hprog hP hne hlt).2
        exact absurd (List.eq_nil_of_length_eq_zero hd) this
    · rw [if_neg hd]
      refine ⟨?_, ?_, ?_, ?_⟩
      · simp only [hcl, c2]
      · intro _
        refine ⟨⟨?_, ?_, ?_⟩, c7.trans he, c3, ?_, data, ?_, hcs, ?_⟩
        · simp only [c3]; exact Nat.zero_le _
        · simp only [hcl]; omega
        · simp only [hcl, c2]; exact hb.2.2
        · simp only [BufReader.buffered, c3, c4]; omega
        · intro h0; apply hd; rw [h0]; rfl
        · rw [← c6]; exact hS2
      · intro e h; cases h
      · intro _ _ _; rfl

theorem fill_unread {ρ : Type} {R : Reader ρ} {rem : ρ → List Byte} (hS : Streams R rem)
    (b : BufReader ρ) (hb : b.Ok) (he : b.err = none) (h : (b.fill R).1 = none) :
    BufReader.unread rem (b.fill R).2 = BufReader.unread rem b := by
  obtain ⟨_, f2, _, _⟩ := fill_spec hS b hb he
  obtain ⟨_, _, _, _, data, _, d2, d3⟩ := f2 h
  unfold BufReader.unread
  rw [d2, d3, List.append_assoc]

theorem ReadByte_buffered {ρ : Type} (R : Reader ρ) (rem : ρ → List Byte)
    (b : BufReader ρ) (hb : b.Ok) (he : b.err = none) (hlt : b.rpos < b.wpos) :
    b.ReadByte R = ((b.buf.getD b.rpos 0, none), { b with rpos := b.rpos + 1 }) ∧
      b.PeekByte R = ((b.buf.getD b.rpos 0, none), b) ∧
      BufReader.unread rem b
        = b.buf.getD b.rpos 0 :: BufReader.unread rem { b with rpos := b.rpos + 1 } ∧
      BufReader.Ok { b with rpos := b.rpos + 1 } := by
  have hbuf : ¬ b.buffered = 0 := by unfold BufReader.buffered; omega
  refine ⟨?_, ?_, ?_, ?_⟩
  · unfold BufReader.ReadByte
    rw [he]
    simp only [hbuf, if_false]
  · unfold BufReader.PeekByte
    rw [he]
    simp only [hbuf, if_false]
  · unfold BufReader.unread
    simp only
    rw [subslice_head b.buf b.rpos b.wpos hlt hb.2.1]
    rfl
  · exact ⟨hlt, hb.2.1, hb.2.2⟩

/-- C10: when `PeekByte` succeeds with the byte `c`, the unread byte stream (the
unread bytes of the buffer followed by what the source still holds) is the same
after the call as before it, and a `ReadByte` that follows at once succeeds and
returns the same byte `c`. -/
theorem PeekByte_does_not_consume {ρ : Type} (R : Reader ρ) (rem : ρ → List Byte)
    (hS : Streams R rem) (b : BufReader ρ) (hb : b.Ok) (c : Byte) (b1 : BufReader ρ)
    (h : b.PeekByte R = ((c, none), b1)) :
    BufReader.unread rem b1 = BufReader.unread rem b ∧ (b1.ReadByte R).1 = (c, none) := by
  cases he : b.err with
  | some e =>
    unfold BufReader.PeekByte at h
    rw [he] at h
    simp at h
  | none =>
    by_cases hbuf : b.buffered = 0
    · obtain ⟨_, f2, f3, _⟩ := fill_spec hS b hb he
      have hu := fill_unread hS b hb he
      unfold BufReader.PeekByte at h
      rw [he] at h
      simp only [hbuf, if_true] at h
      rcases hf : b.fill R with ⟨e1, b2⟩
      rw [hf] at h f2 f3 hu
      cases e1 with
      | some x =>
        simp only at h
        have := (f3 x rfl).1
        simp only at this
        rw [this] at h
        simp at h
      | none =>
        simp only [Prod.mk.injEq, and_true] at h
        obtain ⟨hc, hb1⟩ := h
        subst hb1
        obtain ⟨g1, g2, g3, g4, _⟩ := f2 rfl
        simp only at g1 g2 g3 g4
        have hlt : b2.rpos < b2.wpos := by
          unfold BufReader.buffered at g4; omega
        refine ⟨hu rfl, ?_⟩
        rw [(ReadByte_buffered R rem b2 g1 g2 hlt).1, hc]
    · have hlt : b.rpos < b.wpos := by unfold BufReader.buffered at hbuf; omega
      rw [(ReadByte_buffered R rem b hb he hlt).2.1] at h
      simp only [Prod.mk.injEq, and_true] at h
      obtain ⟨hc, hb1⟩ := h
      subst hb1
      refine ⟨rfl, ?_⟩
      rw [(ReadByte_buffered R rem b hb he hlt).1, hc]

theorem fragmentReader_streams (m : Nat) : Streams (fragmentReader m) id := by
  intro s k
  unfold fragmentReader
  by_cases hs : s.length = 0
  · simp [hs]
  · simp only [hs, if_false, List.length_take, id, List.take_append_drop, and_true]
    omega

theorem fragmentReader_progresses (m : Nat) (hm : 0 < m) : Progresses (fragmentReader m) id := by
  intro s k hk hne
  have hs : ¬ s.length = 0 := by
    intro h; exact hne (List.eq_nil_of_length_eq_zero h)
  unfold fragmentReader
  simp only [hs, if_false, true_and]
  intro h
  have := congrArg List.length h
  simp only [List.length_take, List.length_nil] at this
  omega

theorem stringsReader_streams : Streams stringsReader id := by
  intro s k
  unfold stringsReader
  by_cases hs : s.length = 0
  · simp [hs]
  · simp only [hs, if_false, List.length_take, id, List.take_append_drop, and_true]
    omega

/-- C10, at a concrete input: a reader of capacity 2 with an empty buffer over a
source that holds `hi` and hands it out one byte at a time. -/
theorem PeekByte_does_not_consume_witness :
    BufReader.unread id
        ({ err := none, buf := [104, 0], rd := [105], rpos := 0, wpos := 1,
           slice := { buf := [] } } : BufReader (List Byte))
      = BufReader.unread id
        ({ err := none, buf := [0, 0], rd := [104, 105], rpos := 0, wpos := 0,
           slice := { buf := [] } } : BufReader (List Byte)) ∧
    (BufReader.ReadByte (fragmentReader 1)
        ({ err := none, buf := [104, 0], rd := [105], rpos := 0, wpos := 1,
           slice := { buf := [] } } : BufReader (List Byte))).1 = (104, none) :=
  PeekByte_does_not_consume (fragmentReader 1) id (fragmentReader_streams 1)
    { err := none, buf := [0, 0], rd := [104, 105], rpos := 0, wpos := 0,
      slice := { buf := [] } }
    ⟨by decide, by decide, by decide⟩ 104
    { err := none, buf := [104, 0], rd := [105], rpos := 0, wpos := 1, slice := { buf := [] } }
    rfl

theorem ReadByte_next {ρ : Type} {R : Reader ρ} {rem : ρ → List Byte} (hS : Streams R rem)
    (hP : Progresses R rem) (b : BufReader ρ) (hb : b.Ok) (he : b.err = none) (c : Byte)
    (rest : List Byte) (hu : BufReader.unread rem b = c :: rest) :
    (b.ReadByte R).1 = (c, none) ∧ (b.ReadByte R).2.Ok ∧ (b.ReadByte R).2.err = none ∧
      BufReader.unread rem (b.ReadByte R).2 = rest := by
  by_cases hbuf : b.buffered = 0
  · obtain ⟨_, f2, _, f4⟩ := fill_spec hS b hb he
    have hu2 := fill_unread hS b hb he
    have hnil : subslice b.buf b.rpos b.wpos = [] := by
      apply List.eq_nil_of_length_eq_zero
      rw [subslice_length]; unfold BufReader.buffered at hbuf; omega
    have hrem : rem b.rd ≠ [] := by
      unfold BufReader.unread at hu
      rw [hnil, List.nil_append] at hu
      rw [hu]; simp
    have hnone := f4 hP hrem (by rw [hbuf]; exact hb.2.2)
    obtain ⟨g1, g2, g3, g4, _⟩ := f2 hnone
    have hlt : (b.fill R).2.rpos < (b.fill R).2.wpos := by
      unfold BufReader.buffered at g4; omega
    obtain ⟨r1, _, r3, r4⟩ := ReadByte_buffered R rem (b.fill R).2 g1 g2 hlt
    have hrb : b.ReadByte R = (b.fill R).2.ReadByte R := by
      rw [r1]
      unfold BufReader.ReadByte
      rw [he]
      simp only [hbuf, if_true]
      rcases hf : b.fill R with ⟨e1, b2⟩
      rw [hf] at hnone
      simp only at hnone
      subst hnone
      rfl
    rw [hrb, r1]
    rw [hu2 hnone, hu] at r3
    simp only [List.cons.injEq] at r3
    exact ⟨by rw [r3.1], r4, g2, r3.2.symm⟩
  · have hlt : b.rpos < b.wpos := by unfold BufReader.buffered at hbuf; omega
    obtain ⟨r1, _, r3, r4⟩ := ReadByte_buffered R rem b hb he hlt
    rw [r1]
    rw [hu] at r3
    simp only [List.cons.injEq] at r3
    exact ⟨by rw [r3.1], r4, he, r3.2.symm⟩

/-- For every capacity of at least one, over a source that hands out its stream
in fragments of any sizes, with at least one byte and no error at each read
while the stream lasts, `len(payload)` successive `ReadByte` calls on a reader whose unread stream starts with `payload`
all succeed and return the bytes of `payload` in their order; what follows
`payload` in the stream is left unread. -/
theorem ReadByte_reads_payload {ρ : Type} (R : Reader ρ) (rem : ρ → List Byte)
    (hS : Streams R rem) (hP : Progresses R rem) (payload rest : List Byte) :
    ∀ (b : BufReader ρ), 1 ≤ b.buf.length → b.rpos ≤ b.wpos → b.wpos ≤ b.buf.length →
      b.err = none → BufReader.unread rem b = payload ++ rest →
      (BufReader.readByteTimes R payload.length b).1 = payload.map (fun c => (c, none)) ∧
      BufReader.unread rem (BufReader.readByteTimes R payload.length b).2 = rest := by
  induction payload with
  | nil =>
    intro b _ _ _ _ hu
    exact ⟨rfl, hu⟩
  | cons c cs ih =>
    intro b h1 h2 h3 he hu
    obtain ⟨r1, r2, r3, r4⟩ := ReadByte_next hS hP b ⟨h2, h3, h1⟩ he c (cs ++ rest) hu
    obtain ⟨i1, i2⟩ := ih (b.ReadByte R).2 r2.2.2 r2.1 r2.2.1 r3 r4
    simp only [List.length_cons, BufReader.readByteTimes, List.map_cons, r1, i1, i2,
      and_self]

/-- At a concrete input: a fresh reader of capacity 2 over a source that holds
`hey`, hands it out one byte at a time and reports `io.EOF` after the last
byte only. -/
theorem ReadByte_reads_payload_witness :
    (BufReader.readByteTimes (fragmentReader 1) 3
        ({ err := none, buf := [0, 0], rd := [104, 101, 121], rpos := 0, wpos := 0,
           slice := { buf := [] } } : BufReader (List Byte))).1
      = [(104, none), (101, none), (121, none)] ∧
    BufReader.unread id (BufReader.readByteTimes (fragmentReader 1) 3
        ({ err := none, buf := [0, 0], rd := [104, 101, 121], rpos := 0, wpos := 0,
           slice := { buf := [] } } : BufReader (List Byte))).2 = [] :=
  ReadByte_reads_payload (fragmentReader 1) id (fragmentReader_streams 1)
    (fragmentReader_progresses 1 (by decide)) [104, 101, 121] []
    { err := none, buf := [0, 0], rd := [104, 101, 121], rpos := 0, wpos := 0,
      slice := { buf := [] } }
    (by decide) (by decide) (by decide) rfl rfl

theorem subslice_take (l : List Byte) (i m j : Nat) (h1 : i ≤ m) (h2 : m ≤ j)
    (h3 : j ≤ l.length) : (subslice l i j).take (m - i) = subslice l i m := by
  rw [subslice_split l i m j h1 h2, List.take_append_of_le_length, List.take_of_length_le]
  · rw [subslice_length]; omega
  · rw [subslice_length]; omega

theorem subslice_full (l : List Byte) : subslice l 0 l.length = l := by
  simp [subslice]

theorem readSliceLoop_spec {ρ : Type} {R : Reader ρ} {rem : ρ → List Byte}
    (hS : Streams R rem) (delim : Byte) (fuel : Nat) :
    ∀ (b : BufReader ρ), b.Ok → b.err = none → b.buf.length - b.buffered + 1 ≤ fuel →
    ∃ out, BufReader.readSliceLoop R delim fuel b = some out ∧
      SliceResult R rem delim b out ∧
      (Progresses R rem → (IndexByte (BufReader.unread rem b) delim).isSome →
        ∀ e, out.1 ≠ (none, some e)) := by
  induction fuel with
  | zero => intro b _ _ h; omega
  | succ fuel ih =>
    intro b hb he hf
    unfold BufReader.readSliceLoop
    cases hidx : IndexByte (subslice b.buf b.rpos b.wpos) delim with
    | some index =>
      simp only
      obtain ⟨i1, i2, _⟩ := IndexByte_some hidx
      rw [subslice_length] at i1
      have hm : b.rpos + index + 1 ≤ b.wpos := by omega
      have hw := hb.2.1
      have htk := subslice_take b.buf b.rpos (b.rpos + index + 1) b.wpos (by omega) hm hw
      have hidx1 : b.rpos + index + 1 - b.rpos = index + 1 := by omega
      rw [hidx1] at htk
      have hlen : (subslice b.buf b.rpos (b.rpos + index + 1)).length = index + 1 := by
        rw [subslice_length]; omega
      refine ⟨_, rfl, ⟨rfl, Or.inl ⟨_, rfl, ?_, ?_, ⟨?_, hw, hb.2.2⟩, he, ?_, ?_⟩⟩, ?_⟩
      · rw [hlen, ← htk]; exact i2
      · unfold BufReader.unread
        simp only
        rw [← List.append_assoc,
          ← subslice_split b.buf b.rpos (b.rpos + index + 1) b.wpos (by omega) hm]
      · exact hm
      · simp only [hlen]; omega
      · simp only [hlen]
        congr 1
        omega
      · intro _ _ e h; simp at h
    | none =>
      simp only
      by_cases hfull : b.buffered = b.buf.length
      · rw [if_pos hfull]
        unfold BufReader.buffered at hfull
        have hr : b.rpos = 0 := by have := hb.2.1; have := hb.1; omega
        have hwp : b.wpos = b.buf.length := by have := hb.2.1; have := hb.1; omega
        have hsub : subslice b.buf b.rpos b.wpos = b.buf := by
          rw [hr, hwp, subslice_full]
        rw [hsub] at hidx
        refine ⟨_, rfl, ⟨rfl, Or.inr (Or.inl ⟨_, rfl, rfl, hidx, ?_, ⟨Nat.le_refl _, hb.2.1,
          hb.2.2⟩, he, rfl⟩)⟩, ?_⟩
        · unfold BufReader.unread
          simp only [hsub, subslice_self, List.nil_append]
        · intro _ _ e h; simp at h
      · rw [if_neg hfull]
        obtain ⟨f1, f2, f3, f4⟩ := fill_spec hS b hb he
        have hu := fill_unread hS b hb he
        rcases hfl : b.fill R with ⟨e1, b1⟩
        rw [hfl] at f1 f2 f3 f4 hu
        simp only at f1 f2 f3 f4 hu
        cases e1 with
        | some x =>
          simp only
          obtain ⟨g1, g2⟩ := f3 x rfl
          refine ⟨_, rfl, ⟨f1, Or.inr (Or.inr ⟨x, ?_, g1, g2⟩)⟩, ?_⟩
          · rw [g1]
          · intro hP hsome e _
            have hrem : rem b.rd ≠ [] := by
              intro h0
              unfold BufReader.unread at hsome
              rw [h0, List.append_nil, hidx] at hsome
              simp at hsome
            have hlt : b.buffered < b.buf.length := by
              have := hb.2.1
              unfold BufReader.buffered at hfull ⊢
              omega
            have := f4 hP hrem hlt
            cases this
        | none =>
          simp only
          obtain ⟨g1, g2, g3, g4, _⟩ := f2 rfl
          have hfuel : b1.buf.length - b1.buffered + 1 ≤ fuel := by
            have k1 := g1.1
            have k2 := g1.2.1
            have k3 := hb.1
            have k4 := hb.2.1
            rw [f1] at k2 ⊢
            unfold BufReader.buffered at g4 hf hfull ⊢
            omega
          obtain ⟨out, o1, o2, o3⟩ := ih b1 g1 g2 hfuel
          refine ⟨out, o1, ?_, ?_⟩
          · unfold SliceResult at o2 ⊢
            rw [f1, hu rfl] at o2
            exact o2
          · rw [hu rfl] at o3
            exact o3

theorem ReadSlice_spec {ρ : Type} {R : Reader ρ} {rem : ρ → List Byte}
    (hS : Streams R rem) (delim : Byte) (b : BufReader ρ) (hb : b.Ok) (he : b.err = none) :
    ∃ out, b.ReadSlice R delim = some out ∧ SliceResult R rem delim b out ∧
      (Progresses R rem → (IndexByte (BufReader.unread rem b) delim).isSome →
        ∀ e, out.1 ≠ (none, some e)) := by
  unfold BufReader.ReadSlice
  rw [he]
  exact readSliceLoop_spec hS delim (b.buf.length + 1) b hb he (by omega)

/-- C9: `ReadSlice(delim)` always returns, and whenever it succeeds (it returns
no error) its result is a slice that is not nil and not empty, ends with `delim`
and holds no other `delim`, is the front of the unread byte stream (so that the
read position in the stream has moved forward by exactly the length of the
result), and is the part of the buffer that ends at the new `rpos`; when `delim`
was already buffered, `ReadSlice` does succeed, with the buffered bytes up to
and including the first `delim`, and `rpos` itself has grown by the length of
the result. -/
theorem ReadSlice_success {ρ : Type} (R : Reader ρ) (rem : ρ → List Byte)
    (hS : Streams R rem) (b : BufReader ρ) (hb : b.Ok) (delim : Byte) :
    (∃ out, b.ReadSlice R delim = some out) ∧
    (∀ osl b1, b.ReadSlice R delim = some ((osl, none), b1) →
      ∃ sl, osl = some sl ∧
        sl ≠ [] ∧ (∃ pre, sl = pre ++ [delim] ∧ IndexByte pre delim = none) ∧
        BufReader.unread rem b = sl ++ BufReader.unread rem b1 ∧
        sl.length ≤ b1.rpos ∧ sl = subslice b1.buf (b1.rpos - sl.length) b1.rpos ∧
        ((IndexByte (subslice b.buf b.rpos b.wpos) delim).isSome →
          b1.rpos = b.rpos + sl.length)) ∧
    (∀ index, b.err = none → IndexByte (subslice b.buf b.rpos b.wpos) delim = some index →
      b.ReadSlice R delim
        = some ((some (subslice b.buf b.rpos (b.rpos + index + 1)), none),
            { b with rpos := b.rpos + index + 1 })) := by
  have hbuffered : ∀ index, b.err = none →
      IndexByte (subslice b.buf b.rpos b.wpos) delim = some index →
      b.ReadSlice R delim
        = some ((some (subslice b.buf b.rpos (b.rpos + index + 1)), none),
            { b with rpos := b.rpos + index + 1 }) := by
    intro index he hidx
    unfold BufReader.ReadSlice
    rw [he]
    simp only
    unfold BufReader.readSliceLoop
    rw [hidx, he]
  refine ⟨?_, ?_, hbuffered⟩
  · cases he : b.err with
    | some e =>
      unfold BufReader.ReadSlice
      rw [he]
      exact ⟨_, rfl⟩
    | none =>
      obtain ⟨out, o1, _⟩ := ReadSlice_spec hS delim b hb he
      exact ⟨out, o1⟩
  · cases he : b.err with
    | some e =>
      unfold BufReader.ReadSlice
      rw [he]
      intro osl b1 h
      simp at h
    | none =>
      obtain ⟨out, o1, o2, _⟩ := ReadSlice_spec hS delim b hb he
      intro osl b1 h
      rw [o1] at h
      have hout := Option.some.inj h
      subst hout
      obtain ⟨_, o2⟩ := o2
      rcases o2 with ⟨sl1, p1, p2, p3, _, _, p6, p7⟩ | ⟨sl1, p1, _⟩ | ⟨e, p1, _⟩
      · simp only [Prod.mk.injEq, and_true] at p1
        subst p1
        obtain ⟨pre, q1, q2⟩ := IndexByte_last p2
        refine ⟨sl1, rfl, ?_, ⟨pre, q1, q2⟩, p3, p6, p7, ?_⟩
        · rw [q1]; simp
        · intro hsome
          cases hidx : IndexByte (subslice b.buf b.rpos b.wpos) delim with
          | none => rw [hidx] at hsome; simp at hsome
          | some index =>
            have i1 := (IndexByte_some hidx).1
            rw [subslice_length] at i1
            have hw := hb.2.1
            unfold BufReader.ReadSlice at o1
            rw [he] at o1
            simp only [BufReader.readSliceLoop, hidx, Option.some.injEq, Prod.mk.injEq] at o1
            obtain ⟨⟨o3, _⟩, o4⟩ := o1
            rw [← o3, ← o4, subslice_length]
            simp only
            omega
      · simp at p1
      · simp at p1

/-- C9, at a concrete input: a reader of capacity 4 that holds `a` unread, over a
source that holds `b`, a line feed and `c`; the delimiter is the line feed. -/
theorem ReadSlice_success_witness :
    (∃ out, BufReader.ReadSlice stringsReader
        ({ err := none, buf := [120, 120, 97, 0], rd := [98, 10, 99], rpos := 2, wpos := 3,
           slice := { buf := [] } } : BufReader (List Byte)) 10 = some out) ∧
    (∀ osl b1, BufReader.ReadSlice stringsReader
        ({ err := none, buf := [120, 120, 97, 0], rd := [98, 10, 99], rpos := 2, wpos := 3,
           slice := { buf := [] } } : BufReader (List Byte)) 10 = some ((osl, none), b1) →
      ∃ sl, osl = some sl ∧
        sl ≠ [] ∧ (∃ pre, sl = pre ++ [10] ∧ IndexByte pre 10 = none) ∧
        BufReader.unread id
          ({ err := none, buf := [120, 120, 97, 0], rd := [98, 10, 99], rpos := 2, wpos := 3,
             slice := { buf := [] } } : BufReader (List Byte)) = sl ++ BufReader.unread id b1 ∧
        sl.length ≤ b1.rpos ∧ sl = subslice b1.buf (b1.rpos - sl.length) b1.rpos ∧
        ((IndexByte (subslice [120, 120, 97, 0] 2 3) 10).isSome → b1.rpos = 2 + sl.length)) ∧
    BufReader.ReadSlice stringsReader
        ({ err := none, buf := [97, 10, 98, 0], rd := [], rpos := 0, wpos := 3,
           slice := { buf := [] } } : BufReader (List Byte)) 10
      = some ((some (subslice [97, 10, 98, 0] 0 (0 + 1 + 1)), none),
          { err := none, buf := [97, 10, 98, 0], rd := [], rpos := 0 + 1 + 1, wpos := 3,
            slice := { buf := [] } }) :=
  ⟨(ReadSlice_success stringsReader id stringsReader_streams
      { err := none, buf := [120, 120, 97, 0], rd := [98, 10, 99], rpos := 2, wpos := 3,
        slice := { buf := [] } }
      ⟨by decide, by decide, by decide⟩ 10).1,
   (ReadSlice_success stringsReader id stringsReader_streams
      { err := none, buf := [120, 120, 97, 0], rd := [98, 10, 99], rpos := 2, wpos := 3,
        slice := { buf := [] } }
      ⟨by decide, by decide, by decide⟩ 10).2.1,
   (ReadSlice_success stringsReader id stringsReader_streams
      { err := none, buf := [97, 10, 98, 0], rd := [], rpos := 0, wpos := 3,
        slice := { buf := [] } }
      ⟨by decide, by decide, by decide⟩ 10).2.2 1 rfl rfl⟩

theorem Make_length (d : sliceAlloc) (n : Nat) : (d.Make n).1.length = n := by
  unfold sliceAlloc.Make
  by_cases h0 : n = 0
  · simp [h0]
  · rw [if_neg h0]
    by_cases h1 : n ≥ 512
    · rw [if_pos h1]; simp
    · rw [if_neg h1]
      simp only [List.length_take]
      split
      · rw [List.length_replicate]; omega
      · omega

theorem gather_spec (full : List (List Byte)) (last : List Byte) :
    ∀ (buf : List Byte) (n : Nat), buf.length = n + full.flatten.length + last.length →
      gather buf n full last = buf.take n ++ full.flatten ++ last := by
  induction full with
  | nil =>
    intro buf n h
    simp only [List.flatten_nil, List.length_nil, Nat.add_zero] at h
    simp only [gather, copyAt, List.flatten_nil, List.append_nil]
    have h1 : min (buf.length - n) last.length = last.length := by omega
    rw [h1, List.take_length, List.drop_of_length_le (by omega), List.append_nil]
  | cons frag full ih =>
    intro buf n h
    simp only [List.flatten_cons, List.length_append] at h
    have hn : (copyAt buf n frag).2 = frag.length := by rw [copyAt_snd]; omega
    have hl := copyAt_length buf n frag (by omega)
    have ht := copyAt_take buf n frag (by omega)
    rw [hn, List.take_length] at ht
    simp only [gather]
    rw [hn, ih _ _ (by rw [hl]; omega), ht]
    simp only [List.flatten_cons, List.append_assoc]

theorem readBytesLoop_spec {ρ : Type} {R : Reader ρ} {rem : ρ → List Byte}
    (hS : Streams R rem) (hP : Progresses R rem) (delim : Byte) (fuel : Nat) :
    ∀ (b : BufReader ρ) (full : List (List Byte)) (size i : Nat), b.Ok → b.err = none →
      IndexByte (BufReader.unread rem b) delim = some i → i + 1 ≤ fuel →
      size = full.flatten.length →
      ∃ b1, BufReader.readBytesLoop R delim fuel b full size
          = some ((some (full.flatten ++ (BufReader.unread rem b).take (i + 1)), none), b1) ∧
        b1.Ok ∧ b1.err = none ∧ b1.buf.length = b.buf.length ∧
        BufReader.unread rem b1 = (BufReader.unread rem b).drop (i + 1) := by
  induction fuel with
  | zero => intro b full size i _ _ _ h; omega
  | succ fuel ih =>
    intro b full size i hb he hidx hf hsize
    obtain ⟨out, o1, ⟨o2, o3⟩, o4⟩ := ReadSlice_spec hS delim b hb he
    have o5 := o4 hP (by rw [hidx]; rfl)
    unfold BufReader.readBytesLoop
    rw [o1]
    rcases o3 with ⟨sl, p1, p2, p3, p4, p5, _, _⟩ | ⟨sl, p1, p2, p3, p4, p5, p6, _⟩ | ⟨e, p1, _⟩
    · rcases out with ⟨⟨f, e⟩, b1⟩
      simp only [Prod.mk.injEq] at p1
      obtain ⟨p1a, p1b⟩ := p1
      subst p1a p1b
      simp only at p3 p4 p5 o2 ⊢
      have hi : i = sl.length - 1 := by
        have := IndexByte_append_some (BufReader.unread rem b1) p2
        rw [← p3, hidx] at this
        exact Option.some.inj this
      have hpos := (IndexByte_some p2).1
      have hi1 : i + 1 = sl.length := by omega
      have hg := gather_spec full sl (b1.slice.Make (size + sl.length)).1 0
        (by rw [Make_length, hsize]; omega)
      refine ⟨{ b1 with slice := (b1.slice.Make (size + sl.length)).2 }, ?_, ?_, p5, o2, ?_⟩
      · rw [hg, List.take_zero, List.nil_append, p3, hi1, List.take_left]
      · exact p4
      · rw [p3, hi1, List.drop_left]
        rfl
    · rcases out with ⟨⟨f, e⟩, b1⟩
      simp only [Prod.mk.injEq] at p1
      obtain ⟨p1a, p1b⟩ := p1
      subst p1a p1b
      simp only at p4 p5 p6 o2 ⊢
      have hcap := hb.2.2
      have hidx2 : IndexByte (BufReader.unread rem b1) delim = some (i - sl.length) ∧
          sl.length ≤ i := by
        have := IndexByte_append_none (BufReader.unread rem b1) p3
        rw [← p4, hidx] at this
        cases hj : IndexByte (BufReader.unread rem b1) delim with
        | none => rw [hj] at this; simp at this
        | some j =>
          rw [hj] at this
          simp only [Option.map_some', Option.some.injEq] at this
          exact ⟨by congr 1; omega, by omega⟩
      have hdup : (copyAt (b1.slice.Make sl.length).1 0 sl).1 = sl :=
        copyAt_all _ _ (Make_length _ _)
      simp only [ne_eq, not_true_eq_false, if_false, Option.getD_some, hdup]
      obtain ⟨b2, q1, q2, q3, q4, q5⟩ := ih
        { b1 with slice := (b1.slice.Make sl.length).2 } (full ++ [sl]) (size + sl.length)
        (i - sl.length) p5 p6 hidx2.1 (by omega) (by simp [hsize])
      refine ⟨b2, ?_, q2, q3, by rw [q4]; exact o2, ?_⟩
      · rw [q1]
        have e1 : BufReader.unread rem { b1 with slice := (b1.slice.Make sl.length).2 }
            = BufReader.unread rem b1 := rfl
        rw [e1, p4]
        have e2 : i + 1 = sl.length + (i - sl.length + 1) := by omega
        rw [e2, List.take_append]
        simp only [List.flatten_append, List.flatten_cons, List.flatten_nil, List.append_nil,
          List.append_assoc]
      · rw [q5]
        have e1 : BufReader.unread rem { b1 with slice := (b1.slice.Make sl.length).2 }
            = BufReader.unread rem b1 := rfl
        rw [e1, p4]
        have e2 : i + 1 = sl.length + (i - sl.length + 1) := by omega
        rw [e2, List.drop_append]
    · exact absurd p1 (o5 e)

theorem ReadBytes_record {ρ : Type} {R : Reader ρ} {rem : ρ → List Byte}
    (hS : Streams R rem) (hP : Progresses R rem) (delim : Byte) (fuel : Nat)
    (b : BufReader ρ) (hb : b.Ok) (he : b.err = none) (record rest : List Byte)
    (hrec : IndexByte record delim = some (record.length - 1)) (hf : record.length ≤ fuel)
    (hu : BufReader.unread rem b = record ++ rest) :
    ∃ b1, b.ReadBytes R fuel delim = some ((some record, none), b1) ∧ b1.Ok ∧ b1.err = none ∧
      BufReader.unread rem b1 = rest := by
  have hpos := (IndexByte_some hrec).1
  have hidx : IndexByte (BufReader.unread rem b) delim = some (record.length - 1) := by
    rw [hu]; exact IndexByte_append_some rest hrec
  obtain ⟨b1, q1, q2, q3, _, q5⟩ := readBytesLoop_spec hS hP delim fuel b [] 0
    (record.length - 1) hb he hidx (by omega) rfl
  have e1 : record.length - 1 + 1 = record.length := by omega
  rw [e1, hu, List.take_left] at q1
  rw [e1, hu, List.drop_left] at q5
  exact ⟨b1, q1, q2, q3, q5⟩

/-- For every capacity of at least one and every delimiter, over a source that
hands out at least one byte and no error at each read while its stream lasts,
when the unread stream starts with
records that each end with their only delimiter, successive `ReadBytes(delim)`
calls all return, succeed, and return these records one after the other, each
one being the unread stream up to and including the first delimiter, whatever
its length is compared with the capacity; what follows the records is left
unread, so that the results concatenate to the stream that has been read. -/
theorem ReadBytes_returns_records {ρ : Type} (R : Reader ρ) (rem : ρ → List Byte)
    (hS : Streams R rem) (hP : Progresses R rem) (delim : Byte) (fuel : Nat)
    (records : List (List Byte)) (rest : List Byte)
    (hrec : ∀ r ∈ records, IndexByte r delim = some (r.length - 1) ∧ r.length ≤ fuel) :
    ∀ (b : BufReader ρ), 1 ≤ b.buf.length → b.rpos ≤ b.wpos → b.wpos ≤ b.buf.length →
      b.err = none → BufReader.unread rem b = records.flatten ++ rest →
      ∃ b1, BufReader.readBytesTimes R fuel delim records.length b = some (records, b1) ∧
        BufReader.unread rem b1 = rest := by
  induction records with
  | nil =>
    intro b _ _ _ _ hu
    exact ⟨b, rfl, hu⟩
  | cons r rs ih =>
    intro b h1 h2 h3 he hu
    rw [List.flatten_cons, List.append_assoc] at hu
    obtain ⟨hr1, hr2⟩ := hrec r (List.mem_cons_self _ _)
    obtain ⟨b1, q1, q2, q3, q4⟩ :=
      ReadBytes_record hS hP delim fuel b ⟨h2, h3, h1⟩ he r (rs.flatten ++ rest) hr1 hr2 hu
    obtain ⟨b2, i1, i2⟩ := ih (fun x hx => hrec x (List.mem_cons_of_mem _ hx)) b1 q2.2.2
      q2.1 q2.2.1 q3 q4
    refine ⟨b2, ?_, i2⟩
    simp only [List.length_cons, BufReader.readBytesTimes, q1, i1, Option.map_some']

/-- At a concrete input: a fresh reader of capacity 2 over a source that holds
`hello wo rld`, hands it out one byte at a time and reports `io.EOF` after the
last byte only; the delimiter is the space, and the first record is three times
as long as the buffer. -/
theorem ReadBytes_returns_records_witness :
    ∃ b1, BufReader.readBytesTimes (fragmentReader 1) 6 32
        [[104, 101, 108, 108, 111, 32], [119, 111, 32]].length
        ({ err := none, buf := [0, 0],
           rd := [[104, 101, 108, 108, 111, 32], [119, 111, 32]].flatten ++ [114, 108, 100],
           rpos := 0, wpos := 0, slice := { buf := [] } } : BufReader (List Byte))
        = some ([[104, 101, 108, 108, 111, 32], [119, 111, 32]], b1) ∧
      BufReader.unread id b1 = [114, 108, 100] :=
  ReadBytes_returns_records (fragmentReader 1) id (fragmentReader_streams 1)
    (fragmentReader_progresses 1 (by decide)) 32 6
    [[104, 101, 108, 108, 111, 32], [119, 111, 32]] [114, 108, 100]
    (by decide)
    { err := none, buf := [0, 0],
      rd := [[104, 101, 108, 108, 111, 32], [119, 111, 32]].flatten ++ [114, 108, 100],
      rpos := 0, wpos := 0, slice := { buf := [] } }
    (by decide) (by decide) (by decide) rfl rfl

end protocol

namespace protocol

theorem take_buffered {ρ : Type} (rem : ρ → List Byte) (b : BufReader ρ) (hb : b.Ok)
    (k : Nat) :
    BufReader.unread rem b = (subslice b.buf b.rpos b.wpos).take k ++
      BufReader.unread rem
        { b with rpos := b.rpos + min k (subslice b.buf b.rpos b.wpos).length } ∧
    BufReader.Ok { b with rpos := b.rpos + min k (subslice b.buf b.rpos b.wpos).length } ∧
    ((subslice b.buf b.rpos b.wpos).take k).length = min k (b.wpos - b.rpos) := by
  obtain ⟨h1, h2, h3⟩ := hb
  have hlen : (subslice b.buf b.rpos b.wpos).length = b.wpos - b.rpos := by
    rw [subslice_length]; omega
  have hm : b.rpos + min k (b.wpos - b.rpos) ≤ b.wpos := by omega
  have hsp := subslice_split b.buf b.rpos (b.rpos + min k (b.wpos - b.rpos)) b.wpos
    (by omega) hm
  have htk := subslice_take b.buf b.rpos (b.rpos + min k (b.wpos - b.rpos)) b.wpos
    (by omega) hm h2
  have e1 : b.rpos + min k (b.wpos - b.rpos) - b.rpos = min k (b.wpos - b.rpos) := by omega
  rw [e1] at htk
  have htk2 : (subslice b.buf b.rpos b.wpos).take k
      = subslice b.buf b.rpos (b.rpos + min k (b.wpos - b.rpos)) := by
    rw [← htk]
    by_cases hk : k ≤ b.wpos - b.rpos
    · rw [Nat.min_eq_left hk]
    · rw [Nat.min_eq_right (by omega), List.take_of_length_le (by omega),
        List.take_of_length_le (by omega)]
  refine ⟨?_, ⟨?_, h2, h3⟩, ?_⟩
  · unfold BufReader.unread
    simp only [hlen]
    rw [htk2, ← List.append_assoc, ← hsp]
  · simp only [hlen]; exact hm
  · rw [List.length_take, hlen]

theorem Read_spec {ρ : Type} {R : Reader ρ} {rem : ρ → List Byte} (hS : Streams R rem)
    (b : BufReader ρ) (hb : b.Ok) (he : b.err = none) (k : Nat) (hk : 0 < k) :
    (b.Read R k).1.1.length ≤ k ∧
    (∃ tail, BufReader.unread rem b = (b.Read R k).1.1 ++ tail ∧
      ((b.Read R k).1.2 = none →
        tail = BufReader.unread rem (b.Read R k).2 ∧ (b.Read R k).2.Ok ∧
          (b.Read R k).2.err = none)) ∧
    (∀ x, (b.Read R k).1.2 = some x →
      x = Error.ErrNoProgress ∨ ∃ s j, (R.Read s j).2.2 = some x) ∧
    (NeverStalls R → (b.Read R k).1.2 = none → (b.Read R k).1.1 ≠ []) := by
  have hcond : ¬ (b.err ≠ none ∨ k = 0) := by rw [he]; simp; omega
  unfold BufReader.Read
  rw [if_neg hcond]
  by_cases hbuf : b.buffered = 0
  · rw [if_pos hbuf]
    have hnil : subslice b.buf b.rpos b.wpos = [] := by
      apply List.eq_nil_of_length_eq_zero
      rw [subslice_length]; unfold BufReader.buffered at hbuf; omega
    by_cases hbig : k ≥ b.buf.length
    · rw [if_pos hbig]
      have s1 := (hS b.rd k).1
      have s2 := (hS b.rd k).2
      rcases hrd : R.Read b.rd k with ⟨s, data, e⟩
      rw [hrd] at s1 s2
      simp only at s1 s2
      cases e with
      | some x =>
        refine ⟨s1, ⟨rem s, ?_, ?_⟩, ?_, ?_⟩
        · unfold BufReader.unread; rw [hnil, List.nil_append]; exact s2
        · intro h; simp at h
        · intro y hy
          simp only [Option.some.injEq] at hy
          subst hy
          exact Or.inr ⟨b.rd, k, by rw [hrd]⟩
        · intro _ h; simp at h
      | none =>
        refine ⟨s1, ⟨rem s, ?_, ?_⟩, ?_, ?_⟩
        · unfold BufReader.unread; rw [hnil, List.nil_append]; exact s2
        · intro _
          refine ⟨?_, hb, he⟩
          unfold BufReader.unread
          simp only [hnil, List.nil_append]
        · intro y hy; simp at hy
        · intro hN _ h0
          have := hN b.rd k hk
          rw [hrd] at this
          exact this h0 rfl
    · rw [if_neg hbig]
      obtain ⟨_, f2, f3, _⟩ := fill_spec hS b hb he
      have hu := fill_unread hS b hb he
      rcases hfl : b.fill R with ⟨e1, b1⟩
      rw [hfl] at f2 f3 hu
      simp only at f2 f3 hu
      cases e1 with
      | some x =>
        obtain ⟨g1, g2⟩ := f3 x rfl
        simp only [g1]
        refine ⟨Nat.zero_le _, ⟨_, (List.nil_append _).symm, ?_⟩, ?_, ?_⟩
        · intro h; simp at h
        · intro y hy
          simp only [Option.some.injEq] at hy
          subst hy
          exact g2
        · intro _ h; simp at h
      | none =>
        obtain ⟨g1, g2, g3, g4, _⟩ := f2 rfl
        obtain ⟨t1, t2, t3⟩ := take_buffered rem b1 g1 k
        simp only
        refine ⟨?_, ⟨BufReader.unread rem
          { b1 with rpos := b1.rpos + min k (subslice b1.buf b1.rpos b1.wpos).length },
          ?_, ?_⟩, ?_, ?_⟩
        · rw [t3]; omega
        · rw [← hu rfl]; exact t1
        · intro _; exact ⟨rfl, t2, g2⟩
        · intro y hy; simp at hy
        · intro _ _ h0
          have := congrArg List.length h0
          rw [t3] at this
          unfold BufReader.buffered at g4
          simp at this
          omega
  · rw [if_neg hbuf]
    obtain ⟨t1, t2, t3⟩ := take_buffered rem b hb k
    refine ⟨?_, ⟨BufReader.unread rem
      { b with rpos := b.rpos + min k (subslice b.buf b.rpos b.wpos).length }, t1, ?_⟩, ?_, ?_⟩
    · rw [t3]; omega
    · intro _; exact ⟨rfl, t2, he⟩
    · intro y hy; simp at hy
    · intro _ _ h0
      have := congrArg List.length h0
      rw [t3] at this
      unfold BufReader.buffered at hbuf
      simp at this
      omega

theorem readAtLeast_step {ρ : Type} {R : Reader ρ} {rem : ρ → List Byte} (hS : Streams R rem)
    (u : List Byte) (N : Nat) (b : BufReader ρ) (buf : List Byte) (n : Nat)
    (hI : ReadAtLeastInv R rem u N b buf n none) (hn : n < buf.length) :
    ReadAtLeastInv R rem u N (b.Read R (buf.length - n)).2
      (copyAt buf n (b.Read R (buf.length - n)).1.1).1
      (n + (b.Read R (buf.length - n)).1.1.length) (b.Read R (buf.length - n)).1.2 ∧
    (NeverStalls R → (b.Read R (buf.length - n)).1.2 = none →
      0 < (b.Read R (buf.length - n)).1.1.length) := by
  obtain ⟨i1, i2, i3, i4, i5, _⟩ := hI
  obtain ⟨hb, he, hu⟩ := i5 rfl
  obtain ⟨r1, ⟨tail, r2, r3⟩, r4, r5⟩ := Read_spec hS b hb he (buf.length - n) (by omega)
  rcases hrd : b.Read R (buf.length - n) with ⟨⟨data, e⟩, b1⟩
  rw [hrd] at r1 r2 r3 r4 r5
  simp only at r1 r2 r3 r4 r5 ⊢
  have hc2 : (copyAt buf n data).2 = data.length := by rw [copyAt_snd]; omega
  have hl := copyAt_length buf n data (by omega)
  have ht := copyAt_take buf n data (by omega)
  rw [hc2, List.take_length, i3] at ht
  have hdrop : u.drop n = data ++ tail := by rw [← hu]; exact r2
  have hsplit : u = u.take n ++ (data ++ tail) := by
    rw [← hdrop, List.take_append_drop]
  have hlen_take : (u.take n).length = n := by rw [List.length_take]; omega
  refine ⟨⟨by rw [hl, i1], by omega, ?_, ?_, ?_, r4⟩, ?_⟩
  · rw [ht]
    conv_rhs => rw [hsplit, ← List.append_assoc]
    have : n + data.length = (u.take n ++ data).length := by
      rw [List.length_append, hlen_take]
    rw [this, List.take_left]
  · have := congrArg List.length hsplit
    rw [List.length_append, List.length_append, hlen_take] at this
    omega
  · intro h
    obtain ⟨q1, q2, q3⟩ := r3 h
    refine ⟨q2, q3, ?_⟩
    rw [← q1]
    conv_rhs => rw [hsplit, ← List.append_assoc]
    have : n + data.length = (u.take n ++ data).length := by
      rw [List.length_append, hlen_take]
    rw [this, List.drop_left]
  · intro hN h
    have := r5 hN h
    cases data with
    | nil => exact absurd rfl this
    | cons x xs => simp

theorem readAtLeastLoop_spec {ρ : Type} {R : Reader ρ} {rem : ρ → List Byte}
    (hS : Streams R rem) (u : List Byte) (N : Nat) (fuel : Nat) :
    ∀ (b : BufReader ρ) (buf : List Byte) (n : Nat) (err : Option Error),
      ReadAtLeastInv R rem u N b buf n err →
      (∀ out, readAtLeastLoop R fuel b buf n err = some out →
        ReadAtLeastInv R rem u N out.2 out.1.1 out.1.2.1 out.1.2.2 ∧
          ¬ (out.1.2.1 < N ∧ out.1.2.2 = none)) ∧
      (NeverStalls R → (if err = none then N - n + 1 else 1) ≤ fuel →
        ∃ out, readAtLeastLoop R fuel b buf n err = some out) := by
  induction fuel with
  | zero =>
    intro b buf n err _
    refine ⟨?_, ?_⟩
    · intro out h; simp [readAtLeastLoop] at h
    · intro _ h; split at h <;> omega
  | succ fuel ih =>
    intro b buf n err hI
    unfold readAtLeastLoop
    by_cases hc : n < buf.length ∧ err = none
    · rw [if_pos hc]
      obtain ⟨hn, herr⟩ := hc
      subst herr
      obtain ⟨s1, s2⟩ := readAtLeast_step hS u N b buf n hI hn
      obtain ⟨j1, j2⟩ := ih _ _ _ _ s1
      refine ⟨j1, ?_⟩
      intro hN hf
      apply j2 hN
      rw [if_pos rfl] at hf
      have hlenN := hI.1
      cases he : (b.Read R (buf.length - n)).1.2 with
      | none =>
        have := s2 hN he
        rw [if_pos rfl]
        omega
      | some x =>
        rw [if_neg (by simp)]
        omega
    · rw [if_neg hc]
      refine ⟨?_, fun _ _ => ⟨_, rfl⟩⟩
      intro out h
      have := Option.some.inj h
      subst this
      refine ⟨hI, ?_⟩
      rw [← hI.1]
      exact hc

theorem compact_rd {ρ : Type} (b : BufReader ρ) :
    b.compact.rd = b.rd ∧ b.compact.err = b.err := by
  unfold BufReader.compact
  by_cases hr : b.rpos > 0
  · rw [if_pos hr]; exact ⟨rfl, rfl⟩
  · rw [if_neg hr]; exact ⟨rfl, rfl⟩

theorem Reaches_trans {ρ : Type} {R : Reader ρ} {a s t : ρ} (h1 : Reaches R a s)
    (h2 : Reaches R s t) : Reaches R a t := by
  induction h2 with
  | refl => exact h1
  | step s1 k _ hk ih => exact Reaches.step a s1 k ih hk

theorem FailedBy_of_reaches {ρ : Type} {R : Reader ρ} {a s0 : ρ} {b1 : BufReader ρ}
    {x : Error} (h1 : Reaches R a s0) (h2 : FailedBy R s0 b1 x) : FailedBy R a b1 x := by
  obtain ⟨f1, s, k, f2, f3, f4⟩ := h2
  exact ⟨f1, s, k, Reaches_trans h1 f2, f3, f4⟩

theorem fill_reach {ρ : Type} (R : Reader ρ) (b : BufReader ρ) (he : b.err = none) :
    ((b.fill R).1 = none → (b.fill R).2.err = none ∧ Reaches R b.rd (b.fill R).2.rd) ∧
    (∀ x, (b.fill R).1 = some x → FailedBy R b.rd (b.fill R).2 x) := by
  obtain ⟨c1, c2⟩ := compact_rd b
  unfold BufReader.fill
  rw [he]
  simp only
  rw [c1]
  rcases hrd : R.Read b.rd (b.compact.buf.length - b.compact.wpos) with ⟨s, data, e⟩
  cases e with
  | some e1 =>
    dsimp only
    refine ⟨(fun h => by cases h), ?_⟩
    intro x hx
    have hx1 : e1 = x := Option.some.inj hx
    subst hx1
    exact ⟨rfl, b.rd, b.compact.buf.length - b.compact.wpos, Reaches.refl _,
      by rw [hrd], Or.inl (by rw [hrd])⟩
  | none =>
    dsimp only
    by_cases h0 : data.length = 0
    · rw [if_pos h0]
      refine ⟨(fun h => by cases h), ?_⟩
      intro x hx
      have hx1 : Error.ErrNoProgress = x := Option.some.inj hx
      subst hx1
      have hd : data = [] := List.eq_nil_of_length_eq_zero h0
      subst hd
      exact ⟨rfl, b.rd, b.compact.buf.length - b.compact.wpos, Reaches.refl _,
        by rw [hrd], Or.inr ⟨by rw [hrd], rfl⟩⟩
    · rw [if_neg h0]
      refine ⟨fun _ => ⟨by simp only; rw [c2, he], ?_⟩, fun x hx => by cases hx⟩
      have hstep := Reaches.step b.rd b.rd (b.compact.buf.length - b.compact.wpos)
        (Reaches.refl _) (by rw [hrd])
      rw [hrd] at hstep
      exact hstep

theorem Read_reach {ρ : Type} (R : Reader ρ) (b : BufReader ρ) (he : b.err = none)
    (k : Nat) (hk : 0 < k) :
    ((b.Read R k).1.2 = none → (b.Read R k).2.err = none ∧ Reaches R b.rd (b.Read R k).2.rd) ∧
    (∀ x, (b.Read R k).1.2 = some x → FailedBy R b.rd (b.Read R k).2 x) := by
  have hcond : ¬ (b.err ≠ none ∨ k = 0) := by rw [he]; simp; omega
  unfold BufReader.Read
  rw [if_neg hcond]
  by_cases hbuf : b.buffered = 0
  · rw [if_pos hbuf]
    by_cases hbig : k ≥ b.buf.length
    · rw [if_pos hbig]
      rcases hrd : R.Read b.rd k with ⟨s, data, e⟩
      cases e with
      | some e1 =>
        dsimp only
        refine ⟨(fun h => by cases h), ?_⟩
        intro x hx
        have hx1 : e1 = x := Option.some.inj hx
        subst hx1
        exact ⟨rfl, b.rd, k, Reaches.refl _, by rw [hrd], Or.inl (by rw [hrd])⟩
      | none =>
        dsimp only
        refine ⟨fun _ => ⟨he, ?_⟩, fun x hx => by cases hx⟩
        have hstep := Reaches.step b.rd b.rd k (Reaches.refl _) (by rw [hrd])
        rw [hrd] at hstep
        exact hstep
    · rw [if_neg hbig]
      obtain ⟨f1, f2⟩ := fill_reach R b he
      rcases hfl : b.fill R with ⟨e1, b1⟩
      rw [hfl] at f1 f2
      simp only at f1 f2
      cases e1 with
      | some e2 =>
        dsimp only
        have hf := f2 e2 rfl
        refine ⟨fun h => ?_, fun x hx => ?_⟩
        · rw [hf.1] at h; cases h
        · rw [hf.1] at hx
          have hx1 : e2 = x := Option.some.inj hx
          subst hx1
          exact hf
      | none =>
        dsimp only
        exact ⟨fun _ => f1 rfl, fun x hx => by cases hx⟩
  · rw [if_neg hbuf]
    exact ⟨fun _ => ⟨he, Reaches.refl _⟩, fun x hx => by cases hx⟩

theorem readAtLeastLoop_reach {ρ : Type} (R : Reader ρ) (s0 : ρ) (fuel : Nat) :
    ∀ (b : BufReader ρ) (buf : List Byte) (n : Nat) (err : Option Error),
      (err = none → b.err = none ∧ Reaches R s0 b.rd) →
      (∀ x, err = some x → FailedBy R s0 b x) →
      ∀ out, readAtLeastLoop R fuel b buf n err = some out →
        (out.1.2.2 = none → out.2.err = none ∧ Reaches R s0 out.2.rd) ∧
        (∀ x, out.1.2.2 = some x → FailedBy R s0 out.2 x) := by
  induction fuel with
  | zero =>
    intro b buf n err _ _ out h
    simp [readAtLeastLoop] at h
  | succ fuel ih =>
    intro b buf n err h1 h2 out h
    unfold readAtLeastLoop at h
    by_cases hc : n < buf.length ∧ err = none
    · rw [if_pos hc] at h
      obtain ⟨hn, herr⟩ := hc
      obtain ⟨g1, g2⟩ := h1 herr
      obtain ⟨r1, r2⟩ := Read_reach R b g1 (buf.length - n) (by omega)
      rcases hrd : b.Read R (buf.length - n) with ⟨⟨data, e⟩, b1⟩
      rw [hrd] at r1 r2 h
      simp only at r1 r2 h
      refine ih b1 _ _ e ?_ ?_ out h
      · intro he0
        obtain ⟨q1, q2⟩ := r1 he0
        exact ⟨q1, Reaches_trans g2 q2⟩
      · intro x hx
        exact FailedBy_of_reaches g2 (r2 x hx)
    · rw [if_neg hc] at h
      have := Option.some.inj h
      subst this
      exact ⟨h1, h2⟩

theorem Read_progress {ρ : Type} {R : Reader ρ} {rem : ρ → List Byte} (hS : Streams R rem)
    (hP : Progresses R rem) (b : BufReader ρ) (hb : b.Ok) (he : b.err = none) (k : Nat)
    (hk : 0 < k) (hu : BufReader.unread rem b ≠ []) :
    (b.Read R k).1.2 = none ∧ (b.Read R k).1.1 ≠ [] := by
  have hcond : ¬ (b.err ≠ none ∨ k = 0) := by rw [he]; simp; omega
  have hlen : (subslice b.buf b.rpos b.wpos).length = b.wpos - b.rpos := by
    rw [subslice_length]; have := hb.2.1; omega
  unfold BufReader.Read
  rw [if_neg hcond]
  by_cases hbuf : b.buffered = 0
  · rw [if_pos hbuf]
    have hnil : subslice b.buf b.rpos b.wpos = [] := by
      apply List.eq_nil_of_length_eq_zero
      rw [hlen]; unfold BufReader.buffered at hbuf; omega
    have hrem : rem b.rd ≠ [] := by
      unfold BufReader.unread at hu
      rw [hnil, List.nil_append] at hu
      exact hu
    by_cases hbig : k ≥ b.buf.length
    · rw [if_pos hbig]
      obtain ⟨p1, p2⟩ := hP b.rd k hk hrem
      rcases hrd : R.Read b.rd k with ⟨s, data, e⟩
      rw [hrd] at p1 p2
      simp only at p1 p2
      subst p1
      exact ⟨rfl, p2⟩
    · rw [if_neg hbig]
      obtain ⟨_, f2, _, f4⟩ := fill_spec hS b hb he
      have hlt : b.buffered < b.buf.length := by
        have := hb.2.2
        omega
      have hok := f4 hP hrem hlt
      rcases hfl : b.fill R with ⟨e1, b1⟩
      rw [hfl] at f2 hok
      simp only at f2 hok
      subst hok
      obtain ⟨g1, _, _, g4, _⟩ := f2 rfl
      dsimp only
      refine ⟨rfl, ?_⟩
      intro h0
      have := congrArg List.length h0
      rw [List.length_take, subslice_length] at this
      have := g1.2.1
      unfold BufReader.buffered at g4
      simp only [List.length_nil] at *
      omega
  · rw [if_neg hbuf]
    refine ⟨rfl, ?_⟩
    intro h0
    have := congrArg List.length h0
    rw [List.length_take, hlen] at this
    unfold BufReader.buffered at hbuf
    simp only [List.length_nil] at this
    omega

theorem readAtLeastLoop_progress {ρ : Type} {R : Reader ρ} {rem : ρ → List Byte}
    (hS : Streams R rem) (hP : Progresses R rem) (u : List Byte) (N : Nat)
    (hN : N ≤ u.length) (fuel : Nat) :
    ∀ (b : BufReader ρ) (buf : List Byte) (n : Nat),
      ReadAtLeastInv R rem u N b buf n none → N - n + 1 ≤ fuel →
      ∃ out, readAtLeastLoop R fuel b buf n none = some out ∧ out.1.2.2 = none := by
  induction fuel with
  | zero => intro b buf n _ h; omega
  | succ fuel ih =>
    intro b buf n hI hf
    unfold readAtLeastLoop
    by_cases hc : n < buf.length ∧ (none : Option Error) = none
    · rw [if_pos hc]
      obtain ⟨hn, _⟩ := hc
      obtain ⟨s1, _⟩ := readAtLeast_step hS u N b buf n hI hn
      obtain ⟨i1, _, _, _, i5, _⟩ := hI
      obtain ⟨hb, he, hu⟩ := i5 rfl
      have hune : BufReader.unread rem b ≠ [] := by
        rw [hu]
        intro h0
        have := congrArg List.length h0
        rw [List.length_drop] at this
        simp only [List.length_nil] at this
        omega
      obtain ⟨p1, p2⟩ := Read_progress hS hP b hb he (buf.length - n) (by omega) hune
      rcases hrd : b.Read R (buf.length - n) with ⟨⟨data, e⟩, b1⟩
      rw [hrd] at s1 p1 p2
      simp only at s1 p1 p2 ⊢
      subst p1
      have hpos : 0 < data.length := by
        cases data with
        | nil => exact absurd rfl p2
        | cons x xs => simp
      exact ih b1 _ _ s1 (by omega)
    · rw [if_neg hc]
      exact ⟨_, rfl, rfl⟩

theorem stalledReader_spins (b : BufReader Unit) (buf : List Byte) (he : b.err = none)
    (hbuf : b.buffered = 0) (hcap : b.buf.length ≤ buf.length) (h0 : 0 < buf.length)
    (fuel : Nat) : readAtLeastLoop stalledReader fuel b buf 0 none = none := by
  induction fuel with
  | zero => rfl
  | succ fuel ih =>
    unfold readAtLeastLoop
    have hc : 0 < buf.length ∧ (none : Option Error) = none := ⟨h0, rfl⟩
    rw [if_pos hc]
    have hcond : ¬ (b.err ≠ none ∨ buf.length - 0 = 0) := by
      intro h
      rcases h with h | h
      · exact h he
      · omega
    have hbig : buf.length - 0 ≥ b.buf.length := by omega
    have hrd : b.Read stalledReader (buf.length - 0) = (([], none), b) := by
      unfold BufReader.Read
      rw [if_neg hcond, if_pos hbuf, if_pos hbig]
      rfl
    rw [hrd]
    simp only
    have hcp : (copyAt buf 0 []).1 = buf := by simp [copyAt]
    rw [hcp]
    exact ih

/-- C8, the claim as stated fails, in three ways.  On a reader of capacity 2
over a `strings.Reader` that holds the three bytes `abc`, `ReadFull(5)` fails
with `io.ErrUnexpectedEOF`, an error that the source never reports (the only
error of a `strings.Reader` is `io.EOF`).  Over a source that never delivers a
byte and never reports an error, `ReadFull(1)` on a reader of capacity 2, which
refills, fails with `io.ErrNoProgress`, and `ReadFull(1)` on a reader of
capacity 1, which reads the source directly, does not return, whatever the
fuel. -/
theorem ReadFull_error_not_from_source :
    ((BufReader.ReadFull stringsReader 3
        ({ err := none, buf := [0, 0], rd := [97, 98, 99], rpos := 0, wpos := 0,
           slice := { buf := [] } } : BufReader (List Byte)) 5).map (fun out => out.1)
      = some (none, some Error.ErrUnexpectedEOF) ∧
    ¬ ∃ s k, (stringsReader.Read s k).2.2 = some Error.ErrUnexpectedEOF) ∧
    ((BufReader.ReadFull stalledReader 2
        ({ err := none, buf := [0, 0], rd := (), rpos := 0, wpos := 0,
           slice := { buf := [] } } : BufReader Unit) 1).map (fun out => out.1)
      = some (none, some Error.ErrNoProgress) ∧
    ∀ s k, (stalledReader.Read s k).2.2 = none) ∧
    (∀ fuel, BufReader.ReadFull stalledReader fuel
        ({ err := none, buf := [0], rd := (), rpos := 0, wpos := 0,
           slice := { buf := [] } } : BufReader Unit) 1 = none) := by
  refine ⟨⟨by decide, ?_⟩, ⟨by decide, fun _ _ => rfl⟩, ?_⟩
  · rintro ⟨s, k, h⟩
    unfold stringsReader at h
    by_cases hs : s.length = 0
    · simp [hs] at h
    · simp [hs] at h
  · intro fuel
    have hml := Make_length ({ buf := [] } : sliceAlloc) 1
    have hspin := stalledReader_spins
      ({ err := none, buf := [0], rd := (), rpos := 0, wpos := 0,
         slice := (({ buf := [] } : sliceAlloc).Make 1).2 } : BufReader Unit)
      (({ buf := [] } : sliceAlloc).Make 1).1 rfl rfl (by rw [hml]; decide)
      (by rw [hml]; decide) fuel
    unfold BufReader.ReadFull ioReadFull
    have hcond : ¬ ((none : Option Error) ≠ none ∨ 1 = 0) := by simp
    simp only [if_neg hcond]
    rw [hspin]

/-- C8, amended: for every `n > 0` and every usable reader with no recorded
error, over a source that hands out its stream front-first, `ReadFull(n)`, when
it returns, either returns a slice of exactly `n` bytes equal to the next `n`
unread bytes of the stream, or fails after having read fewer than `n` bytes, the
reader having recorded an error `x` in the course of this call: the last read
on the source (issued in a state that the reads of this call have reached from
the state at the call) has reported `x`, or it has delivered no byte and no
error and `x` is `io.ErrNoProgress`; the error returned is `x`, or
`io.ErrUnexpectedEOF` when `x` is `io.EOF` and at least one byte had been read.
With `n + 1` units of fuel `ReadFull(n)` does return when the source never
delivers zero bytes without an error, and it returns the `n` bytes when the
source delivers its stream without an error and at least `n` bytes are
unread. -/
theorem ReadFull_result {ρ : Type} (R : Reader ρ) (rem : ρ → List Byte) (hS : Streams R rem)
    (b : BufReader ρ) (hb : b.Ok) (he : b.err = none) (n : Nat) (hn : 0 < n) (fuel : Nat) :
    (∀ out, b.ReadFull R fuel n = some out →
      (∃ sl, out.1 = (some sl, none) ∧ sl.length = n ∧
        sl = (BufReader.unread rem b).take n) ∨
      (∃ e x n1, out.1 = (none, some e) ∧ FailedBy R b.rd out.2 x ∧
        n1 < n ∧ n1 ≤ (BufReader.unread rem b).length ∧
        (0 < n1 ∧ x = Error.EOF → e = Error.ErrUnexpectedEOF) ∧
        (¬ (0 < n1 ∧ x = Error.EOF) → e = x))) ∧
    (NeverStalls R → n + 1 ≤ fuel → ∃ out, b.ReadFull R fuel n = some out) ∧
    (Progresses R rem → n ≤ (BufReader.unread rem b).length → n + 1 ≤ fuel →
      ∃ b1, b.ReadFull R fuel n
        = some ((some ((BufReader.unread rem b).take n), none), b1)) := by
  have hcond : ¬ (b.err ≠ none ∨ n = 0) := by rw [he]; simp; omega
  have hml := Make_length b.slice n
  have hI : ReadAtLeastInv R rem (BufReader.unread rem b) n
      { b with slice := (b.slice.Make n).2 } (b.slice.Make n).1 0 none :=
    ⟨hml, Nat.zero_le _, rfl, Nat.zero_le _, fun _ => ⟨hb, he, rfl⟩, fun x h => by simp at h⟩
  obtain ⟨k1, k2⟩ := readAtLeastLoop_spec hS (BufReader.unread rem b) n fuel _ _ _ _ hI
  have kr := readAtLeastLoop_reach R b.rd fuel { b with slice := (b.slice.Make n).2 }
    (b.slice.Make n).1 0 none (fun _ => ⟨he, Reaches.refl _⟩) (fun x h => by cases h)
  unfold BufReader.ReadFull ioReadFull
  rw [if_neg hcond]
  refine ⟨?_, ?_, ?_⟩
  · intro out hout
    cases hloop : readAtLeastLoop R fuel { b with slice := (b.slice.Make n).2 }
        (b.slice.Make n).1 0 none with
    | none => rw [hloop] at hout; simp at hout
    | some o =>
      rcases o with ⟨⟨buf1, n1, err1⟩, b1⟩
      obtain ⟨⟨i1, i2, i3, i4, _, _⟩, hexit⟩ := k1 _ hloop
      obtain ⟨_, kr2⟩ := kr _ hloop
      simp only at i1 i2 i3 i4 hexit kr2
      rw [hloop] at hout
      simp only [hml] at hout
      by_cases hge : n1 ≥ n
      · rw [if_pos hge] at hout
        have := Option.some.inj hout
        subst this
        have hn1 : n1 = n := by omega
        subst hn1
        refine Or.inl ⟨buf1, rfl, i1, ?_⟩
        rw [← i3, ← i1, List.take_length]
      · rw [if_neg hge] at hout
        have herr : err1 ≠ none := by
          intro h0; exact hexit ⟨by omega, h0⟩
        cases err1 with
        | none => exact absurd rfl herr
        | some x =>
          have hfail := kr2 x rfl
          by_cases hx : n1 > 0 ∧ some x = some Error.EOF
          · rw [if_pos hx] at hout
            have := Option.some.inj hout
            subst this
            have hxe : x = Error.EOF := Option.some.inj hx.2
            refine Or.inr ⟨_, x, n1, rfl, hfail, by omega, i4, fun _ => rfl, ?_⟩
            intro hne
            exact absurd ⟨hx.1, hxe⟩ hne
          · rw [if_neg hx] at hout
            have := Option.some.inj hout
            subst this
            refine Or.inr ⟨x, x, n1, rfl, hfail, by omega, i4, ?_, fun _ => rfl⟩
            intro hpos
            exact absurd ⟨hpos.1, by rw [hpos.2]⟩ hx
  · intro hN hf
    obtain ⟨o, ho⟩ := k2 hN (by rw [if_pos rfl]; omega)
    rcases o with ⟨⟨buf1, n1, err1⟩, b1⟩
    rw [ho]
    simp only
    by_cases hge : n1 ≥ (b.slice.Make n).1.length
    · rw [if_pos hge]; exact ⟨_, rfl⟩
    · rw [if_neg hge]
      by_cases hx : n1 > 0 ∧ err1 = some Error.EOF
      · rw [if_pos hx]; exact ⟨_, rfl⟩
      · rw [if_neg hx]
        cases err1 with
        | none => exact ⟨_, rfl⟩
        | some x => exact ⟨_, rfl⟩
  · intro hP hlen hf
    obtain ⟨o, ho, herr⟩ := readAtLeastLoop_progress hS hP (BufReader.unread rem b) n hlen
      fuel _ _ _ hI (by omega)
    rcases o with ⟨⟨buf1, n1, err1⟩, b1⟩
    obtain ⟨⟨i1, i2, i3, _, _, _⟩, hexit⟩ := k1 _ ho
    simp only at i1 i2 i3 hexit herr
    subst herr
    have hn1 : n1 = n := by
      by_contra hne
      exact hexit ⟨by omega, rfl⟩
    subst hn1
    rw [ho]
    simp only [hml]
    rw [if_pos (Nat.le_refl _)]
    refine ⟨b1, ?_⟩
    have hb1 : buf1 = (BufReader.unread rem b).take n1 := by
      rw [← i3, ← i1, List.take_length]
    rw [hb1]

theorem fragmentReader_neverStalls (m : Nat) (hm : 0 < m) : NeverStalls (fragmentReader m) := by
  intro s k hk h
  unfold fragmentReader at h ⊢
  by_cases hs : s.length = 0
  · simp [hs]
  · simp only [hs, if_false] at h
    have := congrArg List.length h
    simp only [List.length_take, List.length_nil] at this
    omega

/-- C8 amended, at a concrete input: a fresh reader of capacity 2 over a source
that holds `hello` and hands it out one byte at a time, asked for 3 bytes. -/
theorem ReadFull_result_witness :
    ∃ b1, BufReader.ReadFull (fragmentReader 1) 4
        ({ err := none, buf := [0, 0], rd := [104, 101, 108, 108, 111], rpos := 0, wpos := 0,
           slice := { buf := [] } } : BufReader (List Byte)) 3
      = some ((some ((BufReader.unread id
          ({ err := none, buf := [0, 0], rd := [104, 101, 108, 108, 111], rpos := 0, wpos := 0,
             slice := { buf := [] } } : BufReader (List Byte))).take 3), none), b1) :=
  (ReadFull_result (fragmentReader 1) id (fragmentReader_streams 1)
      { err := none, buf := [0, 0], rd := [104, 101, 108, 108, 111], rpos := 0, wpos := 0,
        slice := { buf := [] } }
      ⟨by decide, by decide, by decide⟩ rfl 3 (by decide) 4).2.2
      (fragmentReader_progresses 1 (by decide)) (by decide) (by decide)

end protocol

namespace protocol

theorem recorded_error_sticky {ρ : Type} (R : Reader ρ) (b : BufReader ρ) (e : Error)
    (he : b.err = some e) (k n fuel : Nat) (delim : Byte) :
    b.fill R = (some e, b) ∧
    b.Read R k = (([], some e), b) ∧
    b.ReadByte R = ((0, some e), b) ∧
    b.PeekByte R = ((0, some e), b) ∧
    b.ReadSlice R delim = some ((none, some e), b) ∧
    b.ReadFull R fuel n = some ((none, some e), b) ∧
    (e ≠ Error.ErrBufferFull → b.ReadBytes R (fuel + 1) delim = some ((none, some e), b)) := by
  have hs : b.ReadSlice R delim = some ((none, some e), b) := by
    simp only [BufReader.ReadSlice, he]
  refine ⟨?_, ?_, ?_, ?_, hs, ?_, ?_⟩
  · simp only [BufReader.fill, he]
  · simp only [BufReader.Read, he]
    simp
  · simp only [BufReader.ReadByte, he]
  · simp only [BufReader.PeekByte, he]
  · simp only [BufReader.ReadFull, he]
    simp
  · intro hne
    simp only [BufReader.ReadBytes, BufReader.readBytesLoop, hs, hne, ne_eq, not_false_eq_true,
      if_true, he]

theorem readBytesLoop_spins {ρ : Type} (R : Reader ρ) (b : BufReader ρ)
    (he : b.err = some Error.ErrBufferFull) (delim : Byte) (fuel : Nat) :
    ∀ (full : List (List Byte)) (size : Nat),
      BufReader.readBytesLoop R delim fuel b full size = none := by
  have hs : b.ReadSlice R delim = some ((none, some Error.ErrBufferFull), b) := by
    simp only [BufReader.ReadSlice, he]
  induction fuel with
  | zero => intro full size; rfl
  | succ fuel ih =>
    intro full size
    unfold BufReader.readBytesLoop
    rw [hs]
    simp only [ne_eq, not_true_eq_false, if_false, Option.getD_none, List.length_nil]
    have hm : (b.slice.Make 0).2 = b.slice := by
      simp [sliceAlloc.Make]
    rw [hm]
    exact ih _ _

/-- C11, where the code departs from the claim: a first `ReadByte` on a fresh
reader over an exhausted source that reports `bufio.ErrBufferFull` records that
error; `fill`, `Read`, `ReadByte`, `PeekByte`, `ReadSlice` and `ReadFull` then
return it and leave the reader as it was, but `ReadBytes` takes it for the
signal of a full buffer and never returns, whatever the fuel. -/
theorem ReadBytes_spins_on_recorded_ErrBufferFull :
    (BufReader.ReadByte (failingReader 1 Error.ErrBufferFull)
        { err := none, buf := [0, 0], rd := [], rpos := 0, wpos := 0, slice := { buf := [] } }).2
      = { err := some Error.ErrBufferFull, buf := [0, 0], rd := [], rpos := 0, wpos := 0,
          slice := { buf := [] } } ∧
    BufReader.ReadSlice (failingReader 1 Error.ErrBufferFull)
        { err := some Error.ErrBufferFull, buf := [0, 0], rd := [], rpos := 0, wpos := 0,
          slice := { buf := [] } } 10
      = some ((none, some Error.ErrBufferFull),
          { err := some Error.ErrBufferFull, buf := [0, 0], rd := [], rpos := 0, wpos := 0,
            slice := { buf := [] } }) ∧
    BufReader.ReadFull (failingReader 1 Error.ErrBufferFull) 3
        { err := some Error.ErrBufferFull, buf := [0, 0], rd := [], rpos := 0, wpos := 0,
          slice := { buf := [] } } 2
      = some ((none, some Error.ErrBufferFull),
          { err := some Error.ErrBufferFull, buf := [0, 0], rd := [], rpos := 0, wpos := 0,
            slice := { buf := [] } }) ∧
    ∀ fuel, BufReader.ReadBytes (failingReader 1 Error.ErrBufferFull) fuel
        { err := some Error.ErrBufferFull, buf := [0, 0], rd := [], rpos := 0, wpos := 0,
          slice := { buf := [] } } 10 = none := by
  refine ⟨rfl, rfl, rfl, ?_⟩
  intro fuel
  exact readBytesLoop_spins _ _ rfl 10 fuel [] 0

theorem fill_stalled {ρ : Type} (R : Reader ρ) (b : BufReader ρ) (he : b.err = none)
    (hstall : (b.refillRead R).2 = ([], none)) :
    (b.fill R).1 = some Error.ErrNoProgress ∧ (b.fill R).2.err = some Error.ErrNoProgress := by
  unfold BufReader.refillRead at hstall
  unfold BufReader.fill
  rw [he]
  simp only
  rcases hrd : R.Read b.compact.rd (b.compact.buf.length - b.compact.wpos) with ⟨s, data, x⟩
  rw [hrd] at hstall
  simp only [Prod.mk.injEq] at hstall
  obtain ⟨h1, h2⟩ := hstall
  subst h1 h2
  simp

/-- C15: on a reader with no recorded error, when the read that a refill issues
on the source delivers zero bytes and reports no error, `fill` returns
`io.ErrNoProgress` and records it; `ReadByte`, `PeekByte` and a `Read` into a
region shorter than the buffer, which refill when nothing is buffered, and every
turn of the loops of `ReadSlice` and `ReadBytes` that refills (no delimiter
among the buffered bytes, buffer not full), then return `io.ErrNoProgress` and
leave the reader in the state where that error is recorded. -/
theorem refill_without_progress {ρ : Type} (R : Reader ρ) (b : BufReader ρ)
    (he : b.err = none) (hstall : (b.refillRead R).2 = ([], none)) :
    (b.fill R).1 = some Error.ErrNoProgress ∧
    (b.fill R).2.err = some Error.ErrNoProgress ∧
    (b.buffered = 0 →
      b.ReadByte R = ((0, some Error.ErrNoProgress), (b.fill R).2) ∧
      b.PeekByte R = ((0, some Error.ErrNoProgress), (b.fill R).2) ∧
      ∀ k, 0 < k → k < b.buf.length →
        b.Read R k = (([], some Error.ErrNoProgress), (b.fill R).2)) ∧
    (∀ delim, IndexByte (subslice b.buf b.rpos b.wpos) delim = none →
      b.buffered ≠ b.buf.length →
      (∀ fuel, BufReader.readSliceLoop R delim (fuel + 1) b
        = some ((none, some Error.ErrNoProgress), (b.fill R).2)) ∧
      b.ReadSlice R delim = some ((none, some Error.ErrNoProgress), (b.fill R).2) ∧
      (∀ fuel full size, BufReader.readBytesLoop R delim (fuel + 1) b full size
        = some ((none, some Error.ErrNoProgress), (b.fill R).2)) ∧
      ∀ fuel, b.ReadBytes R (fuel + 1) delim
        = some ((none, some Error.ErrNoProgress), (b.fill R).2)) := by
  obtain ⟨f1, f2⟩ := fill_stalled R b he hstall
  rcases hfl : b.fill R with ⟨x, b1⟩
  rw [hfl] at f1 f2
  simp only at f1 f2
  subst f1
  refine ⟨rfl, f2, ?_, ?_⟩
  · intro hbuf
    refine ⟨?_, ?_, ?_⟩
    · simp only [BufReader.ReadByte, he, hbuf, if_true, hfl, f2]
    · simp only [BufReader.PeekByte, he, hbuf, if_true, hfl, f2]
    · intro k hk hlt
      have hc : ¬ (b.err ≠ none ∨ k = 0) := by rw [he]; simp; omega
      have hge : ¬ (k ≥ b.buf.length) := by omega
      simp only [BufReader.Read, if_neg hc, hbuf, if_true, if_neg hge, hfl, f2]
  · intro delim hidx hfull
    have hloop : ∀ fuel, BufReader.readSliceLoop R delim (fuel + 1) b
        = some ((none, some Error.ErrNoProgress), b1) := by
      intro fuel
      simp only [BufReader.readSliceLoop, hidx, if_neg hfull, hfl, f2]
    have hs : b.ReadSlice R delim = some ((none, some Error.ErrNoProgress), b1) := by
      simp only [BufReader.ReadSlice, he, hloop]
    have hb : ∀ fuel full size, BufReader.readBytesLoop R delim (fuel + 1) b full size
        = some ((none, some Error.ErrNoProgress), b1) := by
      intro fuel full size
      simp only [BufReader.readBytesLoop, hs, ne_eq, reduceCtorEq, not_false_eq_true, if_true,
        f2]
    exact ⟨hloop, hs, hb, fun fuel => hb fuel [] 0⟩

/-- C15, at a concrete input: a fresh reader of capacity 2 over a source that
never delivers a byte and never reports an error. -/
theorem refill_without_progress_witness :
    (BufReader.fill stalledReader
        { err := none, buf := [0, 0], rd := (), rpos := 0, wpos := 0,
          slice := { buf := [] } }).1 = some Error.ErrNoProgress ∧
    (BufReader.fill stalledReader
        { err := none, buf := [0, 0], rd := (), rpos := 0, wpos := 0,
          slice := { buf := [] } }).2.err = some Error.ErrNoProgress ∧
    BufReader.ReadByte stalledReader
        { err := none, buf := [0, 0], rd := (), rpos := 0, wpos := 0, slice := { buf := [] } }
      = ((0, some Error.ErrNoProgress),
          (BufReader.fill stalledReader
            { err := none, buf := [0, 0], rd := (), rpos := 0, wpos := 0,
              slice := { buf := [] } }).2) ∧
    BufReader.ReadBytes stalledReader (0 + 1)
        { err := none, buf := [0, 0], rd := (), rpos := 0, wpos := 0, slice := { buf := [] } }
        10
      = some ((none, some Error.ErrNoProgress),
          (BufReader.fill stalledReader
            { err := none, buf := [0, 0], rd := (), rpos := 0, wpos := 0,
              slice := { buf := [] } }).2) :=
  ⟨(refill_without_progress stalledReader
      { err := none, buf := [0, 0], rd := (), rpos := 0, wpos := 0, slice := { buf := [] } }
      rfl rfl).1,
   (refill_without_progress stalledReader
      { err := none, buf := [0, 0], rd := (), rpos := 0, wpos := 0, slice := { buf := [] } }
      rfl rfl).2.1,
   ((refill_without_progress stalledReader
      { err := none, buf := [0, 0], rd := (), rpos := 0, wpos := 0, slice := { buf := [] } }
      rfl rfl).2.2.1 rfl).1,
   ((refill_without_progress stalledReader
      { err := none, buf := [0, 0], rd := (), rpos := 0, wpos := 0, slice := { buf := [] } }
      rfl rfl).2.2.2 10 rfl (by decide)).2.2.2 0⟩

end protocol

namespace protocol

theorem fill_frame {ρ : Type} {R : Reader ρ} (hB : Bounded R) (b : BufReader ρ) (hb : b.Ok) :
    (b.fill R).2.Ok ∧ (b.fill R).2.buf.length = b.buf.length ∧
    ((b.fill R).1 = none → (b.fill R).2.rpos < (b.fill R).2.wpos) ∧
    (b.err = none →
      (b.fill R).2.rpos = 0 ∧
      subslice (b.fill R).2.buf 0 (b.wpos - b.rpos) = subslice b.buf b.rpos b.wpos ∧
      ((b.fill R).1 = none →
        (b.fill R).2.wpos = b.wpos - b.rpos + (b.refillRead R).2.1.length ∧
        subslice (b.fill R).2.buf 0 (b.fill R).2.wpos
          = subslice b.buf b.rpos b.wpos ++ (b.refillRead R).2.1) ∧
      ((b.fill R).1 ≠ none → (b.fill R).2.wpos = b.wpos - b.rpos)) := by
  cases he : b.err with
  | some e =>
    have hf : b.fill R = (some e, b) := by simp only [BufReader.fill, he]
    rw [hf]
    refine ⟨hb, rfl, ?_, ?_⟩
    · intro h; cases h
    · intro h; cases h
  | none =>
    obtain ⟨c1, c2, c3, c4, c5, _, _, _⟩ := compact_spec b hb
    have hbd := hB b.compact.rd (b.compact.buf.length - b.compact.wpos)
    have hcl := copyAt_length b.compact.buf b.compact.wpos
      (R.Read b.compact.rd (b.compact.buf.length - b.compact.wpos)).2.1 c1.2.1
    have hcn : (copyAt b.compact.buf b.compact.wpos
        (R.Read b.compact.rd (b.compact.buf.length - b.compact.wpos)).2.1).2
        = (R.Read b.compact.rd (b.compact.buf.length - b.compact.wpos)).2.1.length := by
      rw [copyAt_snd]; omega
    have hcs := copyAt_subslice b.compact.buf b.compact.wpos
      (R.Read b.compact.rd (b.compact.buf.length - b.compact.wpos)).2.1 b.compact.rpos
      c1.1 c1.2.1
    rw [hcn, List.take_length, c5] at hcs
    have hkeep : subslice (copyAt b.compact.buf b.compact.wpos
        (R.Read b.compact.rd (b.compact.buf.length - b.compact.wpos)).2.1).1 0 (b.wpos - b.rpos)
        = subslice b.buf b.rpos b.wpos := by
      have hlen : (subslice b.buf b.rpos b.wpos).length = b.wpos - b.rpos := by
        rw [subslice_length]; have := hb.2.1; omega
      have hlen2 : (subslice b.buf b.rpos b.wpos ++
          (R.Read b.compact.rd (b.compact.buf.length - b.compact.wpos)).2.1).length
          = b.compact.wpos +
            (R.Read b.compact.rd (b.compact.buf.length - b.compact.wpos)).2.1.length := by
        rw [List.length_append, hlen, c4]
      have h1 := subslice_take (copyAt b.compact.buf b.compact.wpos
        (R.Read b.compact.rd (b.compact.buf.length - b.compact.wpos)).2.1).1 0
        (b.wpos - b.rpos)
        (b.compact.wpos +
          (R.Read b.compact.rd (b.compact.buf.length - b.compact.wpos)).2.1.length)
        (Nat.zero_le _) (by rw [c4]; omega) (by rw [hcl]; have := c1.2.1; omega)
      rw [c3] at hcs
      rw [Nat.sub_zero, hcs, List.take_append_of_le_length (by omega),
        List.take_of_length_le (by omega)] at h1
      exact h1.symm
    unfold BufReader.refillRead
    unfold BufReader.fill
    rw [he]
    simp only
    rcases hrd : R.Read b.compact.rd (b.compact.buf.length - b.compact.wpos) with ⟨s, data, x⟩
    rw [hrd] at hbd hcl hcn hcs hkeep
    simp only at hbd hcl hcn hcs hkeep
    cases x with
    | some e =>
      refine ⟨⟨c1.1, by simp only [hcl]; exact c1.2.1, by simp only [hcl]; exact c1.2.2⟩,
        by simp only [hcl, c2], ?_, ?_⟩
      · intro h; cases h
      · intro _
        refine ⟨c3, hkeep, ?_, ?_⟩
        · intro h; cases h
        · intro _; exact c4
    | none =>
      simp only
      by_cases hd : data.length = 0
      · rw [if_pos hd]
        refine ⟨⟨c1.1, by simp only [hcl]; exact c1.2.1, by simp only [hcl]; exact c1.2.2⟩,
          by simp only [hcl, c2], ?_, ?_⟩
        · intro h; cases h
        · intro _
          refine ⟨c3, hkeep, ?_, ?_⟩
          · intro h; cases h
          · intro _; exact c4
      · rw [if_neg hd]
        refine ⟨⟨?_, ?_, ?_⟩, by simp only [hcl, c2], ?_, ?_⟩
        · simp only [c3]; exact Nat.zero_le _
        · simp only [hcl]; have := c1.2.1; omega
        · simp only [hcl]; exact c1.2.2
        · intro _; simp only [c3]; omega
        · intro _
          refine ⟨c3, hkeep, ?_, ?_⟩
          · intro _
            refine ⟨by simp only [c4], ?_⟩
            rw [c3] at hcs
            exact hcs
          · intro h; exact absurd rfl h

theorem Read_frame {ρ : Type} {R : Reader ρ} (hB : Bounded R) (b : BufReader ρ) (hb : b.Ok)
    (k : Nat) : (b.Read R k).2.Ok ∧ (b.Read R k).2.buf.length = b.buf.length := by
  unfold BufReader.Read
  by_cases hc : b.err ≠ none ∨ k = 0
  · rw [if_pos hc]; exact ⟨hb, rfl⟩
  · rw [if_neg hc]
    have hstep : ∀ (b0 : BufReader ρ), b0.Ok →
        BufReader.Ok { b0 with rpos := b0.rpos + min k (subslice b0.buf b0.rpos b0.wpos).length }
        := by
      intro b0 h0
      refine ⟨?_, h0.2.1, h0.2.2⟩
      simp only [subslice_length]
      have := h0.1
      omega
    by_cases hbuf : b.buffered = 0
    · rw [if_pos hbuf]
      by_cases hbig : k ≥ b.buf.length
      · rw [if_pos hbig]
        rcases hrd : R.Read b.rd k with ⟨s, data, x⟩
        cases x with
        | some e => exact ⟨hb, rfl⟩
        | none => exact ⟨hb, rfl⟩
      · rw [if_neg hbig]
        obtain ⟨f1, f2, _, _⟩ := fill_frame hB b hb
        rcases hfl : b.fill R with ⟨x, b1⟩
        rw [hfl] at f1 f2
        cases x with
        | some e => exact ⟨f1, f2⟩
        | none => exact ⟨hstep b1 f1, f2⟩
    · rw [if_neg hbuf]
      exact ⟨hstep b hb, rfl⟩

theorem ReadByte_frame {ρ : Type} {R : Reader ρ} (hB : Bounded R) (b : BufReader ρ)
    (hb : b.Ok) :
    (b.ReadByte R).2.Ok ∧ (b.ReadByte R).2.buf.length = b.buf.length ∧
    (b.PeekByte R).2.Ok ∧ (b.PeekByte R).2.buf.length = b.buf.length := by
  unfold BufReader.ReadByte BufReader.PeekByte
  cases he : b.err with
  | some e => exact ⟨hb, rfl, hb, rfl⟩
  | none =>
    simp only
    by_cases hbuf : b.buffered = 0
    · rw [if_pos hbuf, if_pos hbuf]
      obtain ⟨f1, f2, f3, _⟩ := fill_frame hB b hb
      rcases hfl : b.fill R with ⟨x, b1⟩
      rw [hfl] at f1 f2 f3
      cases x with
      | some e => exact ⟨f1, f2, f1, f2⟩
      | none =>
        have hlt := f3 rfl
        simp only at hlt
        exact ⟨⟨hlt, f1.2.1, f1.2.2⟩, f2, f1, f2⟩
    · rw [if_neg hbuf, if_neg hbuf]
      unfold BufReader.buffered at hbuf
      have := hb.1
      exact ⟨⟨by simp only; omega, hb.2.1, hb.2.2⟩, rfl, hb, rfl⟩

theorem readSliceLoop_frame {ρ : Type} {R : Reader ρ} (hB : Bounded R) (delim : Byte)
    (fuel : Nat) :
    ∀ (b : BufReader ρ), b.Ok → ∀ out, BufReader.readSliceLoop R delim fuel b = some out →
      out.2.Ok ∧ out.2.buf.length = b.buf.length := by
  induction fuel with
  | zero => intro b _ out h; simp [BufReader.readSliceLoop] at h
  | succ fuel ih =>
    intro b hb out h
    unfold BufReader.readSliceLoop at h
    cases hidx : IndexByte (subslice b.buf b.rpos b.wpos) delim with
    | some index =>
      rw [hidx] at h
      simp only [Option.some.injEq] at h
      subst h
      have i1 := (IndexByte_some hidx).1
      rw [subslice_length] at i1
      exact ⟨⟨by simp only; omega, hb.2.1, hb.2.2⟩, rfl⟩
    | none =>
      rw [hidx] at h
      simp only at h
      by_cases hfull : b.buffered = b.buf.length
      · rw [if_pos hfull] at h
        simp only [Option.some.injEq] at h
        subst h
        exact ⟨⟨Nat.le_refl _, hb.2.1, hb.2.2⟩, rfl⟩
      · rw [if_neg hfull] at h
        obtain ⟨f1, f2, _, _⟩ := fill_frame hB b hb
        rcases hfl : b.fill R with ⟨x, b1⟩
        rw [hfl] at f1 f2 h
        cases x with
        | some e =>
          simp only [Option.some.injEq] at h
          subst h
          exact ⟨f1, f2⟩
        | none =>
          simp only at h
          obtain ⟨g1, g2⟩ := ih b1 f1 out h
          exact ⟨g1, g2.trans f2⟩

theorem ReadSlice_frame {ρ : Type} {R : Reader ρ} (hB : Bounded R) (delim : Byte)
    (b : BufReader ρ) (hb : b.Ok) (out : (Option (List Byte) × Option Error) × BufReader ρ)
    (h : b.ReadSlice R delim = some out) : out.2.Ok ∧ out.2.buf.length = b.buf.length := by
  unfold BufReader.ReadSlice at h
  cases he : b.err with
  | some e =>
    rw [he] at h
    simp only [Option.some.injEq] at h
    subst h
    exact ⟨hb, rfl⟩
  | none =>
    rw [he] at h
    exact readSliceLoop_frame hB delim _ b hb out h

theorem readBytesLoop_frame {ρ : Type} {R : Reader ρ} (hB : Bounded R) (delim : Byte)
    (fuel : Nat) :
    ∀ (b : BufReader ρ) (full : List (List Byte)) (size : Nat), b.Ok →
      ∀ out, BufReader.readBytesLoop R delim fuel b full size = some out →
        out.2.Ok ∧ out.2.buf.length = b.buf.length := by
  induction fuel with
  | zero => intro b full size _ out h; simp [BufReader.readBytesLoop] at h
  | succ fuel ih =>
    intro b full size hb out h
    unfold BufReader.readBytesLoop at h
    cases hs : b.ReadSlice R delim with
    | none => rw [hs] at h; simp at h
    | some o =>
      obtain ⟨s1, s2⟩ := ReadSlice_frame hB delim b hb o hs
      rcases o with ⟨⟨f, x⟩, b1⟩
      rw [hs] at h
      simp only at s1 s2
      cases x with
      | some e =>
        simp only at h
        by_cases hne : e ≠ Error.ErrBufferFull
        · rw [if_pos hne] at h
          simp only [Option.some.injEq] at h
          subst h
          exact ⟨s1, s2⟩
        · rw [if_neg hne] at h
          obtain ⟨g1, g2⟩ := ih _ _ _ (show BufReader.Ok
            { b1 with slice := (b1.slice.Make (f.getD []).length).2 } from s1) out h
          exact ⟨g1, g2.trans s2⟩
      | none =>
        cases f with
        | none =>
          simp only at h
          obtain ⟨g1, g2⟩ := ih _ _ _ s1 out h
          exact ⟨g1, g2.trans s2⟩
        | some last =>
          simp only [Option.some.injEq] at h
          subst h
          exact ⟨s1, s2⟩

theorem readAtLeastLoop_frame {ρ : Type} {R : Reader ρ} (hB : Bounded R) (fuel : Nat) :
    ∀ (b : BufReader ρ) (buf : List Byte) (n : Nat) (err : Option Error), b.Ok →
      ∀ out, readAtLeastLoop R fuel b buf n err = some out →
        out.2.Ok ∧ out.2.buf.length = b.buf.length := by
  induction fuel with
  | zero => intro b buf n err _ out h; simp [readAtLeastLoop] at h
  | succ fuel ih =>
    intro b buf n err hb out h
    unfold readAtLeastLoop at h
    by_cases hc : n < buf.length ∧ err = none
    · rw [if_pos hc] at h
      obtain ⟨r1, r2⟩ := Read_frame hB b hb (buf.length - n)
      obtain ⟨g1, g2⟩ := ih _ _ _ _ r1 out h
      exact ⟨g1, g2.trans r2⟩
    · rw [if_neg hc] at h
      simp only [Option.some.injEq] at h
      subst h
      exact ⟨hb, rfl⟩

theorem ReadFull_frame {ρ : Type} {R : Reader ρ} (hB : Bounded R) (fuel : Nat)
    (b : BufReader ρ) (hb : b.Ok) (n : Nat)
    (out : (Option (List Byte) × Option Error) × BufReader ρ)
    (h : b.ReadFull R fuel n = some out) : out.2.Ok ∧ out.2.buf.length = b.buf.length := by
  unfold BufReader.ReadFull ioReadFull at h
  by_cases hc : b.err ≠ none ∨ n = 0
  · rw [if_pos hc] at h
    simp only [Option.some.injEq] at h
    subst h
    exact ⟨hb, rfl⟩
  · rw [if_neg hc] at h
    cases hl : readAtLeastLoop R fuel { b with slice := (b.slice.Make n).2 }
        (b.slice.Make n).1 0 none with
    | none => rw [hl] at h; simp at h
    | some o =>
      obtain ⟨g1, g2⟩ := readAtLeastLoop_frame hB fuel _ _ _ _
        (show BufReader.Ok { b with slice := (b.slice.Make n).2 } from hb) o hl
      rcases o with ⟨⟨buf1, n1, err1⟩, b1⟩
      rw [hl] at h
      simp only at h g1 g2
      have hform : ∃ x, (if n1 ≥ (b.slice.Make n).1.length then some ((buf1, n1, none), b1)
          else if n1 > 0 ∧ err1 = some Error.EOF then
            some ((buf1, n1, some Error.ErrUnexpectedEOF), b1)
          else some ((buf1, n1, err1), b1)) = some ((buf1, n1, x), b1) := by
        by_cases h1 : n1 ≥ (b.slice.Make n).1.length
        · rw [if_pos h1]; exact ⟨_, rfl⟩
        · rw [if_neg h1]
          by_cases h2 : n1 > 0 ∧ err1 = some Error.EOF
          · rw [if_pos h2]; exact ⟨_, rfl⟩
          · rw [if_neg h2]; exact ⟨_, rfl⟩
      obtain ⟨x, hx⟩ := hform
      rw [hx] at h
      cases x with
      | none =>
        simp only [Option.some.injEq] at h
        subst h
        exact ⟨g1, g2⟩
      | some e =>
        simp only [Option.some.injEq] at h
        subst h
        exact ⟨g1, g2⟩

theorem call_frame {ρ : Type} {R : Reader ρ} (hB : Bounded R) (fuel : Nat) (b : BufReader ρ)
    (hb : b.Ok) (c : ReaderCall) (b1 : BufReader ρ) (h : b.call R fuel c = some b1) :
    b1.Ok ∧ b1.buf.length = b.buf.length := by
  cases c with
  | fill =>
    simp only [BufReader.call, Option.some.injEq] at h
    subst h
    exact ⟨(fill_frame hB b hb).1, (fill_frame hB b hb).2.1⟩
  | Read k =>
    simp only [BufReader.call, Option.some.injEq] at h
    subst h
    exact Read_frame hB b hb k
  | ReadByte =>
    simp only [BufReader.call, Option.some.injEq] at h
    subst h
    exact ⟨(ReadByte_frame hB b hb).1, (ReadByte_frame hB b hb).2.1⟩
  | PeekByte =>
    simp only [BufReader.call, Option.some.injEq] at h
    subst h
    exact ⟨(ReadByte_frame hB b hb).2.2.1, (ReadByte_frame hB b hb).2.2.2⟩
  | ReadSlice delim =>
    simp only [BufReader.call] at h
    cases ho : b.ReadSlice R delim with
    | none => rw [ho] at h; simp at h
    | some out =>
      rw [ho] at h
      simp only [Option.map_some', Option.some.injEq] at h
      subst h
      exact ReadSlice_frame hB delim b hb out ho
  | ReadBytes delim =>
    simp only [BufReader.call] at h
    cases ho : b.ReadBytes R fuel delim with
    | none => rw [ho] at h; simp at h
    | some out =>
      rw [ho] at h
      simp only [Option.map_some', Option.some.injEq] at h
      subst h
      exact readBytesLoop_frame hB delim fuel b [] 0 hb out ho
  | ReadFull n =>
    simp only [BufReader.call] at h
    cases ho : b.ReadFull R fuel n with
    | none => rw [ho] at h; simp at h
    | some out =>
      rw [ho] at h
      simp only [Option.map_some', Option.some.injEq] at h
      subst h
      exact ReadFull_frame hB fuel b hb n out ho

theorem calls_frame {ρ : Type} {R : Reader ρ} (hB : Bounded R) (fuel : Nat)
    (cs : List ReaderCall) :
    ∀ (b : BufReader ρ), b.Ok → ∀ b1, BufReader.calls R fuel b cs = some b1 →
      b1.Ok ∧ b1.buf.length = b.buf.length := by
  induction cs with
  | nil =>
    intro b hb b1 h
    simp only [BufReader.calls, Option.some.injEq] at h
    subst h
    exact ⟨hb, rfl⟩
  | cons c cs ih =>
    intro b hb b1 h
    unfold BufReader.calls at h
    cases hc : b.call R fuel c with
    | none => rw [hc] at h; simp at h
    | some b2 =>
      rw [hc] at h
      obtain ⟨c1, c2⟩ := call_frame hB fuel b hb c b2 hc
      obtain ⟨g1, g2⟩ := ih b2 c1 b1 h
      exact ⟨g1, g2.trans c2⟩

theorem bounded_of_streams {ρ : Type} {R : Reader ρ} {rem : ρ → List Byte}
    (hS : Streams R rem) : Bounded R :=
  fun s k => (hS s k).1

/-- C20: over a source that never reports more bytes than the region it was
given has room for, from a reader with `rpos ≤ wpos ≤ len(buf)` and a capacity
of at least one (a fresh reader is one, with `rpos = wpos = 0`), every sequence
of calls of `fill`, `Read`, `ReadByte`, `PeekByte`, `ReadSlice`, `ReadBytes` and
`ReadFull` leaves a reader with `rpos ≤ wpos ≤ len(buf)` and the same capacity;
and a refill in the state reached, when no error is recorded, sets `rpos` to 0,
keeps the unread bytes in their order at the front of the buffer and, when it
succeeds, puts right after them the bytes the source has delivered and nothing
else below `wpos`, while a refill that fails leaves `wpos` right after the
unread bytes. -/
theorem BufReader_invariant {ρ : Type} (R : Reader ρ) (hB : Bounded R) (b : BufReader ρ)
    (hcap : 1 ≤ b.buf.length) (hr : b.rpos ≤ b.wpos) (hw : b.wpos ≤ b.buf.length)
    (fuel : Nat) (cs : List ReaderCall) (b1 : BufReader ρ)
    (h : BufReader.calls R fuel b cs = some b1) :
    b1.rpos ≤ b1.wpos ∧ b1.wpos ≤ b1.buf.length ∧ b1.buf.length = b.buf.length ∧
    (b1.err = none →
      (b1.fill R).2.rpos = 0 ∧
      subslice (b1.fill R).2.buf 0 (b1.wpos - b1.rpos) = subslice b1.buf b1.rpos b1.wpos ∧
      ((b1.fill R).1 = none →
        (b1.fill R).2.wpos = b1.wpos - b1.rpos + (b1.refillRead R).2.1.length ∧
        subslice (b1.fill R).2.buf 0 (b1.fill R).2.wpos
          = subslice b1.buf b1.rpos b1.wpos ++ (b1.refillRead R).2.1) ∧
      ((b1.fill R).1 ≠ none → (b1.fill R).2.wpos = b1.wpos - b1.rpos)) := by
  obtain ⟨g1, g2⟩ := calls_frame hB fuel cs b ⟨hr, hw, hcap⟩ b1 h
  exact ⟨g1.1, g1.2.1, g2, (fill_frame hB b1 g1).2.2.2⟩

/-- C20, at a concrete input: a fresh reader of capacity 2 over a source that
holds `hey` and a line feed and hands them out two bytes at a time, after a
`PeekByte` and a `ReadByte`, which leave `e` unread at offset 1. -/
theorem BufReader_invariant_witness :
    (1 : Nat) ≤ 2 ∧ 2 ≤ [104, 101].length ∧ [104, 101].length = [0, 0].length ∧
    ((none : Option Error) = none →
      (BufReader.fill (fragmentReader 2)
        { err := none, buf := [104, 101], rd := [121, 10], rpos := 1, wpos := 2,
          slice := { buf := [] } }).2.rpos = 0 ∧
      subslice (BufReader.fill (fragmentReader 2)
        { err := none, buf := [104, 101], rd := [121, 10], rpos := 1, wpos := 2,
          slice := { buf := [] } }).2.buf 0 (2 - 1) = subslice [104, 101] 1 2 ∧
      ((BufReader.fill (fragmentReader 2)
        { err := none, buf := [104, 101], rd := [121, 10], rpos := 1, wpos := 2,
          slice := { buf := [] } }).1 = none →
        (BufReader.fill (fragmentReader 2)
        { err := none, buf := [104, 101], rd := [121, 10], rpos := 1, wpos := 2,
          slice := { buf := [] } }).2.wpos = 2 - 1 + (BufReader.refillRead (fragmentReader 2)
        { err := none, buf := [104, 101], rd := [121, 10], rpos := 1, wpos := 2,
          slice := { buf := [] } }).2.1.length ∧
        subslice (BufReader.fill (fragmentReader 2)
        { err := none, buf := [104, 101], rd := [121, 10], rpos := 1, wpos := 2,
          slice := { buf := [] } }).2.buf 0 (BufReader.fill (fragmentReader 2)
        { err := none, buf := [104, 101], rd := [121, 10], rpos := 1, wpos := 2,
          slice := { buf := [] } }).2.wpos
          = subslice [104, 101] 1 2 ++ (BufReader.refillRead (fragmentReader 2)
        { err := none, buf := [104, 101], rd := [121, 10], rpos := 1, wpos := 2,
          slice := { buf := [] } }).2.1) ∧
      ((BufReader.fill (fragmentReader 2)
        { err := none, buf := [104, 101], rd := [121, 10], rpos := 1, wpos := 2,
          slice := { buf := [] } }).1 ≠ none →
        (BufReader.fill (fragmentReader 2)
        { err := none, buf := [104, 101], rd := [121, 10], rpos := 1, wpos := 2,
          slice := { buf := [] } }).2.wpos = 2 - 1)) :=
  BufReader_invariant (fragmentReader 2) (bounded_of_streams (fragmentReader_streams 2))
    { err := none, buf := [0, 0], rd := [104, 101, 121, 10], rpos := 0, wpos := 0,
      slice := { buf := [] } }
    (by decide) (by decide) (by decide) 3
    [ReaderCall.PeekByte, ReaderCall.ReadByte]
    { err := none, buf := [104, 101], rd := [121, 10], rpos := 1, wpos := 2,
      slice := { buf := [] } }
    rfl

end protocol

namespace protocol

/-- C22: on a reader with no recorded error and nothing buffered, `Read` into a
region of `k > 0` bytes with `k ≥ len(buf)` issues the one read
`b.rd.Read(p)` on the source, returns the bytes and the error of that read (so
the count is the one the source returned), records that error if there is
one, and leaves `buf`, `rpos` and `wpos` as they were; with `k < len(buf)` it
calls `fill`, whose one read on the source is into the internal buffer, returns
the error of `fill` if it fails, and otherwise copies the first `k` buffered
bytes at most and moves `rpos` past what it has copied. -/
theorem Read_direct {ρ : Type} (R : Reader ρ) (b : BufReader ρ) (he : b.err = none)
    (hbuf : b.buffered = 0) (k : Nat) (hk : 0 < k) :
    (b.buf.length ≤ k →
      (b.Read R k).1 = ((R.Read b.rd k).2.1, (R.Read b.rd k).2.2) ∧
      (b.Read R k).2.rd = (R.Read b.rd k).1 ∧
      (b.Read R k).2.err = (R.Read b.rd k).2.2 ∧
      (b.Read R k).2.buf = b.buf ∧ (b.Read R k).2.rpos = b.rpos ∧
      (b.Read R k).2.wpos = b.wpos) ∧
    (k < b.buf.length →
      (b.Read R k).2.rd = (b.refillRead R).1 ∧
      ((b.fill R).1 ≠ none → b.Read R k = (([], (b.fill R).2.err), (b.fill R).2)) ∧
      ((b.fill R).1 = none →
        (b.Read R k).1
          = ((subslice (b.fill R).2.buf (b.fill R).2.rpos (b.fill R).2.wpos).take k, none) ∧
        (b.Read R k).1.1.length ≤ k ∧
        (b.Read R k).2.buf = (b.fill R).2.buf ∧
        (b.Read R k).2.wpos = (b.fill R).2.wpos ∧
        (b.Read R k).2.rpos = (b.fill R).2.rpos + (b.Read R k).1.1.length ∧
        (b.Read R k).2.err = none)) := by
  have hc : ¬ (b.err ≠ none ∨ k = 0) := by
    rw [he]; simp; omega
  constructor
  · intro hge
    have hge1 : k ≥ b.buf.length := hge
    unfold BufReader.Read
    rw [if_neg hc, if_pos hbuf, if_pos hge1]
    rcases hrd : R.Read b.rd k with ⟨s, data, x⟩
    cases x with
    | some e => exact ⟨rfl, rfl, rfl, rfl, rfl, rfl⟩
    | none => exact ⟨rfl, rfl, he, rfl, rfl, rfl⟩
  · intro hlt
    have hge : ¬ (k ≥ b.buf.length) := by omega
    have hrdf : (b.fill R).2.rd = (b.refillRead R).1 := by
      unfold BufReader.fill BufReader.refillRead
      rw [he]
      simp only
      rcases hrd : R.Read b.compact.rd (b.compact.buf.length - b.compact.wpos) with ⟨s, data, x⟩
      cases x with
      | some e => rfl
      | none =>
        simp only
        by_cases h0 : data.length = 0
        · rw [if_pos h0]
        · rw [if_neg h0]
    have hferr : (b.fill R).1 = none → (b.fill R).2.err = none := by
      unfold BufReader.fill
      rw [he]
      simp only
      rcases hrd : R.Read b.compact.rd (b.compact.buf.length - b.compact.wpos) with ⟨s, data, x⟩
      cases x with
      | some e => intro h; cases h
      | none =>
        simp only
        by_cases h0 : data.length = 0
        · rw [if_pos h0]; intro h; cases h
        · rw [if_neg h0]
          intro _
          simp only
          unfold BufReader.compact
          by_cases hr : b.rpos > 0
          · rw [if_pos hr]; exact he
          · rw [if_neg hr]; exact he
    unfold BufReader.Read
    rw [if_neg hc, if_pos hbuf, if_neg hge]
    rcases hfl : b.fill R with ⟨x, b1⟩
    rw [hfl] at hrdf hferr
    simp only at hrdf hferr
    cases x with
    | some e =>
      refine ⟨hrdf, fun _ => rfl, fun h => ?_⟩
      cases h
    | none =>
      refine ⟨hrdf, fun h => absurd rfl h, fun _ => ⟨rfl, ?_, rfl, rfl, ?_, hferr rfl⟩⟩
      · simp only [List.length_take]
        omega
      · simp only [List.length_take]

/-- C22, at a concrete input: a fresh reader of capacity 2 over a
`strings.Reader` that holds `abcde`, read into a region of 3 bytes and into a
region of 1 byte. -/
theorem Read_direct_witness :
    ((BufReader.Read stringsReader
        { err := none, buf := [0, 0], rd := [97, 98, 99, 100, 101], rpos := 0, wpos := 0,
          slice := { buf := [] } } 3).1
      = ((stringsReader.Read [97, 98, 99, 100, 101] 3).2.1,
          (stringsReader.Read [97, 98, 99, 100, 101] 3).2.2) ∧
    (BufReader.Read stringsReader
        { err := none, buf := [0, 0], rd := [97, 98, 99, 100, 101], rpos := 0, wpos := 0,
          slice := { buf := [] } } 3).2.rd = (stringsReader.Read [97, 98, 99, 100, 101] 3).1 ∧
    (BufReader.Read stringsReader
        { err := none, buf := [0, 0], rd := [97, 98, 99, 100, 101], rpos := 0, wpos := 0,
          slice := { buf := [] } } 3).2.err = (stringsReader.Read [97, 98, 99, 100, 101] 3).2.2 ∧
    (BufReader.Read stringsReader
        { err := none, buf := [0, 0], rd := [97, 98, 99, 100, 101], rpos := 0, wpos := 0,
          slice := { buf := [] } } 3).2.buf = [0, 0] ∧
    (BufReader.Read stringsReader
        { err := none, buf := [0, 0], rd := [97, 98, 99, 100, 101], rpos := 0, wpos := 0,
          slice := { buf := [] } } 3).2.rpos = 0 ∧
    (BufReader.Read stringsReader
        { err := none, buf := [0, 0], rd := [97, 98, 99, 100, 101], rpos := 0, wpos := 0,
          slice := { buf := [] } } 3).2.wpos = 0) ∧
    (BufReader.Read stringsReader
        { err := none, buf := [0, 0], rd := [97, 98, 99, 100, 101], rpos := 0, wpos := 0,
          slice := { buf := [] } } 1).2.rd
      = (BufReader.refillRead stringsReader
          { err := none, buf := [0, 0], rd := [97, 98, 99, 100, 101], rpos := 0, wpos := 0,
            slice := { buf := [] } }).1 :=
  ⟨(Read_direct stringsReader
      { err := none, buf := [0, 0], rd := [97, 98, 99, 100, 101], rpos := 0, wpos := 0,
        slice := { buf := [] } } rfl rfl 3 (by decide)).1 (by decide),
   ((Read_direct stringsReader
      { err := none, buf := [0, 0], rd := [97, 98, 99, 100, 101], rpos := 0, wpos := 0,
        slice := { buf := [] } } rfl rfl 1 (by decide)).2 (by decide)).1⟩

theorem fill_failed {ρ : Type} (R : Reader ρ) (b : BufReader ρ) (he : b.err = none)
    (e : Error) (hread : (b.refillRead R).2.2 = some e) :
    (b.fill R).1 = some e ∧ (b.fill R).2.err = some e ∧
    (b.fill R).2.rpos = b.compact.rpos ∧ (b.fill R).2.wpos = b.compact.wpos ∧
    (b.fill R).2.rd = (b.refillRead R).1 ∧
    (b.fill R).2.buf = (copyAt b.compact.buf b.compact.wpos (b.refillRead R).2.1).1 := by
  unfold BufReader.refillRead at hread ⊢
  unfold BufReader.fill
  rw [he]
  simp only
  rcases hrd : R.Read b.compact.rd (b.compact.buf.length - b.compact.wpos) with ⟨s, data, x⟩
  rw [hrd] at hread
  simp only at hread
  subst hread
  exact ⟨rfl, rfl, rfl, rfl, rfl, rfl⟩

theorem ReadBytes_recorded_error {ρ : Type} (R : Reader ρ) (b : BufReader ρ) (e : Error)
    (he : b.err = some e) (delim : Byte) (fuel : Nat) :
    b.ReadBytes R fuel delim = none ∨ b.ReadBytes R fuel delim = some ((none, some e), b) := by
  by_cases hfull : e = Error.ErrBufferFull
  · left
    subst hfull
    exact readBytesLoop_spins R b he delim fuel [] 0
  · cases fuel with
    | zero => left; rfl
    | succ fuel =>
      right
      exact (recorded_error_sticky R b e he 0 0 fuel delim).2.2.2.2.2.2 hfull

theorem calls_recorded_error {ρ : Type} (R : Reader ρ) (b : BufReader ρ) (e : Error)
    (he : b.err = some e) (fuel : Nat) (cs : List ReaderCall) (b2 : BufReader ρ)
    (h : BufReader.calls R fuel b cs = some b2) : b2 = b := by
  induction cs with
  | nil =>
    unfold BufReader.calls at h
    exact (Option.some.inj h).symm
  | cons c cs ih =>
    unfold BufReader.calls at h
    have hc : b.call R fuel c = none ∨ b.call R fuel c = some b := by
      cases c with
      | fill => right; simp only [BufReader.call, (recorded_error_sticky R b e he 0 0 0 0).1]
      | Read k =>
        right; simp only [BufReader.call, (recorded_error_sticky R b e he k 0 0 0).2.1]
      | ReadByte =>
        right; simp only [BufReader.call, (recorded_error_sticky R b e he 0 0 0 0).2.2.1]
      | PeekByte =>
        right; simp only [BufReader.call, (recorded_error_sticky R b e he 0 0 0 0).2.2.2.1]
      | ReadSlice delim =>
        right
        simp only [BufReader.call, (recorded_error_sticky R b e he 0 0 0 delim).2.2.2.2.1,
          Option.map_some']
      | ReadBytes delim =>
        rcases ReadBytes_recorded_error R b e he delim fuel with h1 | h1
        · left; simp only [BufReader.call, h1, Option.map_none']
        · right; simp only [BufReader.call, h1, Option.map_some']
      | ReadFull n =>
        right
        simp only [BufReader.call, (recorded_error_sticky R b e he 0 n fuel 0).2.2.2.2.2.1,
          Option.map_some']
    rcases hc with hc | hc
    · rw [hc] at h; cases h
    · rw [hc] at h
      exact ih h

/-- C26: on a reader with no recorded error, when the read that a refill issues
on the source returns an error together with `n` bytes, whatever `n`, `fill`
returns and records that error and leaves `wpos` where the compaction has put
it, right after the bytes that were buffered unread, so that the `n` bytes just
received lie in `buf[wpos:wpos+n]`, beyond `wpos`; from then on `Read`, `ReadByte`, `PeekByte`, `ReadSlice` and `ReadFull`
return the error and no byte and change nothing, `ReadBytes` does so or does not
return, and every sequence of calls that returns leaves the reader, `rpos` and
`wpos` included, as the refill left it: neither the bytes received with the
error nor those buffered at that moment are ever delivered. -/
theorem refill_error_discards {ρ : Type} (R : Reader ρ) (b : BufReader ρ) (he : b.err = none)
    (e : Error) (hread : (b.refillRead R).2.2 = some e) :
    (b.fill R).1 = some e ∧ (b.fill R).2.err = some e ∧
    (b.fill R).2.rpos = b.compact.rpos ∧ (b.fill R).2.wpos = b.compact.wpos ∧
    (b.Ok → (b.fill R).2.rpos = 0 ∧ (b.fill R).2.wpos = b.wpos - b.rpos ∧
      subslice (b.fill R).2.buf 0 (b.fill R).2.wpos = subslice b.buf b.rpos b.wpos ∧
      ((b.refillRead R).2.1.length ≤ b.buf.length - (b.wpos - b.rpos) →
        subslice (b.fill R).2.buf (b.fill R).2.wpos
            ((b.fill R).2.wpos + (b.refillRead R).2.1.length)
          = (b.refillRead R).2.1)) ∧
    (∀ (k n fuel : Nat) (delim : Byte),
      (b.fill R).2.Read R k = (([], some e), (b.fill R).2) ∧
      (b.fill R).2.ReadByte R = ((0, some e), (b.fill R).2) ∧
      (b.fill R).2.PeekByte R = ((0, some e), (b.fill R).2) ∧
      (b.fill R).2.ReadSlice R delim = some ((none, some e), (b.fill R).2) ∧
      (b.fill R).2.ReadFull R fuel n = some ((none, some e), (b.fill R).2) ∧
      ((b.fill R).2.ReadBytes R fuel delim = none ∨
        (b.fill R).2.ReadBytes R fuel delim = some ((none, some e), (b.fill R).2))) ∧
    (∀ (fuel : Nat) (cs : List ReaderCall) (b2 : BufReader ρ),
      BufReader.calls R fuel (b.fill R).2 cs = some b2 → b2 = (b.fill R).2) := by
  obtain ⟨f1, f2, f3, f4, _, f6⟩ := fill_failed R b he e hread
  refine ⟨f1, f2, f3, f4, ?_, ?_, ?_⟩
  · intro hb
    obtain ⟨c1, c2, c3, c4, c5, _⟩ := compact_spec b hb
    have hcs := copyAt_subslice b.compact.buf b.compact.wpos (b.refillRead R).2.1 0
      (Nat.zero_le _) c1.2.1
    have hsp := subslice_split (copyAt b.compact.buf b.compact.wpos (b.refillRead R).2.1).1 0
      b.compact.wpos (b.compact.wpos + (copyAt b.compact.buf b.compact.wpos
        (b.refillRead R).2.1).2) (Nat.zero_le _) (Nat.le_add_right _ _)
    rw [hcs] at hsp
    have hlen1 : (subslice (copyAt b.compact.buf b.compact.wpos (b.refillRead R).2.1).1 0
        b.compact.wpos).length = (subslice b.compact.buf 0 b.compact.wpos).length := by
      rw [subslice_length, subslice_length,
        copyAt_length b.compact.buf b.compact.wpos _ c1.2.1]
    have hinj := List.append_inj hsp hlen1.symm
    refine ⟨by rw [f3, c3], by rw [f4, c4], ?_, ?_⟩
    · rw [f4, f6, ← c5, c3]
      exact hinj.1.symm
    · intro hroom
      have hcn : (copyAt b.compact.buf b.compact.wpos (b.refillRead R).2.1).2
          = (b.refillRead R).2.1.length := by
        rw [copyAt_snd, c2, c4]
        omega
      rw [hcn] at hinj
      rw [f4, f6, ← hinj.2, List.take_length]
  · intro k n fuel delim
    obtain ⟨_, s2, s3, s4, s5, s6, _⟩ := recorded_error_sticky R (b.fill R).2 e f2 k n fuel delim
    exact ⟨s2, s3, s4, s5, s6, ReadBytes_recorded_error R (b.fill R).2 e f2 delim fuel⟩
  · intro fuel cs b2 h
    exact calls_recorded_error R (b.fill R).2 e f2 fuel cs b2 h

/-- C26, at a concrete input: a reader of capacity 4 that holds `a` unread, over
a source that hands out `bc` together with `io.EOF`; after the refill the buffer
holds `abc` but `wpos` is 1, and `ReadByte` returns `io.EOF`. -/
theorem refill_error_discards_witness :
    (BufReader.fill eagerEOFReader
        { err := none, buf := [97, 0, 0, 0], rd := [98, 99], rpos := 0, wpos := 1,
          slice := { buf := [] } }).2
      = { err := some Error.EOF, buf := [97, 98, 99, 0], rd := [], rpos := 0, wpos := 1,
          slice := { buf := [] } } ∧
    BufReader.ReadByte eagerEOFReader
        (BufReader.fill eagerEOFReader
          { err := none, buf := [97, 0, 0, 0], rd := [98, 99], rpos := 0, wpos := 1,
            slice := { buf := [] } }).2
      = ((0, some Error.EOF),
          (BufReader.fill eagerEOFReader
            { err := none, buf := [97, 0, 0, 0], rd := [98, 99], rpos := 0, wpos := 1,
              slice := { buf := [] } }).2) :=
  ⟨rfl,
   ((refill_error_discards eagerEOFReader
      { err := none, buf := [97, 0, 0, 0], rd := [98, 99], rpos := 0, wpos := 1,
        slice := { buf := [] } } rfl Error.EOF rfl).2.2.2.2.2.1 0 0 0 0).2.1⟩

end protocol

namespace protocol

theorem readSliceLoop_no_error {ρ : Type} {R : Reader ρ} {rem : ρ → List Byte}
    (hS : Streams R rem) (hP : Progresses R rem) (delim : Byte) (fuel : Nat) :
    ∀ (b : BufReader ρ), b.Ok → b.err = none →
      b.buf.length ≤ (BufReader.unread rem b).length →
      ∀ out, BufReader.readSliceLoop R delim fuel b = some out →
        ∀ e, out.1 ≠ (none, some e) := by
  induction fuel with
  | zero =>
    intro b _ _ _ out h
    unfold BufReader.readSliceLoop at h
    cases h
  | succ fuel ih =>
    intro b hb he hlen out h e
    unfold BufReader.readSliceLoop at h
    cases hidx : IndexByte (subslice b.buf b.rpos b.wpos) delim with
    | some index =>
      rw [hidx] at h
      simp only at h
      rw [← Option.some.inj h]
      simp
    | none =>
      rw [hidx] at h
      simp only at h
      by_cases hfull : b.buffered = b.buf.length
      · rw [if_pos hfull] at h
        rw [← Option.some.inj h]
        simp
      · rw [if_neg hfull] at h
        obtain ⟨f1, f2, _, f4⟩ := fill_spec hS b hb he
        have hu := fill_unread hS b hb he
        have hlt : b.buffered < b.buf.length := by
          have := hb.2.1
          unfold BufReader.buffered at hfull ⊢
          omega
        have hrem : rem b.rd ≠ [] := by
          intro h0
          unfold BufReader.unread at hlen
          rw [h0, List.append_nil, subslice_length] at hlen
          unfold BufReader.buffered at hlt
          omega
        have hok := f4 hP hrem hlt
        rcases hfl : b.fill R with ⟨e1, b1⟩
        rw [hfl] at f1 f2 hu hok h
        simp only at f1 f2 hu hok h
        subst hok
        simp only at h
        obtain ⟨g1, g2, _⟩ := f2 rfl
        have hlen1 : b1.buf.length ≤ (BufReader.unread rem b1).length := by
          rw [f1, hu rfl]
          exact hlen
        exact ih b1 g1 g2 hlen1 out h e

/-- C21, the claim as stated fails: on a fresh reader of capacity 2 over an
exhausted source that reports `bufio.ErrBufferFull`, `ReadSlice` fails with
`bufio.ErrBufferFull` although the buffer holds no unread byte; it returns no
slice and the error is recorded. -/
theorem ReadSlice_BufferFull_from_source :
    BufReader.ReadSlice (failingReader 1 Error.ErrBufferFull)
        { err := none, buf := [0, 0], rd := [], rpos := 0, wpos := 0, slice := { buf := [] } }
        10
      = some ((none, some Error.ErrBufferFull),
          { err := some Error.ErrBufferFull, buf := [0, 0], rd := [], rpos := 0, wpos := 0,
            slice := { buf := [] } }) := by
  rfl

/-- C21, amended: on a usable reader with no recorded error, `ReadSlice(delim)`
returns, and it returns a slice together with an error only when the error is
`bufio.ErrBufferFull`; it does so when the buffer is full of unread bytes
without `delim` and, over a source that delivers its stream, exactly when the
next `len(buf)` bytes of the unread stream exist and hold no `delim`.  The slice
is then these `len(buf)` unread bytes, they are consumed (`rpos = wpos`) and no
error is recorded, so that the unread stream goes on with the byte that follows
them, which the next `ReadByte` returns.  An error returned without a slice is
recorded: it is `io.ErrNoProgress` or an error that the source has reported. -/
theorem ReadSlice_buffer_full {ρ : Type} (R : Reader ρ) (rem : ρ → List Byte)
    (hS : Streams R rem) (delim : Byte) (b : BufReader ρ) (hb : b.Ok) (he : b.err = none) :
    ∃ out, b.ReadSlice R delim = some out ∧
      (∀ sl e, out.1 = (some sl, some e) → e = Error.ErrBufferFull) ∧
      (∀ sl, out.1 = (some sl, some Error.ErrBufferFull) →
        sl.length = b.buf.length ∧ IndexByte sl delim = none ∧
        BufReader.unread rem b = sl ++ BufReader.unread rem out.2 ∧
        out.2.rpos = out.2.wpos ∧ out.2.err = none ∧ out.2.Ok ∧
        out.2.buf.length = b.buf.length) ∧
      (∀ e, out.1 = (none, some e) → out.2.err = some e ∧
        (e = Error.ErrNoProgress ∨ ∃ s k, (R.Read s k).2.2 = some e)) ∧
      (b.buffered = b.buf.length → IndexByte b.buf delim = none →
        out = ((some b.buf, some Error.ErrBufferFull), { b with rpos := b.wpos })) ∧
      (Progresses R rem →
        ((∃ sl, out.1 = (some sl, some Error.ErrBufferFull)) ↔
          (b.buf.length ≤ (BufReader.unread rem b).length ∧
            IndexByte ((BufReader.unread rem b).take b.buf.length) delim = none))) ∧
      (Progresses R rem → ∀ sl, out.1 = (some sl, some Error.ErrBufferFull) →
        ∀ c rest, BufReader.unread rem out.2 = c :: rest →
          (out.2.ReadByte R).1 = (c, none)) := by
  obtain ⟨out, o1, ⟨o2, o3⟩, _⟩ := ReadSlice_spec hS delim b hb he
  have hfullfacts : ∀ sl, out.1 = (some sl, some Error.ErrBufferFull) →
      sl.length = b.buf.length ∧ IndexByte sl delim = none ∧
      BufReader.unread rem b = sl ++ BufReader.unread rem out.2 ∧
      out.2.rpos = out.2.wpos ∧ out.2.err = none ∧ out.2.Ok ∧
      out.2.buf.length = b.buf.length := by
    intro sl h
    rcases o3 with ⟨sl1, p1, _⟩ | ⟨sl1, p1, p2, p3, p4, p5, p6, p7⟩ | ⟨e, p1, _⟩
    · rw [p1] at h; simp at h
    · rw [p1] at h
      simp only [Prod.mk.injEq, Option.some.injEq, and_true] at h
      subst h
      exact ⟨p2, p3, p4, p7, p6, p5, o2⟩
    · rw [p1] at h; simp at h
  refine ⟨out, o1, ?_, hfullfacts, ?_, ?_, ?_, ?_⟩
  · intro sl e h
    rcases o3 with ⟨sl1, p1, _⟩ | ⟨sl1, p1, _⟩ | ⟨e1, p1, _⟩
    · rw [p1] at h; simp at h
    · rw [p1] at h
      simp only [Prod.mk.injEq, Option.some.injEq] at h
      exact h.2.symm
    · rw [p1] at h; simp at h
  · intro e h
    rcases o3 with ⟨sl1, p1, _⟩ | ⟨sl1, p1, _⟩ | ⟨e1, p1, p2, p3⟩
    · rw [p1] at h; simp at h
    · rw [p1] at h; simp at h
    · rw [p1] at h
      simp only [Prod.mk.injEq, Option.some.injEq, true_and] at h
      subst h
      exact ⟨p2, p3⟩
  · intro hfull hidx
    have hr : b.rpos = 0 := by
      have := hb.2.1; have := hb.1
      unfold BufReader.buffered at hfull
      omega
    have hwp : b.wpos = b.buf.length := by
      have := hb.2.1; have := hb.1
      unfold BufReader.buffered at hfull
      omega
    have hsub : subslice b.buf b.rpos b.wpos = b.buf := by
      rw [hr, hwp, subslice_full]
    have hrun : b.ReadSlice R delim
        = some ((some b.buf, some Error.ErrBufferFull), { b with rpos := b.wpos }) := by
      unfold BufReader.ReadSlice
      rw [he]
      simp only
      unfold BufReader.readSliceLoop
      rw [hsub, hidx]
      simp only
      rw [if_pos hfull, he]
    rw [o1] at hrun
    exact Option.some.inj hrun
  · intro hP
    constructor
    · rintro ⟨sl, h⟩
      obtain ⟨q1, q2, q3, _⟩ := hfullfacts sl h
      rw [q3]
      refine ⟨by rw [List.length_append]; omega, ?_⟩
      rw [← q1, List.take_left']
      · exact q2
      · rfl
    · rintro ⟨hlen, hidx⟩
      have hne : ∀ e, out.1 ≠ (none, some e) := by
        have hloop : BufReader.readSliceLoop R delim (b.buf.length + 1) b = some out := by
          have := o1
          unfold BufReader.ReadSlice at this
          rw [he] at this
          exact this
        exact readSliceLoop_no_error hS hP delim (b.buf.length + 1) b hb he hlen out hloop
      rcases o3 with ⟨sl1, p1, p2, p3, p4, _, p6, _⟩ | ⟨sl1, p1, _⟩ | ⟨e1, p1, _⟩
      · exfalso
        have hsl : sl1.length ≤ b.buf.length := by
          have := p4.1; have := p4.2.1
          omega
        rw [p3, List.take_append_eq_append_take, List.take_of_length_le hsl,
          IndexByte_append_some _ p2] at hidx
        cases hidx
      · exact ⟨sl1, p1⟩
      · exact absurd p1 (hne e1)
  · intro hP sl h c rest hu
    obtain ⟨_, _, _, _, q5, q6, _⟩ := hfullfacts sl h
    exact (ReadByte_next hS hP out.2 q6 q5 c rest hu).1

/-- C21 amended, at a concrete input: a reader of capacity 2 whose buffer is full
of the unread bytes `ab`, over a `strings.Reader` that holds `c` and a line
feed; the delimiter is the line feed. -/
theorem ReadSlice_buffer_full_witness :
    ∃ out, BufReader.ReadSlice stringsReader
        ({ err := none, buf := [97, 98], rd := [99, 10], rpos := 0, wpos := 2,
           slice := { buf := [] } } : BufReader (List Byte)) 10 = some out ∧
      out = ((some [97, 98], some Error.ErrBufferFull),
        { err := none, buf := [97, 98], rd := [99, 10], rpos := 2, wpos := 2,
          slice := { buf := [] } }) ∧
      (out.2.ReadByte stringsReader).1 = (99, none) := by
  obtain ⟨out, h1, _, _, _, h5, _, h7⟩ := ReadSlice_buffer_full stringsReader id
    stringsReader_streams 10
    ({ err := none, buf := [97, 98], rd := [99, 10], rpos := 0, wpos := 2,
       slice := { buf := [] } } : BufReader (List Byte))
    ⟨by decide, by decide, by decide⟩ rfl
  have hout := h5 rfl rfl
  refine ⟨out, h1, hout, ?_⟩
  subst hout
  rfl

end protocol

namespace protocol

theorem eagerEOFReader_streams : Streams eagerEOFReader id := by
  intro s k
  unfold eagerEOFReader
  by_cases h : s.length ≤ k
  · simp only [if_pos h, id]
    exact ⟨h, (List.append_nil s).symm⟩
  · simp only [if_neg h, id]
    refine ⟨?_, (List.take_append_drop k s).symm⟩
    rw [List.length_take]
    omega

theorem eagerEOFReader_delivers (s : List Byte) (k : Nat) (hk : 0 < k) (hs : s ≠ []) :
    (eagerEOFReader.Read s k).2.1 ≠ [] := by
  unfold eagerEOFReader
  by_cases h : s.length ≤ k
  · simp only [if_pos h]
    exact hs
  · simp only [if_neg h]
    intro h0
    have := congrArg List.length h0
    rw [List.length_take] at this
    simp only [List.length_nil] at this
    omega

/-- C6, where the code departs from the claim: over a source that hands out the
payload `hey` front-first, at least one byte at each read, and reports `io.EOF`
together with the last fragment, the third of three `ReadByte` calls on a fresh
reader of capacity 2 fails with `io.EOF`: `fill` has recorded the error and has
left `wpos` at 0, although the byte `y` lies in `buf[0]` and the source holds
nothing more.  The direct read of `Read` on the same source hands the byte `y`
to its caller together with `io.EOF`. -/
theorem ReadByte_loses_fragment_sent_with_EOF :
    Streams eagerEOFReader id ∧
    (∀ (s : List Byte) (k : Nat), 0 < k → s ≠ [] → (eagerEOFReader.Read s k).2.1 ≠ []) ∧
    eagerEOFReader.Read [104, 101, 121] 2 = ([121], [104, 101], none) ∧
    eagerEOFReader.Read [121] 2 = ([], [121], some Error.EOF) ∧
    BufReader.readByteTimes eagerEOFReader 3
        { err := none, buf := [0, 0], rd := [104, 101, 121], rpos := 0, wpos := 0,
          slice := { buf := [] } }
      = ([(104, none), (101, none), (0, some Error.EOF)],
          { err := some Error.EOF, buf := [121, 101], rd := [], rpos := 0, wpos := 0,
            slice := { buf := [] } }) ∧
    BufReader.Read eagerEOFReader
        { err := none, buf := [0], rd := [121], rpos := 0, wpos := 0, slice := { buf := [] } } 1
      = (([121], some Error.EOF),
          { err := some Error.EOF, buf := [0], rd := [], rpos := 0, wpos := 0,
            slice := { buf := [] } }) :=
  ⟨eagerEOFReader_streams, eagerEOFReader_delivers, rfl, rfl, rfl, rfl⟩

/-- C7, where the code departs from the claim: over a source that holds the
record `ab` and a line feed, hands out at least one byte at each read and
reports `io.EOF` together with the last fragment, `ReadBytes` with the line feed
as delimiter on a fresh reader of capacity 4 returns no record and `io.EOF`,
whatever the fuel: `fill` has recorded the error and has left `wpos` at 0,
although the whole record lies in the buffer.  Over a `strings.Reader` that
holds the same stream and reports `io.EOF` after the last byte only, `ReadBytes`
returns the record. -/
theorem ReadBytes_loses_record_sent_with_EOF :
    Streams eagerEOFReader id ∧
    (∀ (s : List Byte) (k : Nat), 0 < k → s ≠ [] → (eagerEOFReader.Read s k).2.1 ≠ []) ∧
    IndexByte [97, 98, 10] 10 = some 2 ∧
    eagerEOFReader.Read [97, 98, 10] 4 = ([], [97, 98, 10], some Error.EOF) ∧
    (∀ fuel, BufReader.ReadBytes eagerEOFReader (fuel + 1)
        { err := none, buf := [0, 0, 0, 0], rd := [97, 98, 10], rpos := 0, wpos := 0,
          slice := { buf := [] } } 10
      = some ((none, some Error.EOF),
          { err := some Error.EOF, buf := [97, 98, 10, 0], rd := [], rpos := 0, wpos := 0,
            slice := { buf := [] } })) ∧
    (BufReader.ReadBytes stringsReader 1
        { err := none, buf := [0, 0, 0, 0], rd := [97, 98, 10], rpos := 0, wpos := 0,
          slice := { buf := [] } } 10).map (fun out => out.1)
      = some (some [97, 98, 10], none) := by
  refine ⟨eagerEOFReader_streams, eagerEOFReader_delivers, rfl, rfl, fun fuel => rfl, ?_⟩
  decide

end protocol

namespace protocol

theorem Make_step (d : storage.sliceAlloc) (hd : d.Ok) (n : Nat) :
    (d.Make n).2.Ok ∧ (d.Make n).1.len = n ∧ (d.Make n).1.cap = n ∧
    (d.Make n).2.Avail ≤ d.Avail ∧
    (0 < n → d.Avail (d.Make n).1) ∧
    (0 < n → ∀ t, (d.Make n).2.Avail t → 0 < t.cap → (d.Make n).1.Disjoint t) := by
  obtain ⟨h1, h2⟩ := hd
  unfold storage.sliceAlloc.Make
  by_cases c0 : n = 0
  · rw [if_pos c0]
    refine ⟨⟨h1, h2⟩, c0.symm, c0.symm, fun t ht => ht, fun h => by omega, fun h => by omega⟩
  · rw [if_neg c0]
    by_cases c1 : n ≥ 512
    · rw [if_pos c1]
      refine ⟨⟨?_, h2⟩, rfl, rfl, ?_, ?_, ?_⟩
      · simp only
        omega
      · intro t ht
        unfold storage.sliceAlloc.Avail at ht ⊢
        simp only at ht
        omega
      · intro _
        unfold storage.sliceAlloc.Avail
        simp only
        omega
      · intro _ t ht htc
        unfold storage.sliceAlloc.Avail at ht
        unfold storage.Slice.Disjoint
        simp only at ht ⊢
        omega
    · rw [if_neg c1]
      by_cases c2 : d.buf.len < n
      · simp only [if_pos c2]
        refine ⟨⟨?_, rfl⟩, trivial, trivial, ?_, ?_, ?_⟩
        · simp only
          omega
        · intro t ht
          unfold storage.sliceAlloc.Avail at ht ⊢
          simp only at ht
          omega
        · intro _
          unfold storage.sliceAlloc.Avail
          simp only
          omega
        · intro _ t ht htc
          unfold storage.sliceAlloc.Avail at ht
          unfold storage.Slice.Disjoint
          simp only at ht ⊢
          omega
      · simp only [if_neg c2]
        refine ⟨⟨?_, ?_⟩, trivial, trivial, ?_, ?_, ?_⟩
        · simp only
          omega
        · simp only
          omega
        · intro t ht
          unfold storage.sliceAlloc.Avail at ht ⊢
          simp only at ht
          omega
        · intro _
          unfold storage.sliceAlloc.Avail
          right
          refine ⟨rfl, Nat.le_refl _, ?_⟩
          show d.buf.off + n ≤ d.buf.off + d.buf.len
          omega
        · intro _ t ht htc
          unfold storage.sliceAlloc.Avail at ht
          unfold storage.Slice.Disjoint
          simp only at ht ⊢
          omega

theorem Makes_avail (ns : List Nat) : ∀ (d : storage.sliceAlloc), d.Ok →
    (d.Makes ns).2.Ok ∧ (d.Makes ns).1.map (fun s => s.len) = ns ∧
    (∀ t, t ∈ (d.Makes ns).1 → t.cap = t.len ∧ (0 < t.len → d.Avail t)) := by
  induction ns with
  | nil =>
    intro d hd
    refine ⟨hd, rfl, ?_⟩
    intro t ht
    cases ht
  | cons n ns ih =>
    intro d hd
    obtain ⟨s1, s2, s3, s4, s5, _⟩ := Make_step d hd n
    obtain ⟨i1, i2, i3⟩ := ih (d.Make n).2 s1
    unfold storage.sliceAlloc.Makes
    refine ⟨i1, ?_, ?_⟩
    · simp only [List.map_cons, s2, i2]
    · intro t ht
      rcases List.mem_cons.mp ht with h | h
      · subst h
        exact ⟨by rw [s2, s3], fun hlen => s5 (by omega)⟩
      · exact ⟨(i3 t h).1, fun hlen => s4 t ((i3 t h).2 hlen)⟩

theorem Makes_pairwise (ns : List Nat) : ∀ (d : storage.sliceAlloc), d.Ok →
    List.Pairwise (fun s t => 0 < s.len → 0 < t.len → s.Disjoint t) (d.Makes ns).1 := by
  induction ns with
  | nil =>
    intro d _
    exact List.Pairwise.nil
  | cons n ns ih =>
    intro d hd
    obtain ⟨s1, s2, _, _, _, s6⟩ := Make_step d hd n
    obtain ⟨_, _, i3⟩ := Makes_avail ns (d.Make n).2 s1
    unfold storage.sliceAlloc.Makes
    refine List.Pairwise.cons ?_ (ih (d.Make n).2 s1)
    intro t ht hs hlen
    have hn : 0 < n := by omega
    exact s6 hn t ((i3 t ht).2 hlen) (by rw [(i3 t ht).1]; exact hlen)

/-- C23: from a `sliceAlloc` in use (the zero value in particular), every
sequence of calls of `Make` with sizes `ns` hands out slices whose lengths are
`ns` in order, whose capacities are their lengths, and of which any two that
are not empty share no storage.  A call with `n = 0` returns an empty slice and
changes nothing; a call with `n ≥ 512` returns the whole of a new allocation
and leaves the chunk as it was; a call with `0 < n < 512` returns the first `n`
bytes of the chunk and leaves the chunk `n` bytes shorter at its front, the
chunk being first replaced by a new allocation of 8192 bytes when it has fewer
than `n` bytes.  The lengths are those of the slices and of the chunk in the
embedding of `Make` that `BufReader` uses. -/
theorem Make_slices_disjoint (d : storage.sliceAlloc) (hd : d.Ok) (ns : List Nat) :
    (d.Makes ns).1.map (fun s => s.len) = ns ∧
    (∀ s, s ∈ (d.Makes ns).1 → s.cap = s.len) ∧
    List.Pairwise (fun s t => 0 < s.len → 0 < t.len → s.Disjoint t) (d.Makes ns).1 ∧
    (d.Makes ns).2.Ok ∧
    (∀ (d0 : storage.sliceAlloc) (n : Nat),
      (n = 0 → d0.Make n = ({ alloc := 0, off := 0, len := 0, cap := 0 }, d0)) ∧
      (512 ≤ n → d0.Make n
        = ({ alloc := d0.made, off := 0, len := n, cap := n },
           { buf := d0.buf, made := d0.made + 1 })) ∧
      (0 < n → n < 512 → n ≤ d0.buf.len → d0.Make n
        = ({ alloc := d0.buf.alloc, off := d0.buf.off, len := n, cap := n },
           { buf := { alloc := d0.buf.alloc, off := d0.buf.off + n, len := d0.buf.len - n,
                      cap := d0.buf.cap - n },
             made := d0.made })) ∧
      (0 < n → n < 512 → d0.buf.len < n → d0.Make n
        = ({ alloc := d0.made, off := 0, len := n, cap := n },
           { buf := { alloc := d0.made, off := n, len := 8192 - n, cap := 8192 - n },
             made := d0.made + 1 })) ∧
      (∀ v : sliceAlloc, v.buf.length = d0.buf.len →
        (v.Make n).1.length = (d0.Make n).1.len ∧
        (v.Make n).2.buf.length = (d0.Make n).2.buf.len)) := by
  obtain ⟨a1, a2, a3⟩ := Makes_avail ns d hd
  refine ⟨a2, fun s hs => (a3 s hs).1, Makes_pairwise ns d hd, a1, ?_⟩
  intro d0 n
  refine ⟨?_, ?_, ?_, ?_, ?_⟩
  · intro h0
    unfold storage.sliceAlloc.Make
    rw [if_pos h0]
  · intro h512
    have c0 : ¬ (n = 0) := by omega
    have c1 : n ≥ 512 := h512
    unfold storage.sliceAlloc.Make
    rw [if_neg c0, if_pos c1]
  · intro h0 h512 hfit
    have c0 : ¬ (n = 0) := by omega
    have c1 : ¬ (n ≥ 512) := by omega
    have c2 : ¬ (d0.buf.len < n) := by omega
    unfold storage.sliceAlloc.Make
    simp only [if_neg c0, if_neg c1, if_neg c2]
  · intro h0 h512 hshort
    have c0 : ¬ (n = 0) := by omega
    have c1 : ¬ (n ≥ 512) := by omega
    unfold storage.sliceAlloc.Make
    simp only [if_neg c0, if_neg c1, if_pos hshort, Nat.zero_add]
  · intro v hv
    unfold storage.sliceAlloc.Make sliceAlloc.Make
    by_cases c0 : n = 0
    · simp only [if_pos c0, List.length_nil]
      exact ⟨trivial, hv⟩
    · by_cases c1 : n ≥ 512
      · simp only [if_neg c0, if_pos c1, List.length_replicate]
        exact ⟨trivial, hv⟩
      · by_cases c2 : d0.buf.len < n
        · have c3 : v.buf.length < n := by omega
          simp only [if_neg c0, if_neg c1, if_pos c2, if_pos c3, List.length_take,
            List.length_drop, List.length_replicate]
          constructor <;> first | trivial | omega
        · have c3 : ¬ (v.buf.length < n) := by omega
          simp only [if_neg c0, if_neg c1, if_neg c2, if_neg c3, List.length_take,
            List.length_drop]
          constructor <;> first | trivial | omega

/-- C23, at a concrete input: the zero value of `sliceAlloc`, asked for 500, 0,
600 and 300 bytes: the first and the last slice lie in one chunk of 8192 bytes,
one after the other, and the third is an allocation of its own. -/
theorem Make_slices_disjoint_witness :
    (storage.sliceAlloc.Makes { buf := { alloc := 0, off := 0, len := 0, cap := 0 }, made := 0 }
        [500, 0, 600, 300]).1
      = [{ alloc := 0, off := 0, len := 500, cap := 500 },
         { alloc := 0, off := 0, len := 0, cap := 0 },
         { alloc := 1, off := 0, len := 600, cap := 600 },
         { alloc := 0, off := 500, len := 300, cap := 300 }] ∧
    List.Pairwise (fun s t => 0 < s.len → 0 < t.len → s.Disjoint t)
      (storage.sliceAlloc.Makes
        { buf := { alloc := 0, off := 0, len := 0, cap := 0 }, made := 0 }
        [500, 0, 600, 300]).1 :=
  ⟨rfl,
   (Make_slices_disjoint { buf := { alloc := 0, off := 0, len := 0, cap := 0 }, made := 0 }
      ⟨Or.inl rfl, rfl⟩ [500, 0, 600, 300]).2.2.1⟩

end protocol

/-! ## Round trip through the decoder of the specification -/

namespace resp

open protocol

theorem IndexByte_none_of_ne {ds : List Byte} {c : Byte} (h : ∀ d ∈ ds, d ≠ c) :
    IndexByte ds c = none := by
  induction ds with
  | nil => rfl
  | cons x xs ih =>
    rw [IndexByte_cons, if_neg (h x (List.mem_cons_self _ _)),
      ih (fun d hd => h d (List.mem_cons_of_mem _ hd))]
    rfl

theorem getD_append_cons (l : List Byte) (x : Byte) (m : List Byte) :
    (l ++ x :: m).getD l.length 0 = x := by
  induction l with
  | nil => rfl
  | cons y ys ih => simpa using ih

theorem drop_append_two (l : List Byte) (x y : Byte) (m : List Byte) :
    (l ++ x :: y :: m).drop (l.length + 2) = m := by
  induction l with
  | nil => rfl
  | cons z zs _ => simp

theorem decodeText_line (text rest : List Byte) (h : IndexByte text 10 = none) :
    decodeText (text ++ CRLF ++ rest) = Except.ok (text, rest) := by
  have hidx : IndexByte (text ++ CRLF ++ rest) 10 = some (text.length + 1) := by
    rw [List.append_assoc, IndexByte_append_none _ h]
    simp [CRLF, IndexByte_cons, Nat.add_comm]
  unfold decodeText
  rw [hidx]
  simp only [Nat.add_sub_cancel]
  have hget : (text ++ CRLF ++ rest).getD text.length 0 = 13 := by
    rw [List.append_assoc]
    exact getD_append_cons text 13 (10 :: rest)
  rw [if_pos ⟨by omega, hget⟩]
  have h1 : (text ++ CRLF ++ rest).take text.length = text := by
    rw [List.append_assoc, List.take_left]
  have h2 : (text ++ CRLF ++ rest).drop (text.length + 1 + 1) = rest := by
    rw [List.append_assoc]
    exact drop_append_two text 13 10 rest
  rw [h1, h2]

theorem parseInt_FormatInt (n : Nat) :
    parseInt (FormatInt (n : Int)) = some (n : Int) ∧
      IndexByte (FormatInt (n : Int)) 10 = none := by
  obtain ⟨e2, e3, e4⟩ := FormatUint_spec n
  rw [FormatInt_natCast]
  have hall : (FormatUint n).all (fun d => decide (48 ≤ d ∧ d ≤ 57)) = true := by
    rw [List.all_eq_true]
    intro d hd
    exact decide_eq_true (e3 d hd)
  have hp : parseNat (FormatUint n) = some n := by
    unfold parseNat
    rw [if_pos ⟨e2, hall⟩, e4]
  refine ⟨?_, IndexByte_none_of_ne (fun d hd => by
    have := e3 d hd
    intro h
    rw [h] at this
    exact absurd this.1 (by decide))⟩
  cases hds : FormatUint n with
  | nil => exact absurd hds e2
  | cons x xs =>
    have hx : (x : Nat) ≠ 45 := by
      have := e3 x (by rw [hds]; exact List.mem_cons_self _ _)
      intro h
      rw [h] at this
      exact absurd this.1 (by decide)
    rw [hds] at hp
    unfold parseInt
    split
    · rename_i heq
      simp only [List.cons.injEq] at heq
      exact absurd heq.1 hx
    · rw [hp]; rfl

theorem decodeLength_count (n : Nat) (rest : List Byte) :
    decodeLength (FormatInt (n : Int) ++ CRLF ++ rest) = Except.ok (some n, rest) := by
  obtain ⟨h1, h2⟩ := parseInt_FormatInt n
  unfold decodeLength
  rw [decodeText_line _ _ h2]
  simp only [h1]
  have hne : ¬ ((n : Int) = -1) := by omega
  have hneg : ¬ ((n : Int) < 0) := by omega
  rw [if_neg hne, if_neg hneg]
  simp

theorem decodeLength_null (rest : List Byte) :
    decodeLength (FormatInt (-1) ++ CRLF ++ rest) = Except.ok (none, rest) := by
  have h2 : IndexByte (FormatInt (-1)) 10 = none := by decide
  have h1 : parseInt (FormatInt (-1)) = some (-1) := by decide
  unfold decodeLength
  rw [decodeText_line _ _ h2]
  simp only [h1, if_true]

theorem decodeBulkBytes_some (b rest : List Byte) :
    decodeBulkBytes (FormatInt (b.length : Int) ++ CRLF ++ (b ++ CRLF) ++ rest)
      = Except.ok (some b, rest) := by
  unfold decodeBulkBytes
  rw [List.append_assoc, decodeLength_count]
  simp only
  have hlen : ¬ (b ++ CRLF ++ rest).length < b.length + 2 := by
    simp [CRLF]
  rw [if_neg hlen]
  have h1 : ((b ++ CRLF ++ rest).drop b.length).take 2 = CRLF := by
    rw [List.append_assoc, List.drop_left]
    simp [CRLF]
  rw [if_pos h1]
  have h2 : (b ++ CRLF ++ rest).take b.length = b := by
    rw [List.append_assoc, List.take_left]
  have h3 : (b ++ CRLF ++ rest).drop (b.length + 2) = rest := by
    have : b.length + 2 = (b ++ CRLF).length := by simp [CRLF]
    rw [this, List.drop_left]
  rw [h2, h3]

theorem wellFormed_text {t : Byte} {v : Option (List Byte)} {a : Option (List Resp)}
    (c : t = TypeString ∨ t = TypeError ∨ t = TypeInt) (h : wellFormed (Resp.mk t v a) = true) :
    ∃ text, v = some text ∧ a = none := by
  rcases c with rfl | rfl | rfl <;> cases v <;> cases a <;>
    simp [wellFormed, TypeString, TypeError, TypeInt] at h ⊢

theorem wellFormed_bulk {v : Option (List Byte)} {a : Option (List Resp)}
    (h : wellFormed (Resp.mk TypeBulkBytes v a) = true) : a = none := by
  cases a <;> simp [wellFormed, TypeString, TypeError, TypeInt, TypeBulkBytes] at h ⊢

theorem wellFormed_array {v : Option (List Byte)} {a : Option (List Resp)}
    (h : wellFormed (Resp.mk TypeArray v a) = true) :
    v = none ∧ ∀ l, a = some l → wellFormedAll l = true := by
  cases v <;> cases a <;>
    simp [wellFormed, TypeString, TypeError, TypeInt, TypeBulkBytes, TypeArray] at h ⊢
  exact h

theorem wellFormed_kind {t : Byte} {v : Option (List Byte)} {a : Option (List Resp)}
    (h : wellFormed (Resp.mk t v a) = true) :
    t = TypeString ∨ t = TypeError ∨ t = TypeInt ∨ t = TypeBulkBytes ∨ t = TypeArray := by
  by_contra hn
  simp only [not_or] at hn
  obtain ⟨n1, n2, n3, n4, n5⟩ := hn
  unfold wellFormed at h
  have n12 : ¬ (t = TypeString ∨ t = TypeError) := by
    intro h0; rcases h0 with h0 | h0
    · exact n1 h0
    · exact n2 h0
  rw [if_neg n12, if_neg n3, if_neg n4, if_neg n5] at h
  cases h

mutual
theorem decodeResp_wire :
    ∀ (r : Resp) (w rest : List Byte) (fuel : Nat), wellFormed r = true → lineSafe r = true →
      wireFormat r = Except.ok w → w.length < fuel →
      decodeResp fuel (w ++ rest) = Except.ok (r, rest)
  | .mk t v a, w, rest, fuel, hwf, hls, hw, hf => by
    cases fuel with
    | zero => omega
    | succ f =>
      unfold wireFormat at hw
      unfold lineSafe at hls
      by_cases c1 : t = TypeString ∨ t = TypeError ∨ t = TypeInt
      · obtain ⟨text, hv, ha⟩ := wellFormed_text c1 hwf
        subst hv ha
        rw [if_pos c1] at hw hls
        have hw2 := Except.ok.inj hw
        subst hw2
        simp only [Option.getD_some, Bool.and_true, Option.isNone_iff_eq_none] at hls
        simp only [Option.getD_some]
        rw [List.cons_append, decodeResp, if_pos c1, decodeText_line _ _ hls]
      · rw [if_neg c1] at hw
        by_cases c2 : t = TypeBulkBytes
        · subst c2
          have ha := wellFormed_bulk hwf
          subst ha
          rw [if_pos rfl] at hw
          cases v with
          | none =>
            have hw2 := Except.ok.inj hw
            subst hw2
            rw [List.cons_append, decodeResp, if_neg c1, if_pos rfl,
              decodeBulkBytes, decodeLength_null]
          | some b =>
            have hw2 := Except.ok.inj hw
            subst hw2
            rw [List.cons_append, decodeResp, if_neg c1, if_pos rfl, decodeBulkBytes_some]
        · rw [if_neg c2] at hw
          by_cases c3 : t = TypeArray
          · subst c3
            obtain ⟨hv, hall⟩ := wellFormed_array hwf
            subst hv
            rw [if_pos rfl] at hw
            cases a with
            | none =>
              have hw2 := Except.ok.inj hw
              subst hw2
              rw [List.cons_append, decodeResp, if_neg c1, if_neg c2,
                if_pos rfl, decodeLength_null]
            | some l =>
              simp only at hw
              cases hws : wireFormats l with
              | error e => rw [hws] at hw; cases hw
              | ok ws =>
                rw [hws] at hw
                have hw2 := Except.ok.inj hw
                subst hw2
                have hls2 : lineSafeAll l = true := by
                  simp only [Bool.and_eq_true] at hls
                  exact hls.2
                have hlen : ws.length < f := by
                  simp only [List.length_cons, List.length_append] at hf
                  omega
                have hitems := decodeItems_wire l ws rest f (hall l rfl) hls2 hws hlen
                rw [List.cons_append, List.append_assoc, decodeResp, if_neg c1, if_neg c2,
                  if_pos rfl, decodeLength_count]
                simp only [hitems]
          · exfalso
            rcases wellFormed_kind hwf with h | h | h | h | h
            · exact c1 (Or.inl h)
            · exact c1 (Or.inr (Or.inl h))
            · exact c1 (Or.inr (Or.inr h))
            · exact c2 h
            · exact c3 h
theorem decodeItems_wire :
    ∀ (l : List Resp) (w rest : List Byte) (fuel : Nat), wellFormedAll l = true →
      lineSafeAll l = true → wireFormats l = Except.ok w → w.length < fuel →
      decodeItems (decodeResp fuel) l.length (w ++ rest) = Except.ok (l, rest)
  | [], w, rest, fuel, _, _, hw, _ => by
    unfold wireFormats at hw
    have hw2 := Except.ok.inj hw
    subst hw2
    rfl
  | r :: rs, w, rest, fuel, hwf, hls, hw, hf => by
    unfold wireFormats at hw
    unfold wellFormedAll at hwf
    unfold lineSafeAll at hls
    simp only [Bool.and_eq_true] at hwf hls
    cases hwr : wireFormat r with
    | error e => rw [hwr] at hw; cases hw
    | ok b =>
      rw [hwr] at hw
      simp only at hw
      cases hws : wireFormats rs with
      | error e => rw [hws] at hw; cases hw
      | ok bs =>
        rw [hws] at hw
        have hw2 := Except.ok.inj hw
        subst hw2
        simp only [List.length_append] at hf
        have h1 := decodeResp_wire r b (bs ++ rest) fuel hwf.1 hls.1 hwr (by omega)
        have h2 := decodeItems_wire rs bs rest fuel hwf.2 hls.2 hws (by omega)
        rw [List.length_cons, decodeItems, List.append_assoc, h1]
        simp only [h2]
end

mutual
theorem wireFormat_ok :
    ∀ (r : Resp), wellFormed r = true → ∃ w, wireFormat r = Except.ok w ∧ w.head? = some r.Typ
  | .mk t v a, hwf => by
    unfold wireFormat
    by_cases c1 : t = TypeString ∨ t = TypeError ∨ t = TypeInt
    · rw [if_pos c1]; exact ⟨_, rfl, rfl⟩
    · rw [if_neg c1]
      by_cases c2 : t = TypeBulkBytes
      · rw [if_pos c2]
        cases v with
        | none => exact ⟨_, rfl, rfl⟩
        | some b => exact ⟨_, rfl, rfl⟩
      · rw [if_neg c2]
        by_cases c3 : t = TypeArray
        · subst c3
          rw [if_pos rfl]
          cases a with
          | none => exact ⟨_, rfl, rfl⟩
          | some l =>
            have hall := (wellFormed_array hwf).2 l rfl
            obtain ⟨ws, hws⟩ := wireFormats_ok l hall
            simp only [hws]
            exact ⟨_, rfl, rfl⟩
        · exfalso
          rcases wellFormed_kind hwf with h | h | h | h | h
          · exact c1 (Or.inl h)
          · exact c1 (Or.inr (Or.inl h))
          · exact c1 (Or.inr (Or.inr h))
          · exact c2 h
          · exact c3 h
theorem wireFormats_ok :
    ∀ (l : List Resp), wellFormedAll l = true → ∃ ws, wireFormats l = Except.ok ws
  | [], _ => ⟨[], rfl⟩
  | r :: rs, hwf => by
    unfold wellFormedAll at hwf
    simp only [Bool.and_eq_true] at hwf
    obtain ⟨w, hw, _⟩ := wireFormat_ok r hwf.1
    obtain ⟨ws, hws⟩ := wireFormats_ok rs hwf.2
    exact ⟨w ++ ws, by simp only [wireFormats, hw, hws]⟩
end

/-- C4, the claim as stated fails: the simple string whose text is `a`, CR, LF,
`b` satisfies the invariant of the data model, `EncodeToBytes` writes it as
`+a\r\nb\r\n`, and decoding these bytes yields the simple string `a`, a
different value. -/
theorem roundtrip_fails_on_line_feed :
    wellFormed (NewString (some [97, 13, 10, 98])) = true ∧
    EncodeToBytes 3 (NewString (some [97, 13, 10, 98]))
      = some (Except.ok [43, 97, 13, 10, 98, 13, 10]) ∧
    DecodeFromBytes [43, 97, 13, 10, 98, 13, 10] = Except.ok (NewString (some [97])) ∧
    NewString (some [97]) ≠ NewString (some [97, 13, 10, 98]) := by
  refine ⟨by decide, ?_, by rfl, ?_⟩
  · rw [EncodeToBytes_eq 3 (by omega)]
    rfl
  · intro h
    simp [NewString] at h

/-- C4, amended: for every well-formed value in which no simple string, error
or integer holds a line feed in its text, `EncodeToBytes` succeeds and the
one-shot decoding of its result succeeds and returns the value itself, so that
the null and the empty bulk string, and the null and the empty array, stay
apart. -/
theorem roundtrip_line_safe (r : Resp) (fuel : Nat) (hwf : wellFormed r = true)
    (hls : lineSafe r = true) :
    ∃ w, EncodeToBytes (fuel + 3) r = some (Except.ok w) ∧ DecodeFromBytes w = Except.ok r := by
  obtain ⟨w, hw, hhead⟩ := wireFormat_ok r hwf
  refine ⟨w, by rw [EncodeToBytes_eq _ (by omega), hw], ?_⟩
  have hdec := decodeResp_wire r w [] (w.length + 1) hwf hls hw (by omega)
  rw [List.append_nil] at hdec
  cases r with
  | mk t v a =>
    have hk := wellFormed_kind hwf
    cases w with
    | nil => simp at hhead
    | cons x xs =>
      simp only [List.head?_cons, Option.some.injEq, Resp.Typ] at hhead
      subst hhead
      unfold DecodeFromBytes
      simp only [hk, if_true, hdec]

/-- C4 amended, at a concrete input: the array of the null bulk string, the
empty bulk string, the null array, the empty array and the integer `-7`. -/
theorem roundtrip_line_safe_witness :
    ∃ w, EncodeToBytes (0 + 3) (NewArray (some [NewBulkBytes none, NewBulkBytes (some []),
        NewArray none, NewArray (some []), NewInt (some [45, 55])])) = some (Except.ok w) ∧
      DecodeFromBytes w = Except.ok (NewArray (some [NewBulkBytes none, NewBulkBytes (some []),
        NewArray none, NewArray (some []), NewInt (some [45, 55])])) :=
  roundtrip_line_safe (NewArray (some [NewBulkBytes none, NewBulkBytes (some []),
    NewArray none, NewArray (some []), NewInt (some [45, 55])])) 0 (by decide) (by decide)

end resp

/-! ## Properties of the codecs -/

namespace dubbo

open protocol

/-- C17: when the input holds fewer bytes than the fixed header length of 16,
`Decode` returns no frame and no error and leaves the input as it is, whatever
`decodeFrame` would do, so that it does not parse the input; the result of
`Decode` comes from `decodeFrame` only when at least 16 bytes are held. -/
theorem Decode_needs_header {F ε : Type}
    (decodeFrame : List Byte → (Option F × Option ε) × List Byte) (data : List Byte) :
    HeaderLen = 16 ∧
    (data.length < HeaderLen → Decode decodeFrame data = ((none, none), data)) ∧
    (HeaderLen ≤ data.length →
      Decode decodeFrame data =
        match decodeFrame data with
        | ((_, some err), data1) => ((none, some (DecodeError.wrapped err)), data1)
        | ((frame, none), data1) => ((frame, none), data1)) := by
  refine ⟨rfl, ?_, ?_⟩
  · intro h
    unfold Decode
    rw [if_neg (by omega)]
  · intro h
    unfold Decode
    rw [if_pos h]

/-- C17, at a concrete input: a buffer of 15 bytes, and a buffer of 16 bytes
given to a `decodeFrame` that takes the header off and returns a frame. -/
theorem Decode_needs_header_witness :
    Decode (fun data => ((some data.length, (none : Option Unit)), data.drop 16))
        (List.replicate 15 218) = ((none, none), List.replicate 15 218) ∧
    Decode (fun data => ((some data.length, (none : Option Unit)), data.drop 16))
        (List.replicate 16 218) = ((some 16, none), []) :=
  ⟨(Decode_needs_header (fun data => ((some data.length, (none : Option Unit)), data.drop 16))
      (List.replicate 15 218)).2.1 (by decide),
   (Decode_needs_header (fun data => ((some data.length, (none : Option Unit)), data.drop 16))
      (List.replicate 16 218)).2.2 (by decide)⟩

/-- C18, where the code departs from the claim: given the nil pointer of type
`*Frame`, which is no frame and has no direction, `Encode` panics instead of
returning `ErrUnknownType`.  For every other model `Encode` does what the claim
says: it returns no bytes and `ErrUnknownType` for a model that is not a
`*Frame` and for a frame whose direction is neither `EventRequest` nor
`EventResponse`; it does what `encodeRequest` does for a frame whose direction is
`EventRequest`, and what `encodeResponse` does for a frame whose direction is
`EventResponse` and not `EventRequest`. -/
theorem Encode_nil_frame_panics {F β ε : Type} (Direction : F → Int)
    (EventRequest EventResponse : Int)
    (encodeRequest encodeResponse : F → resp.Outcome (Option β × Option ε))
    (ErrUnknownType : ε) :
    Encode Direction EventRequest EventResponse encodeRequest encodeResponse ErrUnknownType
        Model.nilFrame = resp.Outcome.panics ∧
    Encode Direction EventRequest EventResponse encodeRequest encodeResponse ErrUnknownType
        Model.other = resp.Outcome.returns (none, some ErrUnknownType) ∧
    (∀ frame, Direction frame ≠ EventRequest → Direction frame ≠ EventResponse →
      Encode Direction EventRequest EventResponse encodeRequest encodeResponse ErrUnknownType
        (Model.frame frame) = resp.Outcome.returns (none, some ErrUnknownType)) ∧
    (∀ frame, Direction frame = EventRequest →
      Encode Direction EventRequest EventResponse encodeRequest encodeResponse ErrUnknownType
        (Model.frame frame) = encodeRequest frame) ∧
    (∀ frame, Direction frame ≠ EventRequest → Direction frame = EventResponse →
      Encode Direction EventRequest EventResponse encodeRequest encodeResponse ErrUnknownType
        (Model.frame frame) = encodeResponse frame) := by
  refine ⟨rfl, rfl, ?_, ?_, ?_⟩
  · intro frame h1 h2
    simp only [Encode, if_neg h1, if_neg h2]
  · intro frame h1
    simp only [Encode, if_pos h1]
  · intro frame h1 h2
    simp only [Encode, if_neg h1, if_pos h2]

/-- C18, at a concrete input: frames that are their own direction, with request
direction 1 and response direction 0, and encoders that return one byte; the
nil pointer, and the frames of directions 7, 1 and 0. -/
theorem Encode_nil_frame_panics_witness :
    Encode (fun f : Int => f) 1 0 (fun _ => resp.Outcome.returns (some [1], none))
        (fun _ => resp.Outcome.returns (some [0], none)) "unknown type" Model.nilFrame
      = (resp.Outcome.panics : resp.Outcome (Option (List Nat) × Option String)) ∧
    Encode (fun f : Int => f) 1 0 (fun _ => resp.Outcome.returns (some [1], none))
        (fun _ => resp.Outcome.returns (some [0], none)) "unknown type" (Model.frame 7)
      = resp.Outcome.returns ((none : Option (List Nat)), some "unknown type") ∧
    Encode (fun f : Int => f) 1 0 (fun _ => resp.Outcome.returns (some [1], none))
        (fun _ => resp.Outcome.returns (some [0], none)) "unknown type" (Model.frame 1)
      = resp.Outcome.returns ((some [1] : Option (List Nat)), none) ∧
    Encode (fun f : Int => f) 1 0 (fun _ => resp.Outcome.returns (some [1], none))
        (fun _ => resp.Outcome.returns (some [0], none)) "unknown type" (Model.frame 0)
      = resp.Outcome.returns ((some [0] : Option (List Nat)), none) :=
  ⟨(Encode_nil_frame_panics (fun f : Int => f) 1 0
      (fun _ => resp.Outcome.returns (some [1], none))
      (fun _ => resp.Outcome.returns (some [0], none)) "unknown type").1,
   (Encode_nil_frame_panics (fun f : Int => f) 1 0
      (fun _ => resp.Outcome.returns (some [1], none))
      (fun _ => resp.Outcome.returns (some [0], none)) "unknown type").2.2.1 7
      (by decide) (by decide),
   (Encode_nil_frame_panics (fun f : Int => f) 1 0
      (fun _ => resp.Outcome.returns (some [1], none))
      (fun _ => resp.Outcome.returns (some [0], none)) "unknown type").2.2.2.1 1 rfl,
   (Encode_nil_frame_panics (fun f : Int => f) 1 0
      (fun _ => resp.Outcome.returns (some [1], none))
      (fun _ => resp.Outcome.returns (some [0], none)) "unknown type").2.2.2.2 0
      (by decide) rfl⟩

end dubbo

namespace resp

open protocol

/-- C19, where the code departs from the claim: given a model that is not a
`*Resp`, `RespCodec.Encode` panics in the type assertion instead of returning an
error; given a `*Resp` it returns what `EncodeToBytes` returns, the bytes being
the contents of a buffer that takes every write in full, and it does return, with
the wire form of the value or the error of its first node of unknown type. -/
theorem RespCodec_Encode_panics (typeId : Nat) (r : Resp) (fuel : Nat) :
    RespCodec.Encode bytesBuffer (fun _ => []) fuel (Model.other typeId)
      = some Outcome.panics ∧
    RespCodec.Encode bytesBuffer (fun _ => []) fuel (Model.resp r)
      = (EncodeToBytes fuel r).map Outcome.returns ∧
    RespCodec.Encode bytesBuffer (fun _ => []) (fuel + 3) (Model.resp r)
      = some (Outcome.returns (wireFormat r)) := by
  have key : ∀ f, RespCodec.Encode bytesBuffer (fun _ => []) f (Model.resp r)
      = (EncodeToBytes f r).map Outcome.returns := by
    intro f
    simp only [RespCodec.Encode, EncodeToIoBuffer]
    cases h : EncodeToBytes f r with
    | none => rfl
    | some x =>
      cases x with
      | error e => rfl
      | ok b => simp [bytesBuffer]
  refine ⟨rfl, key fuel, ?_⟩
  rw [key, EncodeToBytes_eq (fuel + 3) (by omega) r]
  rfl

end resp
